import Mathlib

/-!
# Index-Go: a fixed-record binary store

A shallow embedding of `main.go`.  A file is the list of its bytes and the file
system is a partial map from paths to files.  Every Go function that touches a
file becomes a function on that map: read-only functions return
`Except Erro α`, functions that write return the new file system together with
their result.

`Produto`, `Acesso`, `IndexProduto` and `IndexAcesso` are structs of byte
arrays, so `binary.Write` is the concatenation of the fields and `binary.Read`
cuts a block of `binary.Size` bytes back into fields.  The Go source repeats
every algorithm once for products and once for accesses, the two copies
differing only in the record type and in the wording of the messages; the
embedding writes each algorithm once over the class `Record` and instantiates
it twice under the source names.

Go `int` and `int64` values that count records or bytes of a file are modelled
as unbounded integers: they never exceed the size of the file, which the
operating system reports as an `int64`.  The `int32` identifiers and the 8-byte
offset slot of an index entry are modelled with explicit wrap-around.

Loops carry a fuel argument that the callers set from the file length.

A `float32` is its IEEE-754 bit pattern; the comparisons of Go are computed from
the sign, exponent and fraction, exactly, with every comparison against a NaN
false.  The Go map of `userSessionMaisFrequente` is the list of its entries, and
the order in which `range` yields them, which Go leaves unspecified, is an
argument of the function.
-/

namespace IndexGo

/-! ## Bytes, arrays and integer codecs -/

/-- One `byte`. -/
abbrev Byte := Fin 256

/-- Go `[n]byte`. -/
abbrev Arr (n : Nat) := { l : List Byte // l.length = n }

/-- Conversion `byte(x)` of a non-negative integer. -/
def byteOf (x : Nat) : Byte := ⟨x % 256, Nat.mod_lt x (by decide)⟩

/-- The builtin `copy(arr[:], b)` into a fresh zeroed `[n]byte`. -/
def copyArr (n : Nat) (b : List Byte) : Arr n :=
  ⟨b.take n ++ List.replicate (n - b.length) 0, by
    rw [List.length_append, List.length_take, List.length_replicate]; omega⟩

/-- Go `padString`: `make([]byte, length)` followed by `copy(padded, str)`. -/
def padString (str : List Byte) (length : Nat) : List Byte :=
  str.take length ++ List.replicate (length - str.length) 0

/-- Go `bytesToArray10`. -/
def bytesToArray10 (b : List Byte) : Arr 10 := copyArr 10 b

/-- Go `bytesToArray20`. -/
def bytesToArray20 (b : List Byte) : Arr 20 := copyArr 20 b

/-- The `k` low-order bytes of `x`, least significant first
(`binary.LittleEndian.PutUint32` for `k = 4`, `PutUint64` for `k = 8`). -/
def leBytes : Nat → Nat → List Byte
  | 0, _ => []
  | k + 1, x => byteOf x :: leBytes k (x / 256)

/-- The unsigned value of a little-endian byte string
(`binary.LittleEndian.Uint32`, `Uint64`). -/
def leValue : List Byte → Nat
  | [] => 0
  | b :: bs => b.val + 256 * leValue bs

/-- Conversion `int32(x)`: the two's-complement reading of the low 32 bits. -/
def toInt32 (x : Int) : Int := (x + 2147483648) % 4294967296 - 2147483648

/-- Conversion `int64(x)`: the two's-complement reading of the low 64 bits. -/
def toInt64 (x : Int) : Int :=
  (x + 9223372036854775808) % 18446744073709551616 - 9223372036854775808

/-- Go `int32ToBytes`: `PutUint32(buf[:], uint32(n))`. -/
def int32ToBytes (n : Int) : Arr 4 :=
  copyArr 4 (leBytes 4 (n % 4294967296).toNat)

/-- Go `bytesToInt32`: `int32(binary.LittleEndian.Uint32(b[:]))`. -/
def bytesToInt32 (b : Arr 4) : Int := toInt32 (leValue b.val)

/-- The statement `binary.LittleEndian.PutUint64(index.Offset[:], uint64(offset))`. -/
def putOffset (offset : Int) : Arr 8 :=
  copyArr 8 (leBytes 8 (offset % 18446744073709551616).toNat)

/-! ## Records -/

/-- Go `Produto`. -/
structure Produto where
  ID : Arr 4
  ProductID : Arr 4
  Price : Arr 4
  Brand : Arr 20
  CategoryCode : Arr 20
deriving DecidableEq

/-- Go `Acesso`. -/
structure Acesso where
  ID : Arr 4
  UserSession : Arr 20
  UserID : Arr 4
  EventType : Arr 10
deriving DecidableEq

/-- Go `IndexProduto`. -/
structure IndexProduto where
  ID : Arr 4
  Offset : Arr 8
deriving DecidableEq

/-- Go `IndexAcesso`; the struct has the fields of `IndexProduto`. -/
abbrev IndexAcesso := IndexProduto

/-- A struct of byte arrays as `encoding/binary` sees it, with its `ID` field. -/
class Record (α : Type) where
  /-- The value of `binary.Size`. -/
  size : Nat
  /-- The bytes `binary.Write` emits. -/
  encode : α → List Byte
  /-- The struct `binary.Read` fills from a block of `size` bytes. -/
  decode : List Byte → α
  /-- The field `ID`. -/
  key : α → Arr 4
  /-- The assignment `r.ID = k`. -/
  setKey : α → Arr 4 → α

instance : Record Produto where
  size := 52
  encode p := p.ID.val ++ p.ProductID.val ++ p.Price.val ++ p.Brand.val ++ p.CategoryCode.val
  decode l :=
    { ID := copyArr 4 l
      ProductID := copyArr 4 (l.drop 4)
      Price := copyArr 4 (l.drop 8)
      Brand := copyArr 20 (l.drop 12)
      CategoryCode := copyArr 20 (l.drop 32) }
  key p := p.ID
  setKey p k := { p with ID := k }

instance : Record Acesso where
  size := 38
  encode a := a.ID.val ++ a.UserSession.val ++ a.UserID.val ++ a.EventType.val
  decode l :=
    { ID := copyArr 4 l
      UserSession := copyArr 20 (l.drop 4)
      UserID := copyArr 4 (l.drop 24)
      EventType := copyArr 10 (l.drop 28) }
  key a := a.ID
  setKey a k := { a with ID := k }

instance : Record IndexProduto where
  size := 12
  encode e := e.ID.val ++ e.Offset.val
  decode l := { ID := copyArr 4 l, Offset := copyArr 8 (l.drop 4) }
  key e := e.ID
  setKey e k := { e with ID := k }

/-- The identifier of a record: `bytesToInt32(r.ID)`. -/
def idOf {α : Type} [Record α] (r : α) : Int := bytesToInt32 (Record.key r)

/-! ## Files and errors -/

/-- The file system: the bytes of each existing file. -/
abbrev FS := String → Option (List Byte)

/-- The effect of `os.Create(path)`: the file exists and is empty. -/
def FS.create (fs : FS) (path : String) : FS :=
  fun q => if q = path then some [] else fs q

/-- The file at `path` holds `bytes`. -/
def FS.write (fs : FS) (path : String) (bytes : List Byte) : FS :=
  fun q => if q = path then some bytes else fs q

/-- The effect of a write through `os.OpenFile(path, O_APPEND|O_WRONLY|O_CREATE)`. -/
def FS.append (fs : FS) (path : String) (bytes : List Byte) : FS :=
  fun q => if q = path then some ((fs path).getD [] ++ bytes) else fs q

/-- The effect of `os.Rename(old, new)` when `old` exists. -/
def FS.rename (fs : FS) (old new : String) : FS :=
  fun q => if q = new then fs old else if q = old then none else fs q

/-- The two errors `binary.Read` returns at the end of a file: `io.EOF` when no
byte is left, `io.ErrUnexpectedEOF` when the block is cut short. -/
inductive ReadErr where
  | eof
  | unexpectedEOF
deriving DecidableEq

/-- The errors the store returns, one constructor per message
(the product and the access wording of a message share a constructor). -/
inductive Erro where
  /-- Message "erro ao abrir o arquivo ..." of a data file. -/
  | abrir
  /-- Message "erro ao abrir o arquivo de índice ...". -/
  | abrirIndice
  /-- Message "erro ao buscar no arquivo". -/
  | buscar
  /-- Message "erro ao buscar no arquivo de índice". -/
  | buscarIndice
  /-- Message "erro ao mover o cursor para o offset". -/
  | moverCursor
  /-- Message "erro ao ler registro de produto: %w" (or "de acesso"). -/
  | ler (causa : ReadErr)
  /-- Message "erro ao ler registro de índice de produto: %w" (or "de acesso"). -/
  | lerIndice (causa : ReadErr)
  /-- Message "produto com ID %d não encontrado" (or "acesso"). -/
  | naoEncontrado (id : Int)
  /-- Message "nenhum produto encontrado". -/
  | nenhumProduto
  /-- The fuel of a loop ran out; no Go run ends this way. -/
  | semCombustivel
deriving DecidableEq

deriving instance DecidableEq for Except

/-- The call `file.Seek(offset, 0)`: the bytes from `offset` on, or failure for a
negative offset. -/
def seek (bytes : List Byte) (offset : Int) : Option (List Byte) :=
  if offset < 0 then none else some (bytes.drop offset.toNat)

/-- The call `binary.Read(file, binary.LittleEndian, &v)` with `rest` left to
read: the struct and what is left after it. -/
def binaryRead (α : Type) [Record α] (rest : List Byte) : Except ReadErr (α × List Byte) :=
  if rest.length = 0 then .error .eof
  else if rest.length < Record.size α then .error .unexpectedEOF
  else .ok (Record.decode (rest.take (Record.size α)), rest.drop (Record.size α))

/-- The bytes of a file made of the records `rs`, each written by `binary.Write`. -/
def encodeAll {α : Type} [Record α] (rs : List α) : List Byte :=
  rs.flatMap Record.encode

/-! ## Direct binary search -/

/-- The loop `for start <= size` of `pesquisarProduto` and `pesquisarAcesso`. -/
def pesquisarLoop (α : Type) [Record α] (bytes : List Byte) (id : Int) :
    Nat → Int → Int → Except Erro α
  | 0, _, _ => .error .semCombustivel
  | fuel + 1, start, size =>
    if start ≤ size then
      let mid := (start + size).tdiv 2
      match seek bytes (mid * (Record.size α : Int)) with
      | none => .error .buscar
      | some rest =>
        match binaryRead α rest with
        | .error e => .error (.ler e)
        | .ok (reg, _) =>
          let midID := bytesToInt32 (Record.key reg)
          if midID = id then .ok reg
          else if midID < id then pesquisarLoop α bytes id fuel (mid + 1) size
          else pesquisarLoop α bytes id fuel start (mid - 1)
    else .error (.naoEncontrado id)

/-- The body shared by `pesquisarProduto` and `pesquisarAcesso`. -/
def pesquisar (α : Type) [Record α] (fs : FS) (filename : String) (id : Int) : Except Erro α :=
  match fs filename with
  | none => .error .abrir
  | some bytes =>
    let size : Int := ((bytes.length / Record.size α : Nat) : Int)
    pesquisarLoop α bytes id (bytes.length / Record.size α + 2) 0 size

/-- Go `pesquisarProduto`. -/
def pesquisarProduto (fs : FS) (filename : String) (id : Int) : Except Erro Produto :=
  pesquisar Produto fs filename id

/-- Go `pesquisarAcesso`. -/
def pesquisarAcesso (fs : FS) (filename : String) (id : Int) : Except Erro Acesso :=
  pesquisar Acesso fs filename id

/-! ## Sequential scans -/

/-- The loop of `lerArquivoProdutos` and `lerArquivoAcessos`; `lidos` collects
the records in the order the loop prints them. -/
def lerArquivoLoop (α : Type) [Record α] : Nat → List Byte → List α → List α × Except Erro Unit
  | 0, _, lidos => (lidos, .error .semCombustivel)
  | fuel + 1, rest, lidos =>
    match binaryRead α rest with
    | .error e => if e = .eof then (lidos, .ok ()) else (lidos, .error (.ler e))
    | .ok (reg, rest1) => lerArquivoLoop α fuel rest1 (lidos ++ [reg])

/-- The body shared by `lerArquivoProdutos` and `lerArquivoAcessos`: the
records printed, in order, and the result. -/
def lerArquivo (α : Type) [Record α] (fs : FS) (filename : String) : List α × Except Erro Unit :=
  match fs filename with
  | none => ([], .error .abrir)
  | some bytes => lerArquivoLoop α (bytes.length + 1) bytes []

/-- The identifiers of the records of a file, in file order. -/
def idsDoArquivo (α : Type) [Record α] (fs : FS) (filename : String) : List Int :=
  (lerArquivo α fs filename).1.map idOf

/-- The loop of `proximoIDProdutos` and `proximoIDAcessos`; the sum
`lastID + 1` is an `int32`. -/
def proximoIDLoop (α : Type) [Record α] : Nat → List Byte → Int → Except Erro Int
  | 0, _, _ => .error .semCombustivel
  | fuel + 1, rest, lastID =>
    match binaryRead α rest with
    | .error e => if e = .eof then .ok (toInt32 (lastID + 1)) else .error (.ler e)
    | .ok (reg, rest1) => proximoIDLoop α fuel rest1 (bytesToInt32 (Record.key reg))

/-- The body shared by `proximoIDProdutos` and `proximoIDAcessos`. -/
def proximoID (α : Type) [Record α] (fs : FS) (filename : String) : Except Erro Int :=
  match fs filename with
  | none => .error .abrir
  | some bytes => proximoIDLoop α (bytes.length + 1) bytes 0

/-- Go `proximoIDProdutos`. -/
def proximoIDProdutos (fs : FS) (filename : String) : Except Erro Int :=
  proximoID Produto fs filename

/-- Go `proximoIDAcessos`. -/
def proximoIDAcessos (fs : FS) (filename : String) : Except Erro Int :=
  proximoID Acesso fs filename

/-! ## The index -/

/-- The loop of `criarIndiceProdutos` and `criarIndiceAcessos`; `escrito` is
what has been written to the index file so far. -/
def criarIndiceLoop (α : Type) [Record α] :
    Nat → List Byte → Int → List Byte → List Byte × Except Erro Unit
  | 0, _, _, escrito => (escrito, .error .semCombustivel)
  | fuel + 1, rest, offset, escrito =>
    match binaryRead α rest with
    | .error e => if e = .eof then (escrito, .ok ()) else (escrito, .error (.ler e))
    | .ok (reg, rest1) =>
      let index : IndexProduto := { ID := Record.key reg, Offset := putOffset offset }
      criarIndiceLoop α fuel rest1 (offset + (Record.size α : Int)) (escrito ++ Record.encode index)

/-- The body shared by `criarIndiceProdutos` and `criarIndiceAcessos`.  The data
file is opened first, `os.Create` then empties the index file, and the reads
see the data file as it is after that. -/
def criarIndice (α : Type) [Record α] (fs : FS) (filename indexName : String) :
    FS × Except Erro Unit :=
  match fs filename with
  | none => (fs, .error .abrir)
  | some _ =>
    let fs1 := fs.create indexName
    let bytes := (fs1 filename).getD []
    let res := criarIndiceLoop α (bytes.length + 1) bytes 0 []
    (fs1.write indexName res.1, res.2)

/-- Go `criarIndiceProdutos`. -/
def criarIndiceProdutos (fs : FS) (filenameProd indexProd : String) : FS × Except Erro Unit :=
  criarIndice Produto fs filenameProd indexProd

/-- Go `criarIndiceAcessos`. -/
def criarIndiceAcessos (fs : FS) (filenameAccess indexAccess : String) : FS × Except Erro Unit :=
  criarIndice Acesso fs filenameAccess indexAccess

/-- The body shared by `buscarProdutoPorOffset` and `buscarAcessoPorOffset`. -/
def buscarPorOffset (α : Type) [Record α] (fs : FS) (filename : String) (offset : Int) :
    Except Erro α :=
  match fs filename with
  | none => .error .abrir
  | some bytes =>
    match seek bytes offset with
    | none => .error .moverCursor
    | some rest =>
      match binaryRead α rest with
      | .error e => .error (.ler e)
      | .ok (reg, _) => .ok reg

/-- Go `buscarProdutoPorOffset`. -/
def buscarProdutoPorOffset (fs : FS) (filename : String) (offset : Int) : Except Erro Produto :=
  buscarPorOffset Produto fs filename offset

/-- Go `buscarAcessoPorOffset`. -/
def buscarAcessoPorOffset (fs : FS) (filename : String) (offset : Int) : Except Erro Acesso :=
  buscarPorOffset Acesso fs filename offset

/-- The loop `for start <= indexSize` of `consultarProdutoComIndice` and
`consultarAcessoComIndice` over the bytes `indice` of the index file. -/
def consultarLoop (α : Type) [Record α] (fs : FS) (filename : String) (indice : List Byte)
    (id : Int) : Nat → Int → Int → Except Erro α
  | 0, _, _ => .error .semCombustivel
  | fuel + 1, start, indexSize =>
    if start ≤ indexSize then
      let mid := (start + indexSize).tdiv 2
      match seek indice (mid * (Record.size IndexProduto : Int)) with
      | none => .error .buscarIndice
      | some rest =>
        match binaryRead IndexProduto rest with
        | .error e => .error (.lerIndice e)
        | .ok (index, _) =>
          let midID := bytesToInt32 index.ID
          if midID = id then
            let offset := leValue index.Offset.val
            buscarPorOffset α fs filename (toInt64 offset)
          else if midID < id then consultarLoop α fs filename indice id fuel (mid + 1) indexSize
          else consultarLoop α fs filename indice id fuel start (mid - 1)
    else .error (.naoEncontrado id)

/-- The body shared by `consultarProdutoComIndice` and `consultarAcessoComIndice`. -/
def consultarComIndice (α : Type) [Record α] (fs : FS) (indexName filename : String) (id : Int) :
    Except Erro α :=
  match fs indexName with
  | none => .error .abrirIndice
  | some indice =>
    let indexSize : Int := ((indice.length / Record.size IndexProduto : Nat) : Int)
    consultarLoop α fs filename indice id (indice.length / Record.size IndexProduto + 2) 0 indexSize

/-- Go `consultarProdutoComIndice`. -/
def consultarProdutoComIndice (fs : FS) (indexProd filenameProd : String) (id : Int) :
    Except Erro Produto :=
  consultarComIndice Produto fs indexProd filenameProd id

/-- Go `consultarAcessoComIndice`. -/
def consultarAcessoComIndice (fs : FS) (indexAccess filenameAccess : String) (id : Int) :
    Except Erro Acesso :=
  consultarComIndice Acesso fs indexAccess filenameAccess id

/-! ## Insertion and removal -/

/-- The body shared by `inserirProduto` and `inserirAcesso`. -/
def inserir (α : Type) [Record α] (fs : FS) (filename : String) (reg : α) : FS × Except Erro Unit :=
  (fs.append filename (Record.encode reg), .ok ())

/-- Go `inserirProduto`. -/
def inserirProduto (fs : FS) (filename : String) (produto : Produto) : FS × Except Erro Unit :=
  inserir Produto fs filename produto

/-- Go `inserirAcesso`. -/
def inserirAcesso (fs : FS) (filename : String) (acesso : Acesso) : FS × Except Erro Unit :=
  inserir Acesso fs filename acesso

/-- The body shared by `inserirProdutoECriarIndice` and `inserirAcessoECriarIndice`. -/
def inserirECriarIndice (α : Type) [Record α] (fs : FS) (filename filenameIndex : String)
    (reg : α) : FS × Except Erro Unit :=
  let r := inserir α fs filename reg
  match r.2 with
  | .error e => (r.1, .error e)
  | .ok _ => criarIndice α r.1 filename filenameIndex

/-- Go `inserirProdutoECriarIndice`. -/
def inserirProdutoECriarIndice (fs : FS) (filenameProd filenameIndex : String)
    (produto : Produto) : FS × Except Erro Unit :=
  inserirECriarIndice Produto fs filenameProd filenameIndex produto

/-- Go `inserirAcessoECriarIndice`. -/
def inserirAcessoECriarIndice (fs : FS) (filenameAccess filenameIndex : String)
    (acesso : Acesso) : FS × Except Erro Unit :=
  inserirECriarIndice Acesso fs filenameAccess filenameIndex acesso

/-- The loop of `removerProduto` and `removerAcesso`; `escrito` is what has been
written to the temporary file so far. -/
def removerLoop (α : Type) [Record α] (id : Int) :
    Nat → List Byte → Bool → List Byte → List Byte × Except Erro Bool
  | 0, _, _, escrito => (escrito, .error .semCombustivel)
  | fuel + 1, rest, found, escrito =>
    match binaryRead α rest with
    | .error e => if e = .eof then (escrito, .ok found) else (escrito, .error (.ler e))
    | .ok (reg, rest1) =>
      if bytesToInt32 (Record.key reg) = id then removerLoop α id fuel rest1 true escrito
      else removerLoop α id fuel rest1 found (escrito ++ Record.encode reg)

/-- The body shared by `removerProduto` and `removerAcesso`; `temp` and
`indexFixo` are the two file names written in the function. -/
def remover (α : Type) [Record α] (temp indexFixo : String) (fs : FS) (filename : String)
    (id : Int) : FS × Except Erro Unit :=
  let fs1 := fs.create temp
  match fs1 filename with
  | none => (fs1, .error .abrir)
  | some bytes =>
    let res := removerLoop α id (bytes.length + 1) bytes false []
    let fs2 := fs1.write temp res.1
    match res.2 with
    | .error e => (fs2, .error e)
    | .ok false => (fs2, .error (.naoEncontrado id))
    | .ok true => criarIndice α (fs2.rename temp filename) filename indexFixo

/-- Go `removerProduto`. -/
def removerProduto (fs : FS) (filenameProd : String) (id : Int) : FS × Except Erro Unit :=
  remover Produto "temp_produtos.bin" "indice_produtos.bin" fs filenameProd id

/-- Go `removerAcesso`. -/
def removerAcesso (fs : FS) (filenameAccess : String) (id : Int) : FS × Except Erro Unit :=
  remover Acesso "temp_acessos.bin" "indice_acessos.bin" fs filenameAccess id

/-! ## Specification vocabulary -/

/-- The laws of `encoding/binary` on a struct of byte arrays: a block has
`binary.Size` bytes and reading a written block gives the struct back. -/
structure Lawful (α : Type) [Record α] : Prop where
  size_pos : 0 < Record.size α
  length_encode : ∀ r : α, (Record.encode r).length = Record.size α
  decode_encode : ∀ r : α, Record.decode (Record.encode r) = r
  key_setKey : ∀ (r : α) (k : Arr 4), Record.key (Record.setKey r k) = k

/-- The identifiers of a list of records are strictly ascending. -/
def StrictAsc {α : Type} [Record α] (rs : List α) : Prop :=
  (rs.map idOf).Pairwise (fun a b => a < b)

/-- The index entries of the records `rs` when the first of them lies at byte
`offset` of a data file whose records have `size` bytes. -/
def indexFrom {α : Type} [Record α] : Int → List α → List IndexProduto
  | _, [] => []
  | offset, r :: rs =>
    { ID := Record.key r, Offset := putOffset offset } :: indexFrom (offset + (Record.size α : Int)) rs

/-! ## Vocabulary of the index-assisted lookup -/

/-- What an error of the direct search becomes when the same step fails on the
index file. -/
def erroNoIndice : Erro → Erro
  | .ler e => .lerIndice e
  | .buscar => .buscarIndice
  | e => e

/-! ## Sequences of insertions and removals -/

/-- One mutation of a data file as `main` performs it: an insertion of a new
record, whose `ID` the store assigns, or a removal by identifier. -/
inductive Op (α : Type) where
  | inserir (novo : α)
  | remover (id : Int)

/-- Whether an operation is an insertion. -/
def Op.isInserir {α : Type} : Op α → Bool
  | .inserir _ => true
  | .remover _ => false

/-- One operation on the data file `filename`.  An insertion is the sequence of
`main`: `proximoID` on the current file, `novo.ID = int32ToBytes(proximoID)`,
then `inserir`; a removal is `remover`, whatever its result. -/
def passo (α : Type) [Record α] (temp indexFixo filename : String) (fs : FS) : Op α → FS
  | .inserir novo =>
    match proximoID α fs filename with
    | .error _ => fs
    | .ok id => (inserir α fs filename (Record.setKey novo (int32ToBytes id))).1
  | .remover id => (remover α temp indexFixo fs filename id).1

/-- The operations `ops` in order on the product file `filename`. -/
def executarProdutos (filename : String) (fs : FS) (ops : List (Op Produto)) : FS :=
  ops.foldl (passo Produto "temp_produtos.bin" "indice_produtos.bin" filename) fs

/-- The operations `ops` in order on the access file `filename`. -/
def executarAcessos (filename : String) (fs : FS) (ops : List (Op Acesso)) : FS :=
  ops.foldl (passo Acesso "temp_acessos.bin" "indice_acessos.bin" filename) fs

/-- The records a run of `n` insertions of `novo` into an empty file appends
while the identifiers `1, 2, ..., n` fit an `int32`. -/
def inseridos {α : Type} [Record α] (novo : α) (n : Nat) : List α :=
  (List.range n).map (fun (i : Nat) => Record.setKey novo (int32ToBytes ((i : Int) + 1)))

/-! ## Example files -/

instance {α : Type} [Record α] (rs : List α) : Decidable (StrictAsc rs) :=
  inferInstanceAs (Decidable ((rs.map idOf).Pairwise (fun a b => a < b)))

/-- A product record with identifier `id`, in the manner of `novoProduto` in `main`. -/
def exemploProduto (id : Int) : Produto :=
  { ID := int32ToBytes id
    ProductID := int32ToBytes 12345
    Price := copyArr 4 []
    Brand := bytesToArray20 (padString [78, 111, 118, 97] 20)
    CategoryCode := bytesToArray20 (padString [] 20) }

/-- An access record with identifier `id`, in the manner of `novoAcesso` in `main`. -/
def exemploAcesso (id : Int) : Acesso :=
  { ID := int32ToBytes id
    UserSession := bytesToArray20 (padString [115, 49, 50, 51] 20)
    UserID := int32ToBytes 67890
    EventType := bytesToArray10 (padString [118, 105, 101, 119] 10) }

/-- The files "produtos.bin" and "acessos.bin" with the identifiers `ids`. -/
def fsCom (ids : List Int) : FS := fun q =>
  if q = "produtos.bin" then some (encodeAll (ids.map exemploProduto))
  else if q = "acessos.bin" then some (encodeAll (ids.map exemploAcesso))
  else none

/-- The files "produtos.bin" and "acessos.bin" with the identifiers 1, 2, 3. -/
def fsExemplo : FS := fsCom [1, 2, 3]

/-- The file system of `fsExemplo` after `main` has built the two indexes
"indice_produtos.dat" and "indice_acessos.dat". -/
def fsIndexado : FS :=
  (criarIndiceAcessos (criarIndiceProdutos fsExemplo "produtos.bin" "indice_produtos.dat").1
    "acessos.bin" "indice_acessos.dat").1

/-! ## Floating-point prices -/

/-- A `float32`, given by its IEEE-754 bit pattern, the `uint32` that
`math.Float32bits` returns and `math.Float32frombits` reads. -/
abbrev Float32 := Fin 4294967296

/-- The biased exponent, bits 23 to 30. -/
def Float32.expoente (f : Float32) : Nat := f.val / 8388608 % 256

/-- The fraction, bits 0 to 22. -/
def Float32.mantissa (f : Float32) : Nat := f.val % 8388608

/-- The sign bit, bit 31. -/
def Float32.negativo (f : Float32) : Bool := decide (f.val / 2147483648 = 1)

/-- Whether the value is a NaN: exponent 255 with a non-zero fraction. -/
def Float32.isNaN (f : Float32) : Bool :=
  decide (f.expoente = 255) && decide (f.mantissa ≠ 0)

/-- The magnitude of a value that is not a NaN, in units of `2^-149`, the
spacing of the subnormal numbers; an infinity counts as `2^278`, above every
finite magnitude. -/
def Float32.magnitude (f : Float32) : Nat :=
  if f.expoente = 255 then 2 ^ 278
  else if f.expoente = 0 then f.mantissa
  else (8388608 + f.mantissa) * 2 ^ (f.expoente - 1)

/-- The value of a `float32` that is not a NaN, in units of `2^-149`; the two
zeros have the same value. -/
def Float32.escala (f : Float32) : Int :=
  if f.negativo then -(f.magnitude : Int) else (f.magnitude : Int)

/-- The Go comparison `a > b` on `float32`: false when either side is a NaN. -/
def Float32.gt (a b : Float32) : Bool :=
  !a.isNaN && !b.isNaN && decide (b.escala < a.escala)

/-- The Go comparison `a >= b` on `float32`: false when either side is a NaN. -/
def Float32.ge (a b : Float32) : Bool :=
  !a.isNaN && !b.isNaN && decide (b.escala ≤ a.escala)

/-- Go `float32ToBytes`: `PutUint32(buf[:], math.Float32bits(f))`. -/
def float32ToBytes (f : Float32) : Arr 4 := copyArr 4 (leBytes 4 f.val)

/-- Go `bytesToFloat32`: `math.Float32frombits(binary.LittleEndian.Uint32(b[:]))`. -/
def bytesToFloat32 (b : Arr 4) : Float32 :=
  ⟨leValue b.val % 4294967296, Nat.mod_lt _ (by decide)⟩

/-- The price of a product record: `bytesToFloat32(produto.Price)`. -/
def precoDe (p : Produto) : Float32 := bytesToFloat32 p.Price

/-! ## The most expensive product -/

/-- The zero value `Produto{}` of `var produtoMaisCaro Produto`. -/
def produtoZero : Produto :=
  { ID := copyArr 4 [], ProductID := copyArr 4 [], Price := copyArr 4 [],
    Brand := copyArr 20 [], CategoryCode := copyArr 20 [] }

/-- The loop `for i := 0; i < size; i++` of `encontrarProdutoMaisCaro` with
`restantes = size - i` iterations to go; it returns `produtoMaisCaro` and
`count`. -/
def encontrarProdutoMaisCaroLoop (bytes : List Byte) :
    Nat → Int → Produto → Float32 → Int → Except Erro (Produto × Int)
  | 0, _, produtoMaisCaro, _, count => .ok (produtoMaisCaro, count)
  | restantes + 1, i, produtoMaisCaro, maiorPreco, count =>
    match seek bytes (i * (Record.size Produto : Int)) with
    | none => .error .moverCursor
    | some rest =>
      match binaryRead Produto rest with
      | .error e => if e = .eof then .ok (produtoMaisCaro, count) else .error (.ler e)
      | .ok (produto, _) =>
        let preco := bytesToFloat32 produto.Price
        if preco.gt maiorPreco then
          encontrarProdutoMaisCaroLoop bytes restantes (i + 1) produto preco (count + 1)
        else
          encontrarProdutoMaisCaroLoop bytes restantes (i + 1) produtoMaisCaro maiorPreco
            (count + 1)

/-- Go `encontrarProdutoMaisCaro`. -/
def encontrarProdutoMaisCaro (fs : FS) (filename : String) : Except Erro Produto :=
  match fs filename with
  | none => .error .abrir
  | some bytes =>
    let size := bytes.length / Record.size Produto
    match encontrarProdutoMaisCaroLoop bytes size 0 produtoZero 0 0 with
    | .error e => .error e
    | .ok (produtoMaisCaro, count) =>
      if count = 0 then .error .nenhumProduto else .ok produtoMaisCaro

/-! ## The most frequent session -/

/-- The Go map `sessaoCount` of type `map[string]int`: its entries, each key once. -/
abbrev Mapa := List (List Byte × Int)

/-- The statement `sessaoCount[sessao]++`. -/
def Mapa.incr : Mapa → List Byte → Mapa
  | [], sessao => [(sessao, 1)]
  | (k, c) :: resto, sessao =>
    if k = sessao then (k, c + 1) :: resto else (k, c) :: Mapa.incr resto sessao

/-- The first loop of `userSessionMaisFrequente`: the map after the scan. -/
def contarSessoesLoop : Nat → List Byte → Mapa → Except Erro Mapa
  | 0, _, _ => .error .semCombustivel
  | fuel + 1, rest, sessaoCount =>
    match binaryRead Acesso rest with
    | .error e => if e = .eof then .ok sessaoCount else .error (.ler e)
    | .ok (acesso, rest1) => contarSessoesLoop fuel rest1 (sessaoCount.incr acesso.UserSession.val)

/-- The loop `for sessao, count := range sessaoCount` over the entries in the
order the runtime yields them; it returns `sessaoMaisFrequente` and `maxCount`. -/
def maisFrequenteLoop : List (List Byte × Int) → List Byte → Int → List Byte × Int
  | [], sessaoMaisFrequente, maxCount => (sessaoMaisFrequente, maxCount)
  | (sessao, count) :: resto, sessaoMaisFrequente, maxCount =>
    if count > maxCount then maisFrequenteLoop resto sessao count
    else maisFrequenteLoop resto sessaoMaisFrequente maxCount

/-- Go `userSessionMaisFrequente`.  The iteration order of a Go map is not
specified: `visita` gives the order in which `range` yields the entries of the
map, a permutation of them. -/
def userSessionMaisFrequente (visita : Mapa → Mapa) (fs : FS) (filename : String) :
    Except Erro (List Byte × Int) :=
  match fs filename with
  | none => .error .abrir
  | some bytes =>
    match contarSessoesLoop (bytes.length + 1) bytes [] with
    | .error e => .error e
    | .ok sessaoCount => .ok (maisFrequenteLoop (visita sessaoCount) [] 0)

/-! ## Typed field values -/

/-- The field values of a product as `processCSV` holds them before encoding
and `lerArquivoProdutos` after decoding. -/
structure CamposProduto where
  id : Int
  productID : Int
  price : Float32
  brand : List Byte
  categoryCode : List Byte
deriving DecidableEq

/-- The field values of an access, as for `CamposProduto`. -/
structure CamposAcesso where
  id : Int
  userSession : List Byte
  userID : Int
  eventType : List Byte
deriving DecidableEq

/-- The encoding of a product in `processCSV`: `int32ToBytes`, `float32ToBytes`
and `copy(produto.Brand[:], padString(brand, 20))`. -/
def codificarProduto (c : CamposProduto) : Produto :=
  { ID := int32ToBytes c.id
    ProductID := int32ToBytes c.productID
    Price := float32ToBytes c.price
    Brand := copyArr 20 (padString c.brand 20)
    CategoryCode := copyArr 20 (padString c.categoryCode 20) }

/-- The decoding of a product in `lerArquivoProdutos`: `bytesToInt32`,
`bytesToFloat32` and `string(produto.Brand[:])`. -/
def decodificarProduto (p : Produto) : CamposProduto :=
  { id := bytesToInt32 p.ID
    productID := bytesToInt32 p.ProductID
    price := bytesToFloat32 p.Price
    brand := p.Brand.val
    categoryCode := p.CategoryCode.val }

/-- The encoding of an access in `processCSV`. -/
def codificarAcesso (c : CamposAcesso) : Acesso :=
  { ID := int32ToBytes c.id
    UserSession := copyArr 20 (padString c.userSession 20)
    UserID := int32ToBytes c.userID
    EventType := copyArr 10 (padString c.eventType 10) }

/-- The decoding of an access in `lerArquivoAcessos`. -/
def decodificarAcesso (a : Acesso) : CamposAcesso :=
  { id := bytesToInt32 a.ID
    userSession := a.UserSession.val
    userID := bytesToInt32 a.UserID
    eventType := a.EventType.val }

/-! ## Vocabulary of the aggregates -/

/-- The pair `(produtoMaisCaro, maiorPreco)` of `encontrarProdutoMaisCaro` after
its loop body has run on the records `rs` in order. -/
def varrerPrecos : List Produto → Produto → Float32 → Produto × Float32
  | [], produtoMaisCaro, maiorPreco => (produtoMaisCaro, maiorPreco)
  | p :: rs, produtoMaisCaro, maiorPreco =>
    if (precoDe p).gt maiorPreco then varrerPrecos rs p (precoDe p)
    else varrerPrecos rs produtoMaisCaro maiorPreco

/-- The number of records of `rs` whose `UserSession` is `sessao`. -/
def ocorrencias (rs : List Acesso) (sessao : List Byte) : Int :=
  ((rs.map (fun a => a.UserSession.val)).count sessao : Nat)

/-- An order of visit of the map that yields the entry of `sessao` first, when
the map has one, and the other entries after it in their order. -/
def visitaPrimeiro (sessao : List Byte) (m : Mapa) : Mapa :=
  m.filter (fun e => decide (e.1 = sessao)) ++ m.filter (fun e => !decide (e.1 = sessao))

/-! ## More example files -/

/-- A product record with identifier `id` and price of bit pattern `price`. -/
def produtoComPreco (id : Int) (price : Float32) : Produto :=
  { exemploProduto id with Price := float32ToBytes price }

/-- An access record with identifier `id` and the session text `sessao`. -/
def acessoComSessao (id : Int) (sessao : List Byte) : Acesso :=
  { exemploAcesso id with UserSession := bytesToArray20 (padString sessao 20) }

/-- The file system in which `filename` alone exists and holds `bytes`. -/
def fsDe (filename : String) (bytes : List Byte) : FS :=
  fun q => if q = filename then some bytes else none

/-- The product file of Scenario B: identifiers 1, 2, 3 with the prices 10.0,
25.5 and 7.0, of bit patterns `0x41200000`, `0x41CC0000` and `0x40E00000`. -/
def produtosCenarioB : List Produto :=
  [produtoComPreco 1 1092616192, produtoComPreco 2 1103888384, produtoComPreco 3 1088421888]

/-- A product file whose prices are 0.0 and -1.0, the latter of bit pattern
`0xBF800000`. -/
def produtosSemPrecoPositivo : List Produto :=
  [produtoComPreco 1 0, produtoComPreco 2 3212836864]

/-- The access file of Scenario F: the session "a" twice and the session "b" once. -/
def acessosCenarioF : List Acesso :=
  [acessoComSessao 1 [97], acessoComSessao 2 [98], acessoComSessao 3 [97]]

/-- An access file in which the sessions "a" and "b" tie with one record each. -/
def acessosEmpate : List Acesso :=
  [acessoComSessao 1 [97], acessoComSessao 2 [98]]

/-- A file system in which the product data file itself is named
"indice_produtos.bin" and holds the identifiers 1, 2, 3. -/
def fsDadosNoIndiceFixo : FS :=
  fsDe "indice_produtos.bin" (encodeAll ([1, 2, 3].map exemploProduto))

/-- The file system of `fsExemplo` after the caller has built the index of the
products at the path "temp_produtos.bin". -/
def fsIndiceNoTemp : FS :=
  (criarIndiceProdutos fsExemplo "produtos.bin" "temp_produtos.bin").1

/-! ## Codec and file lemmas -/

theorem copyArr_append {n : Nat} (a : Arr n) (rest : List Byte) :
    copyArr n (a.val ++ rest) = a := by
  apply Subtype.ext
  have h := a.property
  simp [copyArr, List.take_append_eq_append_take, h]

theorem copyArr_self {n : Nat} (a : Arr n) : copyArr n a.val = a := by
  have := copyArr_append a []
  simpa using this

theorem drop_arr {n : Nat} (a : Arr n) (rest : List Byte) (k m : Nat) (h : m = n + k) :
    (a.val ++ rest).drop m = rest.drop k := by
  subst h
  have := @List.drop_append _ a.val rest k
  rwa [a.property] at this

theorem lawful_produto : Lawful Produto where
  size_pos := by decide
  length_encode p := by
    simp only [Record.encode, List.length_append, p.ID.property, p.ProductID.property,
      p.Price.property, p.Brand.property, p.CategoryCode.property]
    rfl
  decode_encode p := by
    obtain ⟨a, b, c, d, e⟩ := p
    simp only [Record.encode, Record.decode, List.append_assoc]
    rw [drop_arr a _ 0 4 rfl, drop_arr a _ 4 8 rfl, drop_arr a _ 8 12 rfl, drop_arr a _ 28 32 rfl,
      drop_arr b _ 0 4 rfl, drop_arr b _ 4 8 rfl, drop_arr b _ 24 28 rfl,
      drop_arr c _ 0 4 rfl, drop_arr c _ 20 24 rfl, drop_arr d _ 0 20 rfl]
    simp only [List.drop_zero, copyArr_append, copyArr_self]
  key_setKey _ _ := rfl

theorem lawful_acesso : Lawful Acesso where
  size_pos := by decide
  length_encode p := by
    simp only [Record.encode, List.length_append, p.ID.property, p.UserSession.property,
      p.UserID.property, p.EventType.property]
    rfl
  decode_encode p := by
    obtain ⟨a, b, c, d⟩ := p
    simp only [Record.encode, Record.decode, List.append_assoc]
    rw [drop_arr a _ 0 4 rfl, drop_arr a _ 20 24 rfl, drop_arr a _ 24 28 rfl,
      drop_arr b _ 0 20 rfl, drop_arr b _ 4 24 rfl, drop_arr c _ 0 4 rfl]
    simp only [List.drop_zero, copyArr_append, copyArr_self]
  key_setKey _ _ := rfl

theorem lawful_index : Lawful IndexProduto where
  size_pos := by decide
  length_encode p := by
    simp only [Record.encode, List.length_append, p.ID.property, p.Offset.property]
    rfl
  decode_encode p := by
    obtain ⟨a, b⟩ := p
    simp only [Record.encode, Record.decode]
    rw [drop_arr a _ 0 4 rfl]
    simp only [List.drop_zero, copyArr_append, copyArr_self]
  key_setKey _ _ := rfl

theorem encodeAll_nil {α : Type} [Record α] : encodeAll ([] : List α) = [] := rfl

theorem encodeAll_cons {α : Type} [Record α] (r : α) (rs : List α) :
    encodeAll (r :: rs) = Record.encode r ++ encodeAll rs := by
  simp [encodeAll]

theorem encodeAll_append {α : Type} [Record α] (xs ys : List α) :
    encodeAll (xs ++ ys) = encodeAll xs ++ encodeAll ys := by
  simp [encodeAll]

theorem length_encodeAll {α : Type} [Record α] (hα : Lawful α) (rs : List α) :
    (encodeAll rs).length = rs.length * Record.size α := by
  induction rs with
  | nil => simp [encodeAll_nil]
  | cons r rs ih =>
    rw [encodeAll_cons, List.length_append, ih, hα.length_encode, List.length_cons]
    ring

theorem binaryRead_nil {α : Type} [Record α] : binaryRead α [] = .error .eof := by
  simp [binaryRead]

theorem binaryRead_cons {α : Type} [Record α] (hα : Lawful α) (r : α) (rest : List Byte) :
    binaryRead α (Record.encode r ++ rest) = .ok (r, rest) := by
  have hpos := hα.size_pos
  have hlen := hα.length_encode r
  have h1 : (Record.encode r ++ rest).length ≠ 0 := by
    rw [List.length_append]; omega
  have h2 : ¬ (Record.encode r ++ rest).length < Record.size α := by
    rw [List.length_append]; omega
  have h3 : (Record.encode r ++ rest).take (Record.size α) = Record.encode r := by
    rw [← hlen]; exact List.take_left' rfl
  have h4 : (Record.encode r ++ rest).drop (Record.size α) = rest := by
    rw [← hlen]; exact List.drop_left' rfl
  simp only [binaryRead, h1, h2, if_false, h3, h4, hα.decode_encode]

theorem binaryRead_encodeAll_cons {α : Type} [Record α] (hα : Lawful α) (r : α) (rs : List α) :
    binaryRead α (encodeAll (r :: rs)) = .ok (r, encodeAll rs) := by
  rw [encodeAll_cons, binaryRead_cons hα]

theorem drop_encodeAll {α : Type} [Record α] (hα : Lawful α) (rs : List α) (i : Nat) :
    (encodeAll rs).drop (i * Record.size α) = encodeAll (rs.drop i) := by
  induction rs generalizing i with
  | nil => simp [encodeAll_nil]
  | cons r rs ih =>
    cases i with
    | zero => simp
    | succ i =>
      rw [encodeAll_cons, List.drop_succ_cons, ← ih i]
      have h := @List.drop_append _ (Record.encode r) (encodeAll rs) (i * Record.size α)
      rw [hα.length_encode] at h
      rw [← h]
      congr 1
      ring

theorem seek_encodeAll {α : Type} [Record α] (hα : Lawful α) (rs : List α) (i : Nat) :
    seek (encodeAll rs) ((i : Int) * (Record.size α : Int)) = some (encodeAll (rs.drop i)) := by
  have h : ¬ ((i : Int) * (Record.size α : Int) < 0) := not_lt.mpr (by positivity)
  have h2 : ((i : Int) * (Record.size α : Int)).toNat = i * Record.size α := by
    rw [← Nat.cast_mul, Int.toNat_natCast]
  simp only [seek, h, if_false, h2, drop_encodeAll hα]

theorem binaryRead_drop {α : Type} [Record α] (hα : Lawful α) (rs : List α) (m : Nat) (r : α)
    (h : rs[m]? = some r) :
    binaryRead α (encodeAll (rs.drop m)) = .ok (r, encodeAll (rs.drop (m + 1))) := by
  obtain ⟨hm, rfl⟩ := List.getElem?_eq_some.mp h
  rw [List.drop_eq_getElem_cons hm, binaryRead_encodeAll_cons hα]

theorem binaryRead_drop_end {α : Type} [Record α] (rs : List α) (m : Nat)
    (h : rs.length ≤ m) : binaryRead α (encodeAll (rs.drop m)) = .error .eof := by
  rw [List.drop_eq_nil_of_le h, encodeAll_nil, binaryRead_nil]

theorem strictAsc_lt {α : Type} [Record α] {rs : List α} (hs : StrictAsc rs) {i j : Nat}
    {a b : α} (hi : rs[i]? = some a) (hj : rs[j]? = some b) (hij : i < j) : idOf a < idOf b := by
  obtain ⟨hi1, rfl⟩ := List.getElem?_eq_some.mp hi
  obtain ⟨hj1, rfl⟩ := List.getElem?_eq_some.mp hj
  have h := List.pairwise_iff_getElem.mp hs i j (by simpa using hi1) (by simpa using hj1) hij
  simpa using h

theorem midpoint_bounds (start size : Int) (h0 : 0 ≤ start) (h : start ≤ size) :
    (start + size).tdiv 2 = (((start + size) / 2).toNat : Int) ∧
      start ≤ (start + size) / 2 ∧ (start + size) / 2 ≤ size := by
  rw [Int.tdiv_eq_ediv (by omega) (by decide)]
  refine ⟨?_, by omega, by omega⟩
  rw [Int.toNat_of_nonneg (by omega)]

/-- Binary search over a strictly ascending file reaches a record that lies in
the search range. -/
theorem pesquisarLoop_found {α : Type} [Record α] (hα : Lawful α) (rs : List α)
    (hs : StrictAsc rs) (t : Nat) (r : α) (ht : rs[t]? = some r) :
    ∀ (fuel : Nat) (start size : Int), 0 ≤ start → start ≤ t → (t : Int) ≤ size →
      size ≤ rs.length → size - start < fuel →
      pesquisarLoop α (encodeAll rs) (idOf r) fuel start size = .ok r := by
  intro fuel
  induction fuel with
  | zero => intro start size _ h1 h2 _ h4; omega
  | succ fuel ih =>
    intro start size h0 h1 h2 h3 h4
    obtain ⟨htlen, _⟩ := List.getElem?_eq_some.mp ht
    obtain ⟨hmid, hlo, hhi⟩ := midpoint_bounds start size h0 (by omega)
    have hle : start ≤ size := by omega
    set m : Nat := ((start + size) / 2).toNat with hm
    have hmI : (m : Int) = (start + size) / 2 := by
      rw [hm, Int.toNat_of_nonneg (by omega)]
    have hmlen : m < rs.length := by omega
    have hget := List.getElem?_eq_getElem hmlen
    rw [pesquisarLoop]
    simp only [hle, if_true, hmid, seek_encodeAll hα, binaryRead_drop hα rs m _ hget]
    rcases Nat.lt_trichotomy m t with hlt | heq | hgt
    · have hk : bytesToInt32 (Record.key rs[m]) < idOf r := strictAsc_lt hs hget ht hlt
      rw [if_neg (by omega), if_pos hk]
      exact ih _ _ (by omega) (by omega) h2 h3 (by omega)
    · subst heq
      have hr : rs[m] = r := by
        rw [hget] at ht; exact Option.some.inj ht
      rw [hr]
      exact if_pos rfl
    · have hk : idOf r < bytesToInt32 (Record.key rs[m]) := strictAsc_lt hs ht hget hgt
      rw [if_neg (by omega), if_neg (by omega)]
      exact ih _ _ h0 h1 (by omega) (by omega) (by omega)

/-- Direct binary search finds every record of a strictly ascending file. -/
theorem pesquisar_found {α : Type} [Record α] (hα : Lawful α) (fs : FS) (filename : String)
    (rs : List α) (r : α) (hfile : fs filename = some (encodeAll rs)) (hs : StrictAsc rs)
    (hr : r ∈ rs) : pesquisar α fs filename (idOf r) = .ok r := by
  obtain ⟨t, ht, hrt⟩ := List.getElem_of_mem hr
  have hget : rs[t]? = some r := by rw [List.getElem?_eq_getElem ht, hrt]
  have hpos := hα.size_pos
  have hn : (encodeAll rs).length / Record.size α = rs.length := by
    rw [length_encodeAll hα, Nat.mul_div_cancel _ hpos]
  simp only [pesquisar, hfile, hn]
  exact pesquisarLoop_found hα rs hs t r hget _ _ _ (le_refl _) (by omega) (by omega)
    (le_refl _) (by push_cast; omega)

/-! ## The index and the index-assisted lookup -/

theorem length_leBytes (k x : Nat) : (leBytes k x).length = k := by
  induction k generalizing x with
  | zero => rfl
  | succ k ih => simp [leBytes, ih]

theorem leValue_leBytes (k x : Nat) : leValue (leBytes k x) = x % 256 ^ k := by
  induction k generalizing x with
  | zero => simp [leBytes, leValue, Nat.mod_one]
  | succ k ih =>
    simp only [leBytes, leValue, ih, byteOf]
    rw [pow_succ, mul_comm (256 ^ k) 256, Nat.mod_mul]

theorem copyArr_val_of_length {n : Nat} (b : List Byte) (h : b.length = n) :
    (copyArr n b).val = b := by
  have := copyArr_self (⟨b, h⟩ : Arr n)
  exact congrArg Subtype.val this

theorem offset_roundtrip (x : Int) (h0 : 0 ≤ x) (h1 : x < 9223372036854775808) :
    toInt64 (leValue (putOffset x).val) = x := by
  have hv : (putOffset x).val = leBytes 8 (x % 18446744073709551616).toNat :=
    copyArr_val_of_length _ (length_leBytes _ _)
  rw [hv, leValue_leBytes]
  have hx : x % 18446744073709551616 = x := Int.emod_eq_of_lt h0 (by omega)
  rw [hx]
  have h2 : x.toNat % 256 ^ 8 = x.toNat := Nat.mod_eq_of_lt (by
    have : (256 : Nat) ^ 8 = 18446744073709551616 := by norm_num
    omega)
  rw [h2, Int.toNat_of_nonneg h0]
  unfold toInt64
  omega

theorem length_indexFrom {α : Type} [Record α] (offset : Int) (rs : List α) :
    (indexFrom offset rs).length = rs.length := by
  induction rs generalizing offset with
  | nil => rfl
  | cons r rs ih => simp [indexFrom, ih]

theorem getElem?_indexFrom {α : Type} [Record α] (offset : Int) (rs : List α) (m : Nat) (r : α)
    (h : rs[m]? = some r) :
    (indexFrom offset rs)[m]? = some
      { ID := Record.key r, Offset := putOffset (offset + (m : Int) * (Record.size α : Int)) } := by
  induction rs generalizing offset m with
  | nil => simp at h
  | cons a rs ih =>
    cases m with
    | zero =>
      simp only [List.getElem?_cons_zero, Option.some.injEq] at h
      subst h
      simp [indexFrom]
    | succ m =>
      simp only [List.getElem?_cons_succ] at h
      simp only [indexFrom, List.getElem?_cons_succ]
      rw [ih _ _ h]
      congr 3
      push_cast
      ring

theorem buscarPorOffset_at {α : Type} [Record α] (hα : Lawful α) (fs : FS) (filename : String)
    (rs : List α) (hfile : fs filename = some (encodeAll rs)) (m : Nat) (r : α)
    (h : rs[m]? = some r) :
    buscarPorOffset α fs filename ((m : Int) * (Record.size α : Int)) = .ok r := by
  simp only [buscarPorOffset, hfile, seek_encodeAll hα, binaryRead_drop hα rs m r h]

/-- The search through a freshly built index takes the steps of the direct
search on the data file, on any file of complete records. -/
theorem consultarLoop_eq_pesquisarLoop {α : Type} [Record α] (hα : Lawful α) (fs : FS)
    (filename : String) (rs : List α) (hfile : fs filename = some (encodeAll rs))
    (hsize : (rs.length : Int) * (Record.size α : Int) < 9223372036854775808) (id : Int) :
    ∀ (fuel : Nat) (start size : Int),
      consultarLoop α fs filename (encodeAll (indexFrom 0 rs)) id fuel start size
        = (pesquisarLoop α (encodeAll rs) id fuel start size).mapError erroNoIndice := by
  intro fuel
  induction fuel with
  | zero => intro start size; rfl
  | succ fuel ih =>
    intro start size
    rw [consultarLoop, pesquisarLoop]
    by_cases hle : start ≤ size
    · simp only [hle, if_true]
      by_cases hneg : (start + size).tdiv 2 < 0
      · have h1 : (start + size).tdiv 2 * (Record.size α : Int) < 0 :=
          Int.mul_neg_of_neg_of_pos hneg (by exact_mod_cast hα.size_pos)
        have h2 : (start + size).tdiv 2 * (Record.size IndexProduto : Int) < 0 :=
          Int.mul_neg_of_neg_of_pos hneg (by exact_mod_cast lawful_index.size_pos)
        simp only [seek, h1, h2, if_true]
        rfl
      · obtain ⟨m, hm⟩ := Int.eq_ofNat_of_zero_le (not_lt.mp hneg)
        rw [hm]
        simp only [seek_encodeAll hα, seek_encodeAll lawful_index]
        by_cases hmlen : m < rs.length
        · have hget := List.getElem?_eq_getElem hmlen
          have hgetI := getElem?_indexFrom 0 rs m _ hget
          rw [binaryRead_drop hα rs m _ hget, binaryRead_drop lawful_index _ m _ hgetI]
          simp only [zero_add]
          by_cases hid : bytesToInt32 (Record.key rs[m]) = id
          · simp only [hid, if_true]
            have hp : (0 : Int) < (Record.size α : Int) := by exact_mod_cast hα.size_pos
            have hmI : (m : Int) < rs.length := by exact_mod_cast hmlen
            have hb0 : (0 : Int) ≤ (m : Int) * (Record.size α : Int) :=
              Int.mul_nonneg (Int.ofNat_nonneg _) (Int.ofNat_nonneg _)
            have hb2 : (m : Int) * (Record.size α : Int)
                ≤ (rs.length : Int) * (Record.size α : Int) :=
              Int.mul_le_mul_of_nonneg_right hmI.le hp.le
            have hb1 := lt_of_le_of_lt hb2 hsize
            rw [offset_roundtrip ((m : Int) * (Record.size α : Int)) hb0 hb1]
            rw [buscarPorOffset_at hα fs filename rs hfile m _ hget]
            rfl
          · simp only [hid, if_false]
            split
            · exact ih _ _
            · exact ih _ _
        · have hlenI : (indexFrom (0 : Int) rs).length ≤ m := by
            rw [length_indexFrom]; omega
          rw [binaryRead_drop_end rs m (by omega), binaryRead_drop_end _ m hlenI]
          rfl
    · simp only [hle, if_false]
      rfl

/-! ## Sequential loops on a file of complete records -/

theorem lerArquivoLoop_encodeAll {α : Type} [Record α] (hα : Lawful α) (rs : List α) :
    ∀ (fuel : Nat) (lidos : List α), rs.length < fuel →
      lerArquivoLoop α fuel (encodeAll rs) lidos = (lidos ++ rs, .ok ()) := by
  induction rs with
  | nil =>
    intro fuel lidos h
    cases fuel with
    | zero => omega
    | succ fuel => simp [lerArquivoLoop, encodeAll_nil, binaryRead_nil]
  | cons r rs ih =>
    intro fuel lidos h
    cases fuel with
    | zero => omega
    | succ fuel =>
      rw [lerArquivoLoop, binaryRead_encodeAll_cons hα]
      simp only
      rw [ih fuel _ (by simpa using h)]
      simp

theorem length_le_encodeAll {α : Type} [Record α] (hα : Lawful α) (rs : List α) :
    rs.length < (encodeAll rs).length + 1 := by
  rw [length_encodeAll hα]
  have := hα.size_pos
  have : rs.length * 1 ≤ rs.length * Record.size α := Nat.mul_le_mul_left _ this
  omega

theorem lerArquivo_encodeAll {α : Type} [Record α] (hα : Lawful α) (fs : FS) (filename : String)
    (rs : List α) (hfile : fs filename = some (encodeAll rs)) :
    lerArquivo α fs filename = (rs, .ok ()) := by
  simp only [lerArquivo, hfile]
  rw [lerArquivoLoop_encodeAll hα rs _ _ (length_le_encodeAll hα rs)]
  simp

theorem idsDoArquivo_encodeAll {α : Type} [Record α] (hα : Lawful α) (fs : FS)
    (filename : String) (rs : List α) (hfile : fs filename = some (encodeAll rs)) :
    idsDoArquivo α fs filename = rs.map idOf := by
  simp only [idsDoArquivo, lerArquivo_encodeAll hα fs filename rs hfile]

theorem proximoIDLoop_encodeAll {α : Type} [Record α] (hα : Lawful α) (rs : List α) :
    ∀ (fuel : Nat) (lastID : Int), rs.length < fuel →
      proximoIDLoop α fuel (encodeAll rs) lastID
        = .ok (toInt32 (((rs.getLast?).map idOf).getD lastID + 1)) := by
  induction rs with
  | nil =>
    intro fuel lastID h
    cases fuel with
    | zero => omega
    | succ fuel =>
      rw [proximoIDLoop, encodeAll_nil, binaryRead_nil]
      simp only [if_true, List.getLast?_nil, Option.map_none', Option.getD_none]
  | cons r rs ih =>
    intro fuel lastID h
    cases fuel with
    | zero => omega
    | succ fuel =>
      rw [proximoIDLoop, binaryRead_encodeAll_cons hα]
      simp only
      have h1 : rs.length < fuel := by simpa using h
      rw [ih fuel _ h1]
      cases rs with
      | nil =>
        rw [List.getLast?_nil, List.getLast?_singleton, Option.map_none', Option.map_some',
          Option.getD_none, Option.getD_some]
        unfold idOf
        exact Eq.refl _
      | cons b rs =>
        rw [List.getLast?_cons_cons]
        obtain ⟨c, hc⟩ : ∃ c, (b :: rs).getLast? = some c :=
          ⟨(b :: rs).getLast (by simp), List.getLast?_eq_getLast _ (by simp)⟩
        rw [hc, Option.map_some', Option.getD_some, Option.getD_some]

theorem proximoID_encodeAll {α : Type} [Record α] (hα : Lawful α) (fs : FS) (filename : String)
    (rs : List α) (hfile : fs filename = some (encodeAll rs)) :
    proximoID α fs filename = .ok (toInt32 (((rs.getLast?).map idOf).getD 0 + 1)) := by
  simp only [proximoID, hfile]
  exact proximoIDLoop_encodeAll hα rs _ _ (length_le_encodeAll hα rs)

theorem criarIndiceLoop_encodeAll {α : Type} [Record α] (hα : Lawful α) (rs : List α) :
    ∀ (fuel : Nat) (offset : Int) (escrito : List Byte), rs.length < fuel →
      criarIndiceLoop α fuel (encodeAll rs) offset escrito
        = (escrito ++ encodeAll (indexFrom offset rs), .ok ()) := by
  induction rs with
  | nil =>
    intro fuel offset escrito h
    cases fuel with
    | zero => omega
    | succ fuel => simp [criarIndiceLoop, encodeAll_nil, binaryRead_nil, indexFrom]
  | cons r rs ih =>
    intro fuel offset escrito h
    cases fuel with
    | zero => omega
    | succ fuel =>
      rw [criarIndiceLoop, binaryRead_encodeAll_cons hα]
      simp only
      rw [ih fuel _ _ (by simpa using h)]
      simp [indexFrom, encodeAll_cons]

theorem removerLoop_encodeAll {α : Type} [Record α] (hα : Lawful α) (id : Int) (rs : List α) :
    ∀ (fuel : Nat) (found : Bool) (escrito : List Byte), rs.length < fuel →
      removerLoop α id fuel (encodeAll rs) found escrito
        = (escrito ++ encodeAll (rs.filter (fun r => decide (idOf r ≠ id))),
            .ok (found || rs.any (fun r => decide (idOf r = id)))) := by
  induction rs with
  | nil =>
    intro fuel found escrito h
    cases fuel with
    | zero => omega
    | succ fuel => simp [removerLoop, encodeAll_nil, binaryRead_nil]
  | cons r rs ih =>
    intro fuel found escrito h
    cases fuel with
    | zero => omega
    | succ fuel =>
      rw [removerLoop, binaryRead_encodeAll_cons hα]
      simp only
      by_cases hid : bytesToInt32 (Record.key r) = id
      · rw [if_pos hid, ih fuel _ _ (by simpa using h)]
        simp [idOf, hid]
      · rw [if_neg hid, ih fuel _ _ (by simpa using h)]
        simp [idOf, hid, encodeAll_cons]

/-! ## Building the index -/

theorem FS.write_create (fs : FS) (path : String) (bytes : List Byte) :
    (fs.create path).write path bytes = fs.write path bytes := by
  funext q
  simp only [FS.write, FS.create]
  split <;> rfl

theorem FS.write_write (fs : FS) (path : String) (a b : List Byte) :
    (fs.write path a).write path b = fs.write path b := by
  funext q
  simp only [FS.write]
  split <;> rfl

theorem FS.write_same (fs : FS) (path : String) (bytes : List Byte) :
    (fs.write path bytes) path = some bytes := by
  simp only [FS.write, if_true]

theorem FS.write_other (fs : FS) (path q : String) (bytes : List Byte) (h : q ≠ path) :
    (fs.write path bytes) q = fs q := by
  simp only [FS.write, h, if_false]

theorem FS.create_other (fs : FS) (path q : String) (h : q ≠ path) :
    (fs.create path) q = fs q := by
  simp only [FS.create, h, if_false]

theorem FS.create_same (fs : FS) (path : String) : (fs.create path) path = some [] := by
  simp only [FS.create, if_true]

theorem criarIndiceLoop_nil (α : Type) [Record α] (fuel : Nat) (offset : Int)
    (escrito : List Byte) :
    criarIndiceLoop α (fuel + 1) [] offset escrito = (escrito, .ok ()) := by
  rw [criarIndiceLoop, binaryRead_nil]
  simp only [if_true]

/-- The index built from a file of complete records, at a path other than the
data file. -/
theorem criarIndice_encodeAll {α : Type} [Record α] (hα : Lawful α) (fs : FS)
    (filename indexName : String) (rs : List α) (hfile : fs filename = some (encodeAll rs))
    (hne : filename ≠ indexName) :
    criarIndice α fs filename indexName
      = (fs.write indexName (encodeAll (indexFrom 0 rs)), .ok ()) := by
  simp only [criarIndice, hfile, FS.create_other fs indexName filename hne, Option.getD_some]
  rw [criarIndiceLoop_encodeAll hα rs _ _ _ (length_le_encodeAll hα rs)]
  simp only [List.nil_append, FS.write_create]

/-- The index built over the data file itself: `os.Create` empties the file
before the first read. -/
theorem criarIndice_same {α : Type} [Record α] (fs : FS) (filename : String) (bytes : List Byte)
    (hfile : fs filename = some bytes) :
    criarIndice α fs filename filename = (fs.write filename [], .ok ()) := by
  simp only [criarIndice, hfile, FS.create_same, Option.getD_some, List.length_nil,
    criarIndiceLoop_nil, FS.write_create]

/-- Running the index build a second time changes nothing. -/
theorem criarIndice_idem (α : Type) [Record α] (fs : FS) (filename indexName : String) :
    criarIndice α (criarIndice α fs filename indexName).1 filename indexName
      = criarIndice α fs filename indexName := by
  cases hfile : fs filename with
  | none => simp only [criarIndice, hfile]
  | some bytes =>
    by_cases hne : filename = indexName
    · subst hne
      rw [criarIndice_same fs filename bytes hfile,
        criarIndice_same _ filename [] (FS.write_same _ _ _), FS.write_write]
    · have h1 : criarIndice α fs filename indexName
          = ((fs.create indexName).write indexName
              (criarIndiceLoop α (bytes.length + 1) bytes 0 []).1,
             (criarIndiceLoop α (bytes.length + 1) bytes 0 []).2) := by
        simp only [criarIndice, hfile, FS.create_other fs indexName filename hne,
          Option.getD_some]
      rw [h1]
      have h2 : ((fs.create indexName).write indexName
          (criarIndiceLoop α (bytes.length + 1) bytes 0 []).1) filename = some bytes := by
        rw [FS.write_other _ _ _ _ hne, FS.create_other _ _ _ hne, hfile]
      simp only [criarIndice, h2, FS.create_other _ indexName filename hne,
        FS.write_other _ indexName filename _ hne, hfile, Option.getD_some, FS.write_create,
        FS.write_write]

/-! ## Removal -/

theorem removerLoop_nil (α : Type) [Record α] (id : Int) (fuel : Nat) (found : Bool)
    (escrito : List Byte) :
    removerLoop α id (fuel + 1) [] found escrito = (escrito, .ok found) := by
  rw [removerLoop, binaryRead_nil]
  simp only [if_true]

/-- Removal from a file of complete records that is not the temporary file. -/
theorem remover_encodeAll {α : Type} [Record α] (hα : Lawful α) (temp indexFixo : String)
    (fs : FS) (filename : String) (id : Int) (rs : List α)
    (hfile : fs filename = some (encodeAll rs)) (hne : filename ≠ temp) :
    remover α temp indexFixo fs filename id
      = if rs.any (fun r => decide (idOf r = id)) then
          criarIndice α
            (((fs.create temp).write temp
              (encodeAll (rs.filter (fun r => decide (idOf r ≠ id))))).rename temp filename)
            filename indexFixo
        else
          ((fs.create temp).write temp (encodeAll (rs.filter (fun r => decide (idOf r ≠ id)))),
            .error (.naoEncontrado id)) := by
  simp only [remover, FS.create_other fs temp filename hne, hfile]
  rw [removerLoop_encodeAll hα id rs _ _ _ (length_le_encodeAll hα rs)]
  simp only [List.nil_append, Bool.false_or]
  cases rs.any (fun r => decide (idOf r = id)) <;> simp

/-- Removal when the data file is the temporary file: `os.Create` empties it
before the first read. -/
theorem remover_temp {α : Type} [Record α] (temp indexFixo : String) (fs : FS) (id : Int) :
    remover α temp indexFixo fs temp id
      = ((fs.create temp).write temp [], .error (.naoEncontrado id)) := by
  simp only [remover, FS.create_same, List.length_nil, removerLoop_nil]

theorem FS.rename_new (fs : FS) (old new : String) : (fs.rename old new) new = fs old := by
  simp only [FS.rename, if_true]

theorem filter_sublist_ids {α : Type} [Record α] (rs : List α) (id : Int) :
    (rs.filter (fun r => decide (idOf r ≠ id))).Sublist rs :=
  List.filter_sublist rs

/-- Whatever its result, a removal leaves in the data file a subsequence of the
records it held. -/
theorem remover_sublist {α : Type} [Record α] (hα : Lawful α) (temp indexFixo : String)
    (fs : FS) (filename : String) (id : Int) (rs : List α)
    (hfile : fs filename = some (encodeAll rs)) :
    ∃ rs1 : List α, (remover α temp indexFixo fs filename id).1 filename = some (encodeAll rs1)
      ∧ rs1.Sublist rs := by
  by_cases hne : filename = temp
  · subst hne
    refine ⟨[], ?_, List.nil_sublist _⟩
    rw [remover_temp]
    dsimp only
    rw [FS.write_same, encodeAll_nil]
  · rw [remover_encodeAll hα temp indexFixo fs filename id rs hfile hne]
    split
    · have hren : (((fs.create temp).write temp
          (encodeAll (rs.filter (fun r => decide (idOf r ≠ id))))).rename temp filename) filename
          = some (encodeAll (rs.filter (fun r => decide (idOf r ≠ id)))) := by
        rw [FS.rename_new, FS.write_same]
      by_cases hx : filename = indexFixo
      · subst hx
        refine ⟨[], ?_, List.nil_sublist _⟩
        rw [criarIndice_same _ filename _ hren]
        dsimp only
        rw [FS.write_same, encodeAll_nil]
      · refine ⟨_, ?_, filter_sublist_ids rs id⟩
        rw [criarIndice_encodeAll hα _ filename indexFixo _ hren hx]
        dsimp only
        rw [FS.write_other _ _ _ _ hx, hren]
    · refine ⟨rs, ?_, List.Sublist.refl _⟩
      show ((fs.create temp).write temp _) filename = _
      rw [FS.write_other _ _ _ _ hne, FS.create_other _ _ _ hne, hfile]

/-! ## Identifiers and insertion -/

theorem toInt32_of_range (n : Int) (h1 : -2147483648 ≤ n) (h2 : n < 2147483648) :
    toInt32 n = n := by
  unfold toInt32
  omega

theorem toInt32_range (n : Int) : -2147483648 ≤ toInt32 n ∧ toInt32 n < 2147483648 := by
  unfold toInt32
  omega

theorem bytesToInt32_int32ToBytes (n : Int) : bytesToInt32 (int32ToBytes n) = toInt32 n := by
  have hv : (int32ToBytes n).val = leBytes 4 (n % 4294967296).toNat :=
    copyArr_val_of_length _ (length_leBytes _ _)
  have hp : (256 : Nat) ^ 4 = 4294967296 := by norm_num
  unfold bytesToInt32
  rw [hv, leValue_leBytes, hp]
  unfold toInt32
  omega

theorem idOf_range {α : Type} [Record α] (r : α) :
    -2147483648 ≤ idOf r ∧ idOf r < 2147483648 := by
  unfold idOf bytesToInt32
  exact toInt32_range _

theorem idOf_setKey {α : Type} [Record α] (hα : Lawful α) (novo : α) (n : Int) :
    idOf (Record.setKey novo (int32ToBytes n)) = toInt32 n := by
  unfold idOf
  rw [hα.key_setKey, bytesToInt32_int32ToBytes]

theorem inserir_encodeAll {α : Type} [Record α] (fs : FS) (filename : String) (rs : List α)
    (r : α) (hfile : fs filename = some (encodeAll rs)) :
    (inserir α fs filename r).1 filename = some (encodeAll (rs ++ [r])) := by
  simp only [inserir, FS.append, if_true, hfile, Option.getD_some, encodeAll_append,
    encodeAll_cons, encodeAll_nil, List.append_nil]

theorem strictAsc_snoc {α : Type} [Record α] (rs : List α) (x : α) (hs : StrictAsc rs)
    (hx : ∀ r ∈ rs, idOf r < idOf x) : StrictAsc (rs ++ [x]) := by
  unfold StrictAsc at hs ⊢
  rw [List.map_append, List.pairwise_append]
  refine ⟨hs, List.pairwise_singleton _ _, ?_⟩
  intro a ha b hb
  obtain ⟨r, hr, rfl⟩ := List.mem_map.mp ha
  simp only [List.map_cons, List.map_nil, List.mem_singleton] at hb
  rw [hb]
  exact hx r hr

theorem strictAsc_sublist {α : Type} [Record α] {rs1 rs : List α} (h : rs1.Sublist rs)
    (hs : StrictAsc rs) : StrictAsc rs1 := by
  unfold StrictAsc at hs ⊢
  exact List.Pairwise.sublist (h.map idOf) hs

/-- In a strictly ascending file no identifier exceeds the last one. -/
theorem ids_le_last {α : Type} [Record α] (rs : List α) (hs : StrictAsc rs) :
    ∀ r ∈ rs, idOf r ≤ ((rs.getLast?).map idOf).getD 0 := by
  rcases List.eq_nil_or_concat rs with h | ⟨ys, l, h⟩
  · subst h; intro r hr; simp at hr
  · rw [List.concat_eq_append] at h
    subst h
    intro r hr
    rw [List.getLast?_append, List.getLast?_singleton]
    show idOf r ≤ (Option.map idOf (some l)).getD 0
    rw [Option.map_some', Option.getD_some]
    unfold StrictAsc at hs
    rw [List.map_append, List.pairwise_append] at hs
    rcases List.mem_append.mp hr with h1 | h1
    · exact le_of_lt (hs.2.2 _ (List.mem_map_of_mem _ h1) _ (List.mem_singleton.mpr rfl))
    · simp only [List.mem_singleton] at h1
      subst h1
      exact le_refl _

/-! ## The order invariant -/

/-- The value `lastID` of `proximoID` on a strictly ascending file whose
identifiers lie between `1` and `k`. -/
theorem last_bounds {α : Type} [Record α] (rs : List α) (k : Int) (hk : 0 ≤ k)
    (hb : ∀ r ∈ rs, 1 ≤ idOf r ∧ idOf r ≤ k) :
    0 ≤ ((rs.getLast?).map idOf).getD 0 ∧ ((rs.getLast?).map idOf).getD 0 ≤ k := by
  cases h : rs.getLast? with
  | none => rw [Option.map_none', Option.getD_none]; exact ⟨le_refl _, hk⟩
  | some l =>
    rw [Option.map_some', Option.getD_some]
    have hl := hb l (List.mem_of_mem_getLast? h)
    omega

/-- An insertion keeps a strictly ascending file strictly ascending while the
next identifier fits an `int32`. -/
theorem passo_inserir_inv {α : Type} [Record α] (hα : Lawful α) (temp indexFixo filename : String)
    (fs : FS) (novo : α) (rs : List α) (k : Int) (hfile : fs filename = some (encodeAll rs))
    (hs : StrictAsc rs) (hb : ∀ r ∈ rs, 1 ≤ idOf r ∧ idOf r ≤ k) (hk0 : 0 ≤ k)
    (hk : k < 2147483647) :
    ∃ rs1 : List α,
      (passo α temp indexFixo filename fs (.inserir novo)) filename = some (encodeAll rs1)
        ∧ StrictAsc rs1 ∧ ∀ r ∈ rs1, 1 ≤ idOf r ∧ idOf r ≤ k + 1 := by
  obtain ⟨hL0, hLk⟩ := last_bounds rs k hk0 hb
  have hnext : toInt32 (((rs.getLast?).map idOf).getD 0 + 1)
      = ((rs.getLast?).map idOf).getD 0 + 1 := toInt32_of_range _ (by omega) (by omega)
  have hid : idOf (Record.setKey novo (int32ToBytes (((rs.getLast?).map idOf).getD 0 + 1)))
      = ((rs.getLast?).map idOf).getD 0 + 1 := by
    rw [idOf_setKey hα, hnext]
  refine ⟨rs ++ [Record.setKey novo (int32ToBytes (((rs.getLast?).map idOf).getD 0 + 1))],
    ?_, ?_, ?_⟩
  · simp only [passo, proximoID_encodeAll hα fs filename rs hfile, hnext]
    exact inserir_encodeAll fs filename rs _ hfile
  · apply strictAsc_snoc rs _ hs
    intro r hr
    have := ids_le_last rs hs r hr
    omega
  · intro r hr
    rcases List.mem_append.mp hr with h1 | h1
    · have := hb r h1
      omega
    · rw [List.mem_singleton] at h1
      rw [h1, hid]
      omega

/-- A removal keeps a strictly ascending file strictly ascending. -/
theorem passo_remover_inv {α : Type} [Record α] (hα : Lawful α) (temp indexFixo filename : String)
    (fs : FS) (id : Int) (rs : List α) (k : Int) (hfile : fs filename = some (encodeAll rs))
    (hs : StrictAsc rs) (hb : ∀ r ∈ rs, 1 ≤ idOf r ∧ idOf r ≤ k) :
    ∃ rs1 : List α,
      (passo α temp indexFixo filename fs (.remover id)) filename = some (encodeAll rs1)
        ∧ StrictAsc rs1 ∧ ∀ r ∈ rs1, 1 ≤ idOf r ∧ idOf r ≤ k := by
  obtain ⟨rs1, h1, hsub⟩ := remover_sublist hα temp indexFixo fs filename id rs hfile
  exact ⟨rs1, h1, strictAsc_sublist hsub hs, fun r hr => hb r (hsub.subset hr)⟩

/-- The order invariant along a run with at most `2147483647 - k` insertions,
from a file whose identifiers lie between `1` and `k`. -/
theorem executar_inv {α : Type} [Record α] (hα : Lawful α) (temp indexFixo filename : String) :
    ∀ (ops : List (Op α)) (fs : FS) (rs : List α) (k : Int),
      fs filename = some (encodeAll rs) → StrictAsc rs →
      (∀ r ∈ rs, 1 ≤ idOf r ∧ idOf r ≤ k) → 0 ≤ k →
      k + (ops.countP Op.isInserir : Nat) ≤ 2147483647 →
      ∃ rs1 : List α,
        (ops.foldl (passo α temp indexFixo filename) fs) filename = some (encodeAll rs1)
          ∧ StrictAsc rs1 := by
  intro ops
  induction ops with
  | nil => intro fs rs k hfile hs _ _ _; exact ⟨rs, hfile, hs⟩
  | cons op ops ih =>
    intro fs rs k hfile hs hb hk0 hk
    rw [List.foldl_cons]
    rw [List.countP_cons] at hk
    cases op with
    | inserir novo =>
      simp only [Op.isInserir, if_true] at hk
      push_cast at hk
      obtain ⟨rs1, h1, h2, h3⟩ :=
        passo_inserir_inv hα temp indexFixo filename fs novo rs k hfile hs hb hk0 (by omega)
      exact ih _ rs1 (k + 1) h1 h2 h3 (by omega) (by omega)
    | remover id =>
      simp only [Op.isInserir, Bool.false_eq_true, if_false, add_zero] at hk
      obtain ⟨rs1, h1, h2, h3⟩ :=
        passo_remover_inv hα temp indexFixo filename fs id rs k hfile hs hb
      exact ih _ rs1 k h1 h2 h3 hk0 hk

theorem strictAsc_nil {α : Type} [Record α] : StrictAsc ([] : List α) := by
  unfold StrictAsc
  exact List.Pairwise.nil

/-- The order invariant from an empty file, for runs with at most `2^31 - 1`
insertions. -/
theorem executar_strictAsc {α : Type} [Record α] (hα : Lawful α)
    (temp indexFixo filename : String) (fs : FS) (ops : List (Op α))
    (hfile : fs filename = some []) (hops : ops.countP Op.isInserir ≤ 2147483647) :
    (idsDoArquivo α (ops.foldl (passo α temp indexFixo filename) fs) filename).Pairwise
      (fun a b => a < b) := by
  obtain ⟨rs1, h1, h2⟩ := executar_inv hα temp indexFixo filename ops fs [] 0
    (by rw [hfile, encodeAll_nil]) strictAsc_nil (fun r hr => by simp at hr) (le_refl _)
    (by omega)
  rw [idsDoArquivo_encodeAll hα _ filename rs1 h1]
  exact h2

/-! ## The run that exhausts the `int32` identifiers -/

theorem inseridos_succ {α : Type} [Record α] (novo : α) (n : Nat) :
    inseridos novo (n + 1)
      = inseridos novo n ++ [Record.setKey novo (int32ToBytes ((n : Int) + 1))] := by
  unfold inseridos
  rw [List.range_succ, List.map_append, List.map_cons, List.map_nil]

theorem last_inseridos {α : Type} [Record α] (hα : Lawful α) (novo : α) (n : Nat)
    (hn : (n : Int) ≤ 2147483647) :
    (((inseridos novo n).getLast?).map idOf).getD 0 = (n : Int) := by
  cases n with
  | zero => rfl
  | succ m =>
    rw [inseridos_succ, List.getLast?_concat, Option.map_some', Option.getD_some,
      idOf_setKey hα, toInt32_of_range _ (by omega) (by push_cast at hn; omega)]
    push_cast
    rfl

/-- The file after one insertion into a file of complete records. -/
theorem passo_inserir_eq {α : Type} [Record α] (hα : Lawful α) (temp indexFixo filename : String)
    (fs : FS) (novo : α) (rs : List α) (hfile : fs filename = some (encodeAll rs)) :
    (passo α temp indexFixo filename fs (.inserir novo)) filename
      = some (encodeAll (rs ++ [Record.setKey novo
          (int32ToBytes (toInt32 (((rs.getLast?).map idOf).getD 0 + 1)))])) := by
  simp only [passo, proximoID_encodeAll hα fs filename rs hfile]
  exact inserir_encodeAll fs filename rs _ hfile

/-- After `n` insertions into an empty file the file holds the identifiers
`1, ..., n`, as long as they fit an `int32`. -/
theorem executar_replicate {α : Type} [Record α] (hα : Lawful α)
    (temp indexFixo filename : String) (novo : α) (fs : FS) (hfile : fs filename = some []) :
    ∀ n : Nat, (n : Int) ≤ 2147483647 →
      ((List.replicate n (Op.inserir novo)).foldl (passo α temp indexFixo filename) fs) filename
        = some (encodeAll (inseridos novo n)) := by
  intro n
  induction n with
  | zero => intro _; exact hfile
  | succ n ih =>
    intro hn
    push_cast at hn
    have h := ih (by omega)
    rw [List.replicate_succ', List.foldl_append, List.foldl_cons, List.foldl_nil,
      passo_inserir_eq hα temp indexFixo filename _ novo _ h,
      last_inseridos hα novo n (by omega), toInt32_of_range _ (by omega) (by omega),
      inseridos_succ]

theorem toInt32_overflow : toInt32 (((2147483647 : Nat) : Int) + 1) = -2147483648 := by
  unfold toInt32
  norm_num

/-- The file after `2^31` insertions into an empty file: the last identifier
has wrapped around to `-2^31`. -/
theorem executar_overflow {α : Type} [Record α] (hα : Lawful α)
    (temp indexFixo filename : String) (novo : α) (fs : FS) (hfile : fs filename = some []) :
    ((List.replicate (2147483647 + 1) (Op.inserir novo)).foldl
        (passo α temp indexFixo filename) fs) filename
      = some (encodeAll (inseridos novo 2147483647
          ++ [Record.setKey novo (int32ToBytes (-2147483648))])) := by
  have h := executar_replicate hα temp indexFixo filename novo fs hfile 2147483647 (by norm_num)
  rw [List.replicate_succ', List.foldl_append, List.foldl_cons, List.foldl_nil,
    passo_inserir_eq hα temp indexFixo filename _ novo _ h,
    last_inseridos hα novo 2147483647 (by norm_num), toInt32_overflow]

theorem not_strictAsc_overflow {α : Type} [Record α] (hα : Lawful α) (novo : α) :
    ¬ StrictAsc (inseridos novo 2147483647
      ++ [Record.setKey novo (int32ToBytes (-2147483648))]) := by
  intro hs
  unfold StrictAsc at hs
  rw [List.map_append, List.pairwise_append] at hs
  have hmem : Record.setKey novo (int32ToBytes (((0 : Nat) : Int) + 1)) ∈ inseridos novo 2147483647 := by
    unfold inseridos
    exact List.mem_map_of_mem _ (List.mem_range.mpr (by norm_num))
  have h1 := hs.2.2 _ (List.mem_map_of_mem idOf hmem) _ (List.mem_singleton.mpr rfl)
  rw [idOf_setKey hα, idOf_setKey hα] at h1
  unfold toInt32 at h1
  norm_num at h1

/-! ## Lookup through a fresh index -/

theorem leValue_putOffset (x : Int) (h0 : 0 ≤ x) (h1 : x < 18446744073709551616) :
    (leValue (putOffset x).val : Int) = x := by
  have hv : (putOffset x).val = leBytes 8 (x % 18446744073709551616).toNat :=
    copyArr_val_of_length _ (length_leBytes _ _)
  have hp : (256 : Nat) ^ 8 = 18446744073709551616 := by norm_num
  rw [hv, leValue_leBytes, hp]
  omega

/-- On a file of complete records whose index has just been built, the lookup
through the index returns what the direct search returns, an error of the
direct search on the data file becoming the same error on the index file. -/
theorem consultar_eq_pesquisar {α : Type} [Record α] (hα : Lawful α) (fs : FS)
    (indexName filename : String) (rs : List α) (id : Int)
    (hfile : fs filename = some (encodeAll rs))
    (hindex : fs indexName = some (encodeAll (indexFrom 0 rs)))
    (hsize : (rs.length : Int) * (Record.size α : Int) < 9223372036854775808) :
    consultarComIndice α fs indexName filename id
      = (pesquisar α fs filename id).mapError erroNoIndice := by
  have h1 : (encodeAll rs).length / Record.size α = rs.length := by
    rw [length_encodeAll hα, Nat.mul_div_cancel _ hα.size_pos]
  have h2 : (encodeAll (indexFrom (0 : Int) rs)).length / Record.size IndexProduto
      = rs.length := by
    rw [length_encodeAll lawful_index, Nat.mul_div_cancel _ lawful_index.size_pos,
      length_indexFrom]
  simp only [consultarComIndice, pesquisar, hfile, hindex, h1, h2]
  exact consultarLoop_eq_pesquisarLoop hα fs filename rs hfile hsize id _ _ _

/-- Both lookups find every record of a strictly ascending file once its index
is built at another path. -/
theorem consultar_found {α : Type} [Record α] (hα : Lawful α) (fs : FS)
    (filename indexName : String) (rs : List α) (r : α)
    (hfile : fs filename = some (encodeAll rs)) (hne : filename ≠ indexName)
    (hsize : (rs.length : Int) * (Record.size α : Int) < 9223372036854775808)
    (hs : StrictAsc rs) (hr : r ∈ rs) :
    consultarComIndice α (criarIndice α fs filename indexName).1 indexName filename (idOf r)
        = .ok r
      ∧ pesquisar α (criarIndice α fs filename indexName).1 filename (idOf r) = .ok r := by
  rw [criarIndice_encodeAll hα fs filename indexName rs hfile hne]
  dsimp only
  have hf : (fs.write indexName (encodeAll (indexFrom 0 rs))) filename = some (encodeAll rs) := by
    rw [FS.write_other _ _ _ _ hne, hfile]
  have hp := pesquisar_found hα _ filename rs r hf hs hr
  refine ⟨?_, hp⟩
  rw [consultar_eq_pesquisar hα _ indexName filename rs (idOf r) hf (FS.write_same _ _ _) hsize,
    hp]
  rfl

/-- The entries of a fresh index: entry `i` carries the `ID` of record `i` and
the offset `i * size`. -/
theorem criarIndice_coerente {α : Type} [Record α] (hα : Lawful α) (fs : FS)
    (filename indexName : String) (rs : List α) (hfile : fs filename = some (encodeAll rs))
    (hne : filename ≠ indexName)
    (hsize : (rs.length : Int) * (Record.size α : Int) < 9223372036854775808) :
    (criarIndice α fs filename indexName).2 = .ok () ∧
      ∃ es : List IndexProduto,
        (criarIndice α fs filename indexName).1 indexName = some (encodeAll es)
          ∧ es.length = rs.length
          ∧ ∀ (i : Nat) (r : α), rs[i]? = some r →
              ∃ e : IndexProduto, es[i]? = some e ∧ bytesToInt32 e.ID = idOf r
                ∧ (leValue e.Offset.val : Int) = (i : Int) * (Record.size α : Int) := by
  rw [criarIndice_encodeAll hα fs filename indexName rs hfile hne]
  refine ⟨rfl, indexFrom 0 rs, FS.write_same _ _ _, length_indexFrom _ _, ?_⟩
  intro i r hi
  refine ⟨_, getElem?_indexFrom 0 rs i r hi, rfl, ?_⟩
  obtain ⟨hlen, _⟩ := List.getElem?_eq_some.mp hi
  have hp : (0 : Int) < (Record.size α : Int) := by exact_mod_cast hα.size_pos
  have hiI : (i : Int) < rs.length := by exact_mod_cast hlen
  have hb0 : (0 : Int) ≤ (i : Int) * (Record.size α : Int) :=
    Int.mul_nonneg (Int.ofNat_nonneg _) (Int.ofNat_nonneg _)
  have hb2 : (i : Int) * (Record.size α : Int) ≤ (rs.length : Int) * (Record.size α : Int) :=
    Int.mul_le_mul_of_nonneg_right hiI.le hp.le
  dsimp only
  rw [zero_add]
  exact leValue_putOffset _ hb0 (by omega)

/-! ## Removal of a present and of an absent identifier -/

/-- Removal of an identifier the file holds, the data file being neither the
temporary file nor the fixed index file. -/
theorem remover_presente {α : Type} [Record α] (hα : Lawful α) (temp indexFixo : String)
    (fs : FS) (filename : String) (id : Int) (rs : List α)
    (hfile : fs filename = some (encodeAll rs)) (ht : filename ≠ temp)
    (hx : filename ≠ indexFixo) (hid : ∃ r ∈ rs, idOf r = id) :
    (remover α temp indexFixo fs filename id).2 = .ok ()
      ∧ (remover α temp indexFixo fs filename id).1 filename
          = some (encodeAll (rs.filter (fun r => decide (idOf r ≠ id))))
      ∧ (remover α temp indexFixo fs filename id).1 indexFixo
          = some (encodeAll (indexFrom 0 (rs.filter (fun r => decide (idOf r ≠ id))))) := by
  have hany : rs.any (fun r => decide (idOf r = id)) = true := by
    rw [List.any_eq_true]
    obtain ⟨r, hr, h⟩ := hid
    exact ⟨r, hr, decide_eq_true h⟩
  have hren : (((fs.create temp).write temp
      (encodeAll (rs.filter (fun r => decide (idOf r ≠ id))))).rename temp filename) filename
      = some (encodeAll (rs.filter (fun r => decide (idOf r ≠ id)))) := by
    rw [FS.rename_new, FS.write_same]
  rw [remover_encodeAll hα temp indexFixo fs filename id rs hfile ht, if_pos hany,
    criarIndice_encodeAll hα _ filename indexFixo _ hren hx]
  dsimp only
  refine ⟨rfl, ?_, FS.write_same _ _ _⟩
  rw [FS.write_other _ _ _ _ hx, hren]

/-- Removal of an identifier the file does not hold, the data file not being the
temporary file. -/
theorem remover_ausente {α : Type} [Record α] (hα : Lawful α) (temp indexFixo : String)
    (fs : FS) (filename : String) (id : Int) (rs : List α)
    (hfile : fs filename = some (encodeAll rs)) (ht : filename ≠ temp)
    (hid : ∀ r ∈ rs, idOf r ≠ id) :
    (remover α temp indexFixo fs filename id).2 = .error (.naoEncontrado id)
      ∧ (remover α temp indexFixo fs filename id).1 filename = fs filename := by
  have hany : ¬ rs.any (fun r => decide (idOf r = id)) = true := by
    rw [List.any_eq_true]
    rintro ⟨r, hr, h⟩
    exact hid r hr (of_decide_eq_true h)
  rw [remover_encodeAll hα temp indexFixo fs filename id rs hfile ht, if_neg hany]
  dsimp only
  refine ⟨rfl, ?_⟩
  rw [FS.write_other _ _ _ _ ht, FS.create_other _ _ _ ht]

/-! ## The files a successful removal touches -/

theorem FS.rename_other (fs : FS) (old new q : String) (h1 : q ≠ new) (h2 : q ≠ old) :
    (fs.rename old new) q = fs q := by
  simp only [FS.rename, h1, h2, if_false]

/-- After a successful removal from a data file that is not the fixed index
file: the data file holds the surviving records, the fixed index file their
index, and every file other than these two and the temporary file is as it
was. -/
theorem remover_sucesso {α : Type} [Record α] (hα : Lawful α) (temp indexFixo : String)
    (fs : FS) (filename : String) (id : Int) (rs : List α)
    (hfile : fs filename = some (encodeAll rs)) (hx : filename ≠ indexFixo)
    (hok : (remover α temp indexFixo fs filename id).2 = .ok ()) :
    (remover α temp indexFixo fs filename id).1 filename
        = some (encodeAll (rs.filter (fun r => decide (idOf r ≠ id))))
      ∧ (remover α temp indexFixo fs filename id).1 indexFixo
        = some (encodeAll (indexFrom 0 (rs.filter (fun r => decide (idOf r ≠ id)))))
      ∧ ∀ q : String, q ≠ indexFixo → q ≠ filename → q ≠ temp →
          (remover α temp indexFixo fs filename id).1 q = fs q := by
  by_cases ht : filename = temp
  · subst ht
    rw [remover_temp] at hok
    exact absurd hok (by simp)
  · rw [remover_encodeAll hα temp indexFixo fs filename id rs hfile ht] at hok ⊢
    by_cases hany : rs.any (fun r => decide (idOf r = id)) = true
    · have hren : (((fs.create temp).write temp
          (encodeAll (rs.filter (fun r => decide (idOf r ≠ id))))).rename temp filename) filename
          = some (encodeAll (rs.filter (fun r => decide (idOf r ≠ id)))) := by
        rw [FS.rename_new, FS.write_same]
      rw [if_pos hany, criarIndice_encodeAll hα _ filename indexFixo _ hren hx]
      dsimp only
      refine ⟨?_, FS.write_same _ _ _, ?_⟩
      · rw [FS.write_other _ _ _ _ hx, hren]
      · intro q h1 h2 h3
        rw [FS.write_other _ _ _ _ h1, FS.rename_other _ _ _ _ h2 h3,
          FS.write_other _ _ _ _ h3, FS.create_other _ _ _ h3]
    · rw [if_neg hany] at hok
      exact absurd hok (by simp)

/-- The entries of the index a successful removal rebuilds: one per surviving
record, entry `i` at offset `i * size`. -/
theorem remover_indice_fixo {α : Type} [Record α] (hα : Lawful α) (temp indexFixo : String)
    (fs : FS) (filename : String) (id : Int) (rs : List α)
    (hfile : fs filename = some (encodeAll rs)) (hx : filename ≠ indexFixo)
    (hsize : (rs.length : Int) * (Record.size α : Int) < 9223372036854775808)
    (hok : (remover α temp indexFixo fs filename id).2 = .ok ()) :
    (∃ es : List IndexProduto,
        (remover α temp indexFixo fs filename id).1 indexFixo = some (encodeAll es)
          ∧ es.length = (rs.filter (fun r => decide (idOf r ≠ id))).length
          ∧ ∀ (i : Nat) (r : α), (rs.filter (fun r => decide (idOf r ≠ id)))[i]? = some r →
              ∃ e : IndexProduto, es[i]? = some e ∧ bytesToInt32 e.ID = idOf r
                ∧ (leValue e.Offset.val : Int) = (i : Int) * (Record.size α : Int))
      ∧ ∀ q : String, q ≠ indexFixo → q ≠ filename → q ≠ temp →
          (remover α temp indexFixo fs filename id).1 q = fs q := by
  obtain ⟨_, h2, h3⟩ := remover_sucesso hα temp indexFixo fs filename id rs hfile hx hok
  refine ⟨⟨indexFrom 0 (rs.filter (fun r => decide (idOf r ≠ id))), h2, length_indexFrom _ _, ?_⟩,
    h3⟩
  intro i r hi
  refine ⟨_, getElem?_indexFrom 0 _ i r hi, rfl, ?_⟩
  obtain ⟨hlen, _⟩ := List.getElem?_eq_some.mp hi
  have hfl : (rs.filter (fun r => decide (idOf r ≠ id))).length ≤ rs.length :=
    List.length_filter_le _ _
  have hp : (0 : Int) < (Record.size α : Int) := by exact_mod_cast hα.size_pos
  have hiI : (i : Int) < rs.length := by exact_mod_cast (lt_of_lt_of_le hlen hfl)
  have hb0 : (0 : Int) ≤ (i : Int) * (Record.size α : Int) :=
    Int.mul_nonneg (Int.ofNat_nonneg _) (Int.ofNat_nonneg _)
  have hb2 : (i : Int) * (Record.size α : Int) ≤ (rs.length : Int) * (Record.size α : Int) :=
    Int.mul_le_mul_of_nonneg_right hiI.le hp.le
  dsimp only
  rw [zero_add]
  exact leValue_putOffset _ hb0 (by omega)

/-! ## The next identifier -/

theorem proximoID_casos {α : Type} [Record α] (hα : Lawful α) (fs : FS) (filename : String)
    (rs : List α) (hfile : fs filename = some (encodeAll rs)) :
    (rs = [] → proximoID α fs filename = .ok 1)
      ∧ (∀ r : α, rs.getLast? = some r → idOf r < 2147483647 →
          proximoID α fs filename = .ok (idOf r + 1))
      ∧ (∀ r : α, rs.getLast? = some r → idOf r = 2147483647 →
          proximoID α fs filename = .ok (-2147483648)) := by
  rw [proximoID_encodeAll hα fs filename rs hfile]
  refine ⟨?_, ?_, ?_⟩
  · intro h
    rw [h, List.getLast?_nil, Option.map_none', Option.getD_none]
    rfl
  · intro r hr hlt
    rw [hr, Option.map_some', Option.getD_some,
      toInt32_of_range _ (by have := idOf_range r; omega) (by omega)]
  · intro r hr heq
    rw [hr, Option.map_some', Option.getD_some, heq]
    rfl

/-! ## The direct search for an absent identifier -/

/-- Binary search for an identifier that the file does not hold and that lies
below some identifier of the file: with `p` the number of records below the
identifier, the range never reaches the end of the file and empties. -/
theorem pesquisarLoop_ausente {α : Type} [Record α] (hα : Lawful α) (rs : List α) (id : Int)
    (p : Nat) (hp : p < rs.length)
    (hlo : ∀ (i : Nat) (r : α), rs[i]? = some r → i < p → idOf r < id)
    (hhi : ∀ (i : Nat) (r : α), rs[i]? = some r → p ≤ i → id < idOf r) :
    ∀ (fuel : Nat) (start size : Int), 0 ≤ start → start ≤ p → (p : Int) ≤ size + 1 →
      size ≤ rs.length → size - start + 1 < fuel →
      pesquisarLoop α (encodeAll rs) id fuel start size = .error (.naoEncontrado id) := by
  intro fuel
  induction fuel with
  | zero => intro start size _ h1 h2 _ h4; omega
  | succ fuel ih =>
    intro start size h0 h1 h2 h3 h4
    rw [pesquisarLoop]
    by_cases hle : start ≤ size
    · obtain ⟨hmid, hlo1, hhi1⟩ := midpoint_bounds start size h0 hle
      set m : Nat := ((start + size) / 2).toNat with hm
      have hmI : (m : Int) = (start + size) / 2 := by
        rw [hm, Int.toNat_of_nonneg (by omega)]
      have hmlen : m < rs.length := by omega
      have hget := List.getElem?_eq_getElem hmlen
      simp only [hle, if_true, hmid, seek_encodeAll hα, binaryRead_drop hα rs m _ hget]
      by_cases hmp : m < p
      · have hk : bytesToInt32 (Record.key rs[m]) < id := hlo m _ hget hmp
        rw [if_neg (by omega), if_pos hk]
        exact ih _ _ (by omega) (by omega) h2 h3 (by omega)
      · have hk : id < bytesToInt32 (Record.key rs[m]) := hhi m _ hget (by omega)
        rw [if_neg (by omega), if_neg (by omega)]
        exact ih _ _ h0 h1 (by omega) (by omega) (by omega)
    · simp only [hle, if_false]

/-- Binary search for an identifier above every identifier of the file: every
step moves right until the read at ordinal `size`, the end of the file. -/
theorem pesquisarLoop_acima {α : Type} [Record α] (hα : Lawful α) (rs : List α) (id : Int)
    (hall : ∀ r ∈ rs, idOf r < id) :
    ∀ (fuel : Nat) (start : Int), 0 ≤ start → start ≤ rs.length →
      (rs.length : Int) - start + 1 < fuel →
      pesquisarLoop α (encodeAll rs) id fuel start rs.length = .error (.ler .eof) := by
  intro fuel
  induction fuel with
  | zero => intro start _ h1 h2; omega
  | succ fuel ih =>
    intro start h0 h1 h4
    rw [pesquisarLoop]
    obtain ⟨hmid, hlo1, hhi1⟩ := midpoint_bounds start rs.length h0 h1
    set m : Nat := ((start + (rs.length : Int)) / 2).toNat with hm
    have hmI : (m : Int) = (start + (rs.length : Int)) / 2 := by
      rw [hm, Int.toNat_of_nonneg (by omega)]
    simp only [h1, if_true, hmid, seek_encodeAll hα]
    by_cases hmlen : m < rs.length
    · have hget := List.getElem?_eq_getElem hmlen
      have hk : bytesToInt32 (Record.key rs[m]) < id := hall _ (List.getElem_mem hmlen)
      rw [binaryRead_drop hα rs m _ hget]
      simp only
      rw [if_neg (by omega), if_pos hk]
      exact ih _ (by omega) (by omega) (by omega)
    · rw [binaryRead_drop_end rs m (by omega)]

theorem strictAsc_cons {α : Type} [Record α] (a : α) (rs : List α) (hs : StrictAsc (a :: rs)) :
    StrictAsc rs ∧ ∀ r ∈ rs, idOf a < idOf r := by
  unfold StrictAsc at hs ⊢
  rw [List.map_cons, List.pairwise_cons] at hs
  exact ⟨hs.2, fun r hr => hs.1 _ (List.mem_map_of_mem _ hr)⟩

/-- In a strictly ascending file that does not hold `id`, the records below `id`
come first and the records above it after them. -/
theorem strictAsc_split {α : Type} [Record α] (rs : List α) (id : Int) (hs : StrictAsc rs)
    (hid : ∀ r ∈ rs, idOf r ≠ id) :
    ∃ p : Nat, p ≤ rs.length
      ∧ (∀ (i : Nat) (r : α), rs[i]? = some r → i < p → idOf r < id)
      ∧ (∀ (i : Nat) (r : α), rs[i]? = some r → p ≤ i → id < idOf r) := by
  induction rs with
  | nil => exact ⟨0, le_refl _, fun i r h => by simp at h, fun i r h => by simp at h⟩
  | cons a rs ih =>
    obtain ⟨hs1, ha⟩ := strictAsc_cons a rs hs
    have hne := hid a (List.mem_cons_self _ _)
    by_cases hlt : idOf a < id
    · obtain ⟨p, hp, h1, h2⟩ := ih hs1 (fun r hr => hid r (List.mem_cons_of_mem _ hr))
      refine ⟨p + 1, by simpa using hp, ?_, ?_⟩
      · intro i r hget hi
        cases i with
        | zero =>
          rw [List.getElem?_cons_zero, Option.some.injEq] at hget
          rw [← hget]; exact hlt
        | succ i =>
          rw [List.getElem?_cons_succ] at hget
          exact h1 i r hget (by omega)
      · intro i r hget hi
        cases i with
        | zero => omega
        | succ i =>
          rw [List.getElem?_cons_succ] at hget
          exact h2 i r hget (by omega)
    · refine ⟨0, Nat.zero_le _, fun i r _ h => by omega, ?_⟩
      intro i r hget _
      cases i with
      | zero =>
        rw [List.getElem?_cons_zero, Option.some.injEq] at hget
        rw [← hget]; omega
      | succ i =>
        rw [List.getElem?_cons_succ] at hget
        obtain ⟨hlen, hri⟩ := List.getElem?_eq_some.mp hget
        have := ha r (hri ▸ List.getElem_mem hlen)
        omega

/-- The direct search for an identifier above every identifier of the file, the
empty file included, ends in the read error at the end of the file. -/
theorem pesquisar_acima {α : Type} [Record α] (hα : Lawful α) (fs : FS) (filename : String)
    (rs : List α) (id : Int) (hfile : fs filename = some (encodeAll rs))
    (hall : ∀ r ∈ rs, idOf r < id) : pesquisar α fs filename id = .error (.ler .eof) := by
  have hn : (encodeAll rs).length / Record.size α = rs.length := by
    rw [length_encodeAll hα, Nat.mul_div_cancel _ hα.size_pos]
  simp only [pesquisar, hfile, hn]
  exact pesquisarLoop_acima hα rs id hall _ _ (le_refl _) (by omega) (by push_cast; omega)

/-- The direct search of a strictly ascending file for an identifier it does
not hold and that lies below some identifier of the file ends in not-found. -/
theorem pesquisar_ausente_abaixo {α : Type} [Record α] (hα : Lawful α) (fs : FS)
    (filename : String) (rs : List α) (id : Int) (hfile : fs filename = some (encodeAll rs))
    (hs : StrictAsc rs) (hid : ∀ r ∈ rs, idOf r ≠ id) (hbig : ∃ r ∈ rs, id < idOf r) :
    pesquisar α fs filename id = .error (.naoEncontrado id) := by
  obtain ⟨p, hp, h1, h2⟩ := strictAsc_split rs id hs hid
  have hplt : p < rs.length := by
    obtain ⟨r, hr, hlt⟩ := hbig
    obtain ⟨i, hi, hri⟩ := List.getElem_of_mem hr
    by_contra hge
    have := h1 i r (by rw [List.getElem?_eq_getElem hi, hri]) (by omega)
    omega
  have hn : (encodeAll rs).length / Record.size α = rs.length := by
    rw [length_encodeAll hα, Nat.mul_div_cancel _ hα.size_pos]
  simp only [pesquisar, hfile, hn]
  exact pesquisarLoop_ausente hα rs id p hplt h1 h2 _ _ _ (le_refl _) (by omega) (by omega)
    (le_refl _) (by push_cast; omega)

/-! ## The claims -/

set_option maxRecDepth 100000

/-- Claim C1. On a data file whose records are in strictly ascending identifier
order, `pesquisarProduto` called with an identifier that occurs in the file
succeeds and returns the record of the file that carries it; `pesquisarAcesso`
does the same on access files. -/
theorem pesquisar_retorna_registro :
    (∀ (fs : FS) (filename : String) (rs : List Produto) (id : Int) (r : Produto),
        fs filename = some (encodeAll rs) → StrictAsc rs → r ∈ rs → idOf r = id →
        pesquisarProduto fs filename id = .ok r)
    ∧ (∀ (fs : FS) (filename : String) (rs : List Acesso) (id : Int) (r : Acesso),
        fs filename = some (encodeAll rs) → StrictAsc rs → r ∈ rs → idOf r = id →
        pesquisarAcesso fs filename id = .ok r) := by
  constructor
  · intro fs filename rs id r hfile hs hr hid
    rw [← hid]
    exact pesquisar_found lawful_produto fs filename rs r hfile hs hr
  · intro fs filename rs id r hfile hs hr hid
    rw [← hid]
    exact pesquisar_found lawful_acesso fs filename rs r hfile hs hr

/-- Witness of C1: the files with identifiers 1, 2, 3, searched for 2. -/
theorem pesquisar_retorna_registro_witness :
    StrictAsc ([1, 2, 3].map exemploProduto)
      ∧ pesquisarProduto fsExemplo "produtos.bin" 2 = .ok (exemploProduto 2)
      ∧ pesquisarAcesso fsExemplo "acessos.bin" 2 = .ok (exemploAcesso 2) :=
  ⟨by decide,
    pesquisar_retorna_registro.1 fsExemplo "produtos.bin" ([1, 2, 3].map exemploProduto) 2
      (exemploProduto 2) rfl (by decide) (by decide) (by decide),
    pesquisar_retorna_registro.2 fsExemplo "acessos.bin" ([1, 2, 3].map exemploAcesso) 2
      (exemploAcesso 2) rfl (by decide) (by decide) (by decide)⟩

/-- Claim C2, as the code behaves. The search range starts at `size`, the number
of records, one past the last ordinal: for an identifier above every identifier
of the file, and on the empty file, the loop reads at the end of the file and
`pesquisarProduto` and `pesquisarAcesso` return the read error wrapping `EOF`
where the claim says not-found; an absent identifier below the largest one does
give not-found. -/
theorem pesquisar_ausente_erro_de_leitura :
    pesquisarProduto fsExemplo "produtos.bin" 4 = .error (.ler .eof)
      ∧ pesquisarAcesso fsExemplo "acessos.bin" 4 = .error (.ler .eof)
      ∧ pesquisarProduto (fsCom []) "produtos.bin" 1 = .error (.ler .eof)
      ∧ pesquisarAcesso (fsCom []) "acessos.bin" 1 = .error (.ler .eof)
      ∧ pesquisarProduto fsExemplo "produtos.bin" 0 = .error (.naoEncontrado 0)
      ∧ pesquisarProduto (fsCom [1, 3]) "produtos.bin" 2 = .error (.naoEncontrado 2) := by
  decide

/-- Claim C3. For a strictly ascending data file, the index built from it by
`criarIndiceProdutos` at another path, and an identifier present in the data
file, `consultarProdutoComIndice` and `pesquisarProduto` both succeed and
return the same record, the one carrying the identifier; likewise for
`consultarAcessoComIndice` and `pesquisarAcesso`.  The size of the data file is
an `int64`. -/
theorem consulta_com_indice_igual_pesquisa :
    (∀ (fs : FS) (filenameProd indexProd : String) (rs : List Produto) (id : Int) (r : Produto),
        fs filenameProd = some (encodeAll rs) → filenameProd ≠ indexProd →
        (rs.length : Int) * 52 < 9223372036854775808 →
        StrictAsc rs → r ∈ rs → idOf r = id →
        consultarProdutoComIndice (criarIndiceProdutos fs filenameProd indexProd).1
            indexProd filenameProd id = .ok r
          ∧ pesquisarProduto (criarIndiceProdutos fs filenameProd indexProd).1 filenameProd id
            = .ok r)
    ∧ (∀ (fs : FS) (filenameAccess indexAccess : String) (rs : List Acesso) (id : Int)
        (r : Acesso),
        fs filenameAccess = some (encodeAll rs) → filenameAccess ≠ indexAccess →
        (rs.length : Int) * 38 < 9223372036854775808 →
        StrictAsc rs → r ∈ rs → idOf r = id →
        consultarAcessoComIndice (criarIndiceAcessos fs filenameAccess indexAccess).1
            indexAccess filenameAccess id = .ok r
          ∧ pesquisarAcesso (criarIndiceAcessos fs filenameAccess indexAccess).1 filenameAccess id
            = .ok r) := by
  constructor
  · intro fs filenameProd indexProd rs id r hfile hne hsize hs hr hid
    rw [← hid]
    exact consultar_found lawful_produto fs filenameProd indexProd rs r hfile hne hsize hs hr
  · intro fs filenameAccess indexAccess rs id r hfile hne hsize hs hr hid
    rw [← hid]
    exact consultar_found lawful_acesso fs filenameAccess indexAccess rs r hfile hne hsize hs hr

/-- Witness of C3: the files with identifiers 1, 2, 3 and the index paths of
`main`, looked up for 3. -/
theorem consulta_com_indice_igual_pesquisa_witness :
    (consultarProdutoComIndice
          (criarIndiceProdutos fsExemplo "produtos.bin" "indice_produtos.dat").1
          "indice_produtos.dat" "produtos.bin" 3 = .ok (exemploProduto 3)
        ∧ pesquisarProduto (criarIndiceProdutos fsExemplo "produtos.bin" "indice_produtos.dat").1
          "produtos.bin" 3 = .ok (exemploProduto 3))
      ∧ (consultarAcessoComIndice
          (criarIndiceAcessos fsExemplo "acessos.bin" "indice_acessos.dat").1
          "indice_acessos.dat" "acessos.bin" 3 = .ok (exemploAcesso 3)
        ∧ pesquisarAcesso (criarIndiceAcessos fsExemplo "acessos.bin" "indice_acessos.dat").1
          "acessos.bin" 3 = .ok (exemploAcesso 3)) :=
  ⟨consulta_com_indice_igual_pesquisa.1 fsExemplo "produtos.bin" "indice_produtos.dat"
      ([1, 2, 3].map exemploProduto) 3 (exemploProduto 3) rfl (by decide) (by decide)
      (by decide) (by decide) (by decide),
    consulta_com_indice_igual_pesquisa.2 fsExemplo "acessos.bin" "indice_acessos.dat"
      ([1, 2, 3].map exemploAcesso) 3 (exemploAcesso 3) rfl (by decide) (by decide)
      (by decide) (by decide) (by decide)⟩

/-- Claim C4. For a product data file of `n` complete records,
`criarIndiceProdutos` succeeds and leaves an index of exactly `n` entries in
which entry `i` has the key of data record `i` and the offset `i * 52`;
`criarIndiceAcessos` does the same with the offset `i * 38`.  The index path is
not the data path and the size of the data file is an `int64`. -/
theorem indice_coerente :
    (∀ (fs : FS) (filenameProd indexProd : String) (rs : List Produto),
        fs filenameProd = some (encodeAll rs) → filenameProd ≠ indexProd →
        (rs.length : Int) * 52 < 9223372036854775808 →
        (criarIndiceProdutos fs filenameProd indexProd).2 = .ok () ∧
          ∃ es : List IndexProduto,
            (criarIndiceProdutos fs filenameProd indexProd).1 indexProd = some (encodeAll es)
              ∧ es.length = rs.length
              ∧ ∀ (i : Nat) (r : Produto), rs[i]? = some r →
                  ∃ e : IndexProduto, es[i]? = some e ∧ bytesToInt32 e.ID = idOf r
                    ∧ (leValue e.Offset.val : Int) = (i : Int) * 52)
    ∧ (∀ (fs : FS) (filenameAccess indexAccess : String) (rs : List Acesso),
        fs filenameAccess = some (encodeAll rs) → filenameAccess ≠ indexAccess →
        (rs.length : Int) * 38 < 9223372036854775808 →
        (criarIndiceAcessos fs filenameAccess indexAccess).2 = .ok () ∧
          ∃ es : List IndexAcesso,
            (criarIndiceAcessos fs filenameAccess indexAccess).1 indexAccess
                = some (encodeAll es)
              ∧ es.length = rs.length
              ∧ ∀ (i : Nat) (r : Acesso), rs[i]? = some r →
                  ∃ e : IndexAcesso, es[i]? = some e ∧ bytesToInt32 e.ID = idOf r
                    ∧ (leValue e.Offset.val : Int) = (i : Int) * 38) := by
  constructor
  · intro fs filenameProd indexProd rs hfile hne hsize
    exact criarIndice_coerente lawful_produto fs filenameProd indexProd rs hfile hne hsize
  · intro fs filenameAccess indexAccess rs hfile hne hsize
    exact criarIndice_coerente lawful_acesso fs filenameAccess indexAccess rs hfile hne hsize

/-- Witness of C4: the product file with identifiers 1, 2, 3. -/
theorem indice_coerente_witness :
    (criarIndiceProdutos fsExemplo "produtos.bin" "indice_produtos.dat").2 = .ok () ∧
      ∃ es : List IndexProduto,
        (criarIndiceProdutos fsExemplo "produtos.bin" "indice_produtos.dat").1
            "indice_produtos.dat" = some (encodeAll es)
          ∧ es.length = ([1, 2, 3].map exemploProduto).length
          ∧ ∀ (i : Nat) (r : Produto), ([1, 2, 3].map exemploProduto)[i]? = some r →
              ∃ e : IndexProduto, es[i]? = some e ∧ bytesToInt32 e.ID = idOf r
                ∧ (leValue e.Offset.val : Int) = (i : Int) * 52 :=
  indice_coerente.1 fsExemplo "produtos.bin" "indice_produtos.dat"
    ([1, 2, 3].map exemploProduto) rfl (by decide) (by decide)

/-- Claim C5, refuted as stated. After `2^31` insertions into an empty product
file, each with the identifier `proximoIDProdutos` returns, the identifiers of
the file are not strictly ascending: the first `2^31 - 1` insertions receive
`1, ..., 2147483647` and the `int32` sum `lastID + 1` of the next one wraps
around to `-2147483648`. -/
theorem ordem_falha_apos_estouro_int32 :
    ¬ (idsDoArquivo Produto
        (executarProdutos "produtos.bin" (fsCom [])
          (List.replicate (2147483647 + 1) (Op.inserir (exemploProduto 0))))
        "produtos.bin").Pairwise (fun a b => a < b) := by
  have h := executar_overflow lawful_produto "temp_produtos.bin" "indice_produtos.bin"
    "produtos.bin" (exemploProduto 0) (fsCom []) rfl
  unfold executarProdutos
  rw [idsDoArquivo_encodeAll lawful_produto _ _ _ h]
  exact not_strictAsc_overflow lawful_produto (exemploProduto 0)

/-- Claim C5, amended. Starting from an empty data file, after any finite
sequence of operations with at most `2^31 - 1` insertions, each operation being
an insertion that appends a record whose identifier is the value
`proximoIDProdutos` returns on the current file or a call of `removerProduto`
for any identifier, the identifiers of the file in file order are strictly
ascending, hence pairwise distinct; the same holds for the access operations. -/
theorem ordem_preservada_ate_limite_int32 :
    (∀ (fs : FS) (filename : String) (ops : List (Op Produto)),
        fs filename = some [] → ops.countP Op.isInserir ≤ 2147483647 →
        (idsDoArquivo Produto (executarProdutos filename fs ops) filename).Pairwise
            (fun a b => a < b)
          ∧ (idsDoArquivo Produto (executarProdutos filename fs ops) filename).Nodup)
    ∧ (∀ (fs : FS) (filename : String) (ops : List (Op Acesso)),
        fs filename = some [] → ops.countP Op.isInserir ≤ 2147483647 →
        (idsDoArquivo Acesso (executarAcessos filename fs ops) filename).Pairwise
            (fun a b => a < b)
          ∧ (idsDoArquivo Acesso (executarAcessos filename fs ops) filename).Nodup) := by
  constructor
  · intro fs filename ops hfile hops
    have h := executar_strictAsc lawful_produto "temp_produtos.bin" "indice_produtos.bin"
      filename fs ops hfile hops
    exact ⟨h, h.imp (fun hab => ne_of_lt hab)⟩
  · intro fs filename ops hfile hops
    have h := executar_strictAsc lawful_acesso "temp_acessos.bin" "indice_acessos.bin"
      filename fs ops hfile hops
    exact ⟨h, h.imp (fun hab => ne_of_lt hab)⟩

/-- Witness of C5 amended: two insertions, the removal of 1, one more insertion. -/
theorem ordem_preservada_ate_limite_int32_witness :
    (idsDoArquivo Produto
        (executarProdutos "produtos.bin" (fsCom [])
          [.inserir (exemploProduto 0), .inserir (exemploProduto 0), .remover 1,
            .inserir (exemploProduto 0)])
        "produtos.bin").Pairwise (fun a b => a < b)
      ∧ (idsDoArquivo Acesso
        (executarAcessos "acessos.bin" (fsCom [])
          [.inserir (exemploAcesso 0), .remover 7, .inserir (exemploAcesso 0)])
        "acessos.bin").Pairwise (fun a b => a < b) :=
  ⟨(ordem_preservada_ate_limite_int32.1 (fsCom []) "produtos.bin"
      [.inserir (exemploProduto 0), .inserir (exemploProduto 0), .remover 1,
        .inserir (exemploProduto 0)] rfl (by decide)).1,
    (ordem_preservada_ate_limite_int32.2 (fsCom []) "acessos.bin"
      [.inserir (exemploAcesso 0), .remover 7, .inserir (exemploAcesso 0)] rfl (by decide)).1⟩

/-- Claim C6, refuted as stated. The product data file named
"indice_produtos.bin" holds the identifiers 1, 2, 3; the removal of 2 succeeds
and leaves the data file empty, not the records 1 and 3: the rebuilding of the
index at that same path truncates it.  So it is with an access data file named
"indice_acessos.bin". -/
theorem remover_esvazia_dados_no_indice_fixo :
    (fsDadosNoIndiceFixo "indice_produtos.bin"
          = some (encodeAll ([1, 2, 3].map exemploProduto))
        ∧ (∃ r ∈ [1, 2, 3].map exemploProduto, idOf r = 2)
        ∧ (removerProduto fsDadosNoIndiceFixo "indice_produtos.bin" 2).2 = .ok ()
        ∧ (removerProduto fsDadosNoIndiceFixo "indice_produtos.bin" 2).1 "indice_produtos.bin"
            = some []
        ∧ (removerProduto fsDadosNoIndiceFixo "indice_produtos.bin" 2).1 "indice_produtos.bin"
            ≠ some (encodeAll (([1, 2, 3].map exemploProduto).filter
                (fun r => decide (idOf r ≠ 2)))))
      ∧ (fsDe "indice_acessos.bin" (encodeAll ([1, 2, 3].map exemploAcesso))
            "indice_acessos.bin" = some (encodeAll ([1, 2, 3].map exemploAcesso))
        ∧ (∃ r ∈ [1, 2, 3].map exemploAcesso, idOf r = 2)
        ∧ (removerAcesso (fsDe "indice_acessos.bin" (encodeAll ([1, 2, 3].map exemploAcesso)))
            "indice_acessos.bin" 2).2 = .ok ()
        ∧ (removerAcesso (fsDe "indice_acessos.bin" (encodeAll ([1, 2, 3].map exemploAcesso)))
            "indice_acessos.bin" 2).1 "indice_acessos.bin" = some []
        ∧ (removerAcesso (fsDe "indice_acessos.bin" (encodeAll ([1, 2, 3].map exemploAcesso)))
            "indice_acessos.bin" 2).1 "indice_acessos.bin"
            ≠ some (encodeAll (([1, 2, 3].map exemploAcesso).filter
                (fun r => decide (idOf r ≠ 2))))) :=
  ⟨⟨by decide, ⟨exemploProduto 2, by decide, by decide⟩, by decide, by decide, by decide⟩,
    ⟨by decide, ⟨exemploAcesso 2, by decide, by decide⟩, by decide, by decide, by decide⟩⟩

/-- Claim C6, amended. For a product data file of complete records at any path
other than "indice_produtos.bin": after `removerProduto` succeeds, the data
file is exactly the original sequence of records without those of identifier
`k`, the other records all there, unmodified and in their original order; and
the call does succeed when the file holds a record with identifier `k` and is
not at the path "temp_produtos.bin".  Likewise `removerAcesso`, with
"indice_acessos.bin" and "temp_acessos.bin". -/
theorem remover_compacta :
    (∀ (fs : FS) (filenameProd : String) (rs : List Produto) (k : Int),
        fs filenameProd = some (encodeAll rs) → filenameProd ≠ "indice_produtos.bin" →
        ((removerProduto fs filenameProd k).2 = .ok () →
            (removerProduto fs filenameProd k).1 filenameProd
              = some (encodeAll (rs.filter (fun r => decide (idOf r ≠ k)))))
          ∧ ((∃ r ∈ rs, idOf r = k) → filenameProd ≠ "temp_produtos.bin" →
              (removerProduto fs filenameProd k).2 = .ok ()))
    ∧ (∀ (fs : FS) (filenameAccess : String) (rs : List Acesso) (k : Int),
        fs filenameAccess = some (encodeAll rs) → filenameAccess ≠ "indice_acessos.bin" →
        ((removerAcesso fs filenameAccess k).2 = .ok () →
            (removerAcesso fs filenameAccess k).1 filenameAccess
              = some (encodeAll (rs.filter (fun r => decide (idOf r ≠ k)))))
          ∧ ((∃ r ∈ rs, idOf r = k) → filenameAccess ≠ "temp_acessos.bin" →
              (removerAcesso fs filenameAccess k).2 = .ok ())) := by
  constructor
  · intro fs filenameProd rs k hfile hx
    constructor
    · intro hok
      exact (remover_sucesso lawful_produto "temp_produtos.bin" "indice_produtos.bin" fs
        filenameProd k rs hfile hx hok).1
    · intro hk ht
      exact (remover_presente lawful_produto "temp_produtos.bin" "indice_produtos.bin" fs
        filenameProd k rs hfile ht hx hk).1
  · intro fs filenameAccess rs k hfile hx
    constructor
    · intro hok
      exact (remover_sucesso lawful_acesso "temp_acessos.bin" "indice_acessos.bin" fs
        filenameAccess k rs hfile hx hok).1
    · intro hk ht
      exact (remover_presente lawful_acesso "temp_acessos.bin" "indice_acessos.bin" fs
        filenameAccess k rs hfile ht hx hk).1

/-- Witness of C6 amended: the removal of 2 from the files with identifiers 1, 2, 3. -/
theorem remover_compacta_witness :
    ((removerProduto fsExemplo "produtos.bin" 2).2 = .ok ()
        ∧ (removerProduto fsExemplo "produtos.bin" 2).1 "produtos.bin"
            = some (encodeAll (([1, 2, 3].map exemploProduto).filter
                (fun r => decide (idOf r ≠ 2)))))
      ∧ ((removerAcesso fsExemplo "acessos.bin" 2).2 = .ok ()
        ∧ (removerAcesso fsExemplo "acessos.bin" 2).1 "acessos.bin"
            = some (encodeAll (([1, 2, 3].map exemploAcesso).filter
                (fun r => decide (idOf r ≠ 2))))) :=
  ⟨⟨(remover_compacta.1 fsExemplo "produtos.bin" ([1, 2, 3].map exemploProduto) 2 rfl
        (by decide)).2 ⟨exemploProduto 2, by decide, by decide⟩ (by decide),
      (remover_compacta.1 fsExemplo "produtos.bin" ([1, 2, 3].map exemploProduto) 2 rfl
        (by decide)).1 (by decide)⟩,
    ⟨(remover_compacta.2 fsExemplo "acessos.bin" ([1, 2, 3].map exemploAcesso) 2 rfl
        (by decide)).2 ⟨exemploAcesso 2, by decide, by decide⟩ (by decide),
      (remover_compacta.2 fsExemplo "acessos.bin" ([1, 2, 3].map exemploAcesso) 2 rfl
        (by decide)).1 (by decide)⟩⟩

/-- Claim C7, refuted as stated. The product data file named "temp_produtos.bin"
holds the identifiers 1, 2, 3, none of them 1001; the removal of 1001 fails with
not-found and leaves the data file empty: the creation of the temporary file at
that same path truncates it before the first read.  So it is with an access
data file named "temp_acessos.bin". -/
theorem remover_ausente_esvazia_dados_no_temp :
    (fsDe "temp_produtos.bin" (encodeAll ([1, 2, 3].map exemploProduto)) "temp_produtos.bin"
          = some (encodeAll ([1, 2, 3].map exemploProduto))
        ∧ (∀ r ∈ [1, 2, 3].map exemploProduto, idOf r ≠ 1001)
        ∧ (removerProduto (fsDe "temp_produtos.bin" (encodeAll ([1, 2, 3].map exemploProduto)))
            "temp_produtos.bin" 1001).2 = .error (.naoEncontrado 1001)
        ∧ (removerProduto (fsDe "temp_produtos.bin" (encodeAll ([1, 2, 3].map exemploProduto)))
            "temp_produtos.bin" 1001).1 "temp_produtos.bin" = some []
        ∧ (removerProduto (fsDe "temp_produtos.bin" (encodeAll ([1, 2, 3].map exemploProduto)))
            "temp_produtos.bin" 1001).1 "temp_produtos.bin"
            ≠ fsDe "temp_produtos.bin" (encodeAll ([1, 2, 3].map exemploProduto))
                "temp_produtos.bin")
      ∧ (fsDe "temp_acessos.bin" (encodeAll ([1, 2, 3].map exemploAcesso)) "temp_acessos.bin"
          = some (encodeAll ([1, 2, 3].map exemploAcesso))
        ∧ (∀ r ∈ [1, 2, 3].map exemploAcesso, idOf r ≠ 1001)
        ∧ (removerAcesso (fsDe "temp_acessos.bin" (encodeAll ([1, 2, 3].map exemploAcesso)))
            "temp_acessos.bin" 1001).2 = .error (.naoEncontrado 1001)
        ∧ (removerAcesso (fsDe "temp_acessos.bin" (encodeAll ([1, 2, 3].map exemploAcesso)))
            "temp_acessos.bin" 1001).1 "temp_acessos.bin" = some []
        ∧ (removerAcesso (fsDe "temp_acessos.bin" (encodeAll ([1, 2, 3].map exemploAcesso)))
            "temp_acessos.bin" 1001).1 "temp_acessos.bin"
            ≠ fsDe "temp_acessos.bin" (encodeAll ([1, 2, 3].map exemploAcesso))
                "temp_acessos.bin") := by
  decide

/-- Claim C7, amended. For a data file of complete records and an identifier
that no record of the file carries, `removerProduto` fails with the not-found
error at every path, and at every path other than "temp_produtos.bin" it leaves
the contents of the data file as they were; likewise `removerAcesso`, with
"temp_acessos.bin". -/
theorem remover_ausente_nao_altera :
    (∀ (fs : FS) (filenameProd : String) (rs : List Produto) (k : Int),
        fs filenameProd = some (encodeAll rs) → (∀ r ∈ rs, idOf r ≠ k) →
        (removerProduto fs filenameProd k).2 = .error (.naoEncontrado k)
          ∧ (filenameProd ≠ "temp_produtos.bin" →
              (removerProduto fs filenameProd k).1 filenameProd = fs filenameProd))
    ∧ (∀ (fs : FS) (filenameAccess : String) (rs : List Acesso) (k : Int),
        fs filenameAccess = some (encodeAll rs) → (∀ r ∈ rs, idOf r ≠ k) →
        (removerAcesso fs filenameAccess k).2 = .error (.naoEncontrado k)
          ∧ (filenameAccess ≠ "temp_acessos.bin" →
              (removerAcesso fs filenameAccess k).1 filenameAccess = fs filenameAccess)) := by
  constructor
  · intro fs filenameProd rs k hfile hk
    by_cases ht : filenameProd = "temp_produtos.bin"
    · refine ⟨?_, fun h => absurd ht h⟩
      rw [ht]
      unfold removerProduto
      rw [remover_temp]
    · have h := remover_ausente lawful_produto "temp_produtos.bin" "indice_produtos.bin" fs
        filenameProd k rs hfile ht hk
      exact ⟨h.1, fun _ => h.2⟩
  · intro fs filenameAccess rs k hfile hk
    by_cases ht : filenameAccess = "temp_acessos.bin"
    · refine ⟨?_, fun h => absurd ht h⟩
      rw [ht]
      unfold removerAcesso
      rw [remover_temp]
    · have h := remover_ausente lawful_acesso "temp_acessos.bin" "indice_acessos.bin" fs
        filenameAccess k rs hfile ht hk
      exact ⟨h.1, fun _ => h.2⟩

/-- Witness of C7 amended: the removal of 1001, as in `main`, from the files with
identifiers 1, 2, 3. -/
theorem remover_ausente_nao_altera_witness :
    ((removerProduto fsExemplo "produtos.bin" 1001).2 = .error (.naoEncontrado 1001)
        ∧ (removerProduto fsExemplo "produtos.bin" 1001).1 "produtos.bin"
            = fsExemplo "produtos.bin")
      ∧ ((removerAcesso fsExemplo "acessos.bin" 1001).2 = .error (.naoEncontrado 1001)
        ∧ (removerAcesso fsExemplo "acessos.bin" 1001).1 "acessos.bin"
            = fsExemplo "acessos.bin") :=
  ⟨⟨(remover_ausente_nao_altera.1 fsExemplo "produtos.bin" ([1, 2, 3].map exemploProduto) 1001
        rfl (by decide)).1,
      (remover_ausente_nao_altera.1 fsExemplo "produtos.bin" ([1, 2, 3].map exemploProduto) 1001
        rfl (by decide)).2 (by decide)⟩,
    ⟨(remover_ausente_nao_altera.2 fsExemplo "acessos.bin" ([1, 2, 3].map exemploAcesso) 1001
        rfl (by decide)).1,
      (remover_ausente_nao_altera.2 fsExemplo "acessos.bin" ([1, 2, 3].map exemploAcesso) 1001
        rfl (by decide)).2 (by decide)⟩⟩

/-- Claim C8, as the code behaves. With the indexes of `main` built at
"indice_produtos.dat" and "indice_acessos.dat" over the identifiers 1, 2, 3, a
successful removal rebuilds the index at the fixed path "indice_produtos.bin"
and leaves the index of the caller as it was.  The lookup of the removed
identifier 2 through the index of the caller then returns the record with
identifier 3, and the lookup of the removed last identifier 3 fails with a read
error of the data file; through the rebuilt index the lookup of 3 fails with a
read error of the index file.  None of them is the not-found error. -/
theorem consulta_apos_remocao_sem_nao_encontrado :
    (removerProduto fsIndexado "produtos.bin" 2).2 = .ok ()
      ∧ consultarProdutoComIndice (removerProduto fsIndexado "produtos.bin" 2).1
          "indice_produtos.dat" "produtos.bin" 2 = .ok (exemploProduto 3)
      ∧ (removerProduto fsIndexado "produtos.bin" 3).2 = .ok ()
      ∧ consultarProdutoComIndice (removerProduto fsIndexado "produtos.bin" 3).1
          "indice_produtos.dat" "produtos.bin" 3 = .error (.ler .eof)
      ∧ consultarProdutoComIndice (removerProduto fsIndexado "produtos.bin" 3).1
          "indice_produtos.bin" "produtos.bin" 3 = .error (.lerIndice .eof)
      ∧ (removerAcesso fsIndexado "acessos.bin" 2).2 = .ok ()
      ∧ consultarAcessoComIndice (removerAcesso fsIndexado "acessos.bin" 2).1
          "indice_acessos.dat" "acessos.bin" 2 = .ok (exemploAcesso 3)
      ∧ consultarAcessoComIndice (removerAcesso fsIndexado "acessos.bin" 3).1
          "indice_acessos.bin" "acessos.bin" 3 = .error (.lerIndice .eof) := by
  decide

/-- Claim C9, refuted as stated. On a product file whose only record has the
identifier `2147483647`, `proximoIDProdutos` returns `-2147483648`, not the
identifier of the last record plus one. -/
theorem proximoID_transborda :
    idsDoArquivo Produto (fsCom [2147483647]) "produtos.bin" = [2147483647]
      ∧ proximoIDProdutos (fsCom [2147483647]) "produtos.bin" = .ok (-2147483648)
      ∧ proximoIDProdutos (fsCom [2147483647]) "produtos.bin" ≠ .ok (2147483647 + 1) := by
  decide

/-- Claim C9, amended. `proximoIDProdutos` and `proximoIDAcessos` return 1 for a
data file with no record; otherwise, with `L` the identifier of the last record
in file order, they return `L + 1` when `L` is below `2147483647` and
`-2147483648`, the `int32` sum, when `L` is `2147483647`. -/
theorem proximoID_ultimo_mais_um :
    (∀ (fs : FS) (filename : String) (rs : List Produto),
        fs filename = some (encodeAll rs) →
        (rs = [] → proximoIDProdutos fs filename = .ok 1)
          ∧ (∀ r : Produto, rs.getLast? = some r → idOf r < 2147483647 →
              proximoIDProdutos fs filename = .ok (idOf r + 1))
          ∧ (∀ r : Produto, rs.getLast? = some r → idOf r = 2147483647 →
              proximoIDProdutos fs filename = .ok (-2147483648)))
    ∧ (∀ (fs : FS) (filename : String) (rs : List Acesso),
        fs filename = some (encodeAll rs) →
        (rs = [] → proximoIDAcessos fs filename = .ok 1)
          ∧ (∀ r : Acesso, rs.getLast? = some r → idOf r < 2147483647 →
              proximoIDAcessos fs filename = .ok (idOf r + 1))
          ∧ (∀ r : Acesso, rs.getLast? = some r → idOf r = 2147483647 →
              proximoIDAcessos fs filename = .ok (-2147483648))) := by
  constructor
  · intro fs filename rs hfile
    exact proximoID_casos lawful_produto fs filename rs hfile
  · intro fs filename rs hfile
    exact proximoID_casos lawful_acesso fs filename rs hfile

/-- Witness of C9 amended: on the files holding 1, 2, 3 the next identifier
is 4, and on the empty files it is 1. -/
theorem proximoID_ultimo_mais_um_witness :
    proximoIDProdutos fsExemplo "produtos.bin" = .ok (idOf (exemploProduto 3) + 1)
      ∧ idOf (exemploProduto 3) + 1 = 4
      ∧ proximoIDAcessos fsExemplo "acessos.bin" = .ok (idOf (exemploAcesso 3) + 1)
      ∧ proximoIDProdutos (fsCom []) "produtos.bin" = .ok 1 :=
  ⟨(proximoID_ultimo_mais_um.1 fsExemplo "produtos.bin" ([1, 2, 3].map exemploProduto)
      rfl).2.1 (exemploProduto 3) (by decide) (by decide),
    by decide,
    (proximoID_ultimo_mais_um.2 fsExemplo "acessos.bin" ([1, 2, 3].map exemploAcesso)
      rfl).2.1 (exemploAcesso 3) (by decide) (by decide),
    (proximoID_ultimo_mais_um.1 (fsCom []) "produtos.bin" [] rfl).1 rfl⟩

/-- Claim C10. For every file system, whatever the data file and the index file
hold, a second run of `criarIndiceProdutos` on the same paths returns the
result of the first and leaves every file, the index file among them, with the
bytes the first run left; likewise `criarIndiceAcessos`. -/
theorem criarIndice_idempotente (fs : FS) (filename indexName : String) :
    (criarIndiceProdutos (criarIndiceProdutos fs filename indexName).1 filename indexName
          = criarIndiceProdutos fs filename indexName
        ∧ (criarIndiceProdutos (criarIndiceProdutos fs filename indexName).1 filename
            indexName).1 indexName = (criarIndiceProdutos fs filename indexName).1 indexName)
      ∧ (criarIndiceAcessos (criarIndiceAcessos fs filename indexName).1 filename indexName
          = criarIndiceAcessos fs filename indexName
        ∧ (criarIndiceAcessos (criarIndiceAcessos fs filename indexName).1 filename
            indexName).1 indexName = (criarIndiceAcessos fs filename indexName).1 indexName) := by
  have hP := criarIndice_idem Produto fs filename indexName
  have hA := criarIndice_idem Acesso fs filename indexName
  exact ⟨⟨hP, congrArg (fun p => p.1 indexName) hP⟩, ⟨hA, congrArg (fun p => p.1 indexName) hA⟩⟩

/-! ## The codecs -/

theorem leValue_lt (l : List Byte) : leValue l < 256 ^ l.length := by
  induction l with
  | nil => simp [leValue]
  | cons b bs ih =>
    have hb := b.isLt
    simp only [leValue, List.length_cons, pow_succ]
    omega

theorem leBytes_leValue (l : List Byte) : leBytes l.length (leValue l) = l := by
  induction l with
  | nil => rfl
  | cons b bs ih =>
    have hb := b.isLt
    have h1 : (b.val + 256 * leValue bs) % 256 = b.val := by omega
    have h2 : (b.val + 256 * leValue bs) / 256 = leValue bs := by omega
    simp only [List.length_cons, leBytes, leValue, h2, ih, byteOf, h1]

theorem leValue_arr4_lt (b : Arr 4) : leValue b.val < 4294967296 := by
  have h := leValue_lt b.val
  rw [b.property] at h
  have hp : (256 : Nat) ^ 4 = 4294967296 := by norm_num
  omega

theorem int32ToBytes_bytesToInt32 (b : Arr 4) : int32ToBytes (bytesToInt32 b) = b := by
  have hlt := leValue_arr4_lt b
  have hu : (toInt32 (leValue b.val : Int) % 4294967296).toNat = leValue b.val := by
    unfold toInt32
    omega
  apply Subtype.ext
  unfold int32ToBytes bytesToInt32
  rw [hu, copyArr_val_of_length _ (length_leBytes _ _)]
  have h := leBytes_leValue b.val
  rw [b.property] at h
  exact h

theorem bytesToFloat32_float32ToBytes (f : Float32) : bytesToFloat32 (float32ToBytes f) = f := by
  apply Fin.ext
  have hf := f.isLt
  have hp : (256 : Nat) ^ 4 = 4294967296 := by norm_num
  unfold bytesToFloat32 float32ToBytes
  simp only [copyArr_val_of_length _ (length_leBytes _ _), leValue_leBytes, hp]
  omega

theorem length_padString (str : List Byte) (length : Nat) :
    (padString str length).length = length := by
  unfold padString
  rw [List.length_append, List.length_take, List.length_replicate]
  omega

theorem getElem?_padString_text (str : List Byte) (length i : Nat) (h1 : i < str.length)
    (h2 : i < length) : (padString str length)[i]? = str[i]? := by
  unfold padString
  rw [List.getElem?_append_left (by rw [List.length_take]; omega), List.getElem?_take,
    if_pos h2]

theorem getElem?_padString_zero (str : List Byte) (length i : Nat) (h1 : str.length ≤ i)
    (h2 : i < length) : (padString str length)[i]? = some 0 := by
  unfold padString
  have hlen : (str.take length).length = str.length := by
    rw [List.length_take]; omega
  rw [List.getElem?_append_right (by omega), hlen, List.getElem?_replicate]
  rw [if_pos (by omega)]

theorem padString_of_le (str : List Byte) (length : Nat) (h : str.length ≤ length) :
    padString str length = str ++ List.replicate (length - str.length) 0 := by
  unfold padString
  rw [List.take_of_length_le h]

/-! ## The scan for the most expensive product -/

theorem maisCaroLoop_encodeAll (rs : List Produto) :
    ∀ (k i : Nat) (best : Produto) (maior : Float32) (count : Int), i + k = rs.length →
      encontrarProdutoMaisCaroLoop (encodeAll rs) k (i : Int) best maior count
        = .ok ((varrerPrecos (rs.drop i) best maior).1, count + (k : Int)) := by
  intro k
  induction k with
  | zero =>
    intro i best maior count h
    rw [List.drop_eq_nil_of_le (by omega)]
    simp only [encontrarProdutoMaisCaroLoop, varrerPrecos, Nat.cast_zero, add_zero]
  | succ k ih =>
    intro i best maior count h
    have hi : i < rs.length := by omega
    have hget := List.getElem?_eq_getElem hi
    rw [encontrarProdutoMaisCaroLoop, seek_encodeAll lawful_produto]
    simp only
    rw [binaryRead_drop lawful_produto rs i _ hget]
    simp only
    rw [List.drop_eq_getElem_cons hi, varrerPrecos]
    have hcast : (((i + 1 : Nat) : Int)) = (i : Int) + 1 := by push_cast; rfl
    have hcount : count + 1 + (k : Int) = count + ((k + 1 : Nat) : Int) := by push_cast; ring
    unfold precoDe
    split
    · rw [← hcast, ih (i + 1) _ _ _ (by omega), hcount]
    · rw [← hcast, ih (i + 1) _ _ _ (by omega), hcount]

/-- On any file, the loop of `encontrarProdutoMaisCaro` reads every one of the
`size` complete records and counts it. -/
theorem maisCaroLoop_conta (bytes : List Byte) :
    ∀ (k i : Nat) (best : Produto) (maior : Float32) (count : Int),
      (i + k) * Record.size Produto ≤ bytes.length →
      ∃ p : Produto,
        encontrarProdutoMaisCaroLoop bytes k (i : Int) best maior count
          = .ok (p, count + (k : Int)) := by
  intro k
  induction k with
  | zero =>
    intro i best maior count _
    exact ⟨best, by simp only [encontrarProdutoMaisCaroLoop, Nat.cast_zero, add_zero]⟩
  | succ k ih =>
    intro i best maior count h
    have h52 : (i + (k + 1)) * 52 ≤ bytes.length := h
    have hneg : ¬ ((i : Int) * (Record.size Produto : Int) < 0) :=
      not_lt.mpr (Int.mul_nonneg (Int.ofNat_nonneg _) (Int.ofNat_nonneg _))
    have htn : ((i : Int) * (Record.size Produto : Int)).toNat = i * Record.size Produto := by
      rw [← Nat.cast_mul, Int.toNat_natCast]
    have hlen : (bytes.drop (i * Record.size Produto)).length = bytes.length - i * 52 :=
      List.length_drop _ _
    have h1 : ¬ (bytes.drop (i * Record.size Produto)).length = 0 := by
      rw [hlen]; omega
    have h2 : ¬ (bytes.drop (i * Record.size Produto)).length < Record.size Produto := by
      rw [hlen]
      show ¬ (bytes.length - i * 52 < 52)
      omega
    have hnext : (i + 1 + k) * Record.size Produto ≤ bytes.length := by
      show (i + 1 + k) * 52 ≤ bytes.length
      omega
    have hcast : (((i + 1 : Nat) : Int)) = (i : Int) + 1 := by push_cast; rfl
    have hcount : count + 1 + (k : Int) = count + ((k + 1 : Nat) : Int) := by push_cast; ring
    rw [encontrarProdutoMaisCaroLoop]
    simp only [seek, hneg, if_false, htn, binaryRead, h1, h2]
    split
    · obtain ⟨p, hp⟩ := ih (i + 1) (Record.decode
        ((bytes.drop (i * Record.size Produto)).take (Record.size Produto)))
        (bytesToFloat32 (Record.decode
          ((bytes.drop (i * Record.size Produto)).take (Record.size Produto)) : Produto).Price)
        (count + 1) hnext
      exact ⟨p, by rw [← hcast, hp, hcount]⟩
    · obtain ⟨p, hp⟩ := ih (i + 1) best maior (count + 1) hnext
      exact ⟨p, by rw [← hcast, hp, hcount]⟩

/-- The result of `encontrarProdutoMaisCaro` on any file: the empty-file error
exactly when the file has no complete record. -/
theorem encontrarProdutoMaisCaro_casos (fs : FS) (filename : String) (bytes : List Byte)
    (hfile : fs filename = some bytes) :
    (bytes.length < 52 → encontrarProdutoMaisCaro fs filename = .error .nenhumProduto)
      ∧ (52 ≤ bytes.length → ∃ p : Produto, encontrarProdutoMaisCaro fs filename = .ok p) := by
  have hsz : Record.size Produto = 52 := rfl
  constructor
  · intro h
    have h0 : bytes.length / Record.size Produto = 0 := by rw [hsz]; omega
    simp only [encontrarProdutoMaisCaro, hfile, h0, encontrarProdutoMaisCaroLoop, if_true]
  · intro h
    have hk : 1 ≤ bytes.length / Record.size Produto := by rw [hsz]; omega
    obtain ⟨p, hp⟩ := maisCaroLoop_conta bytes (bytes.length / Record.size Produto) 0
      produtoZero 0 0 (by rw [Nat.zero_add]; exact Nat.div_mul_le_self _ _)
    refine ⟨p, ?_⟩
    have hp2 : encontrarProdutoMaisCaroLoop bytes (bytes.length / Record.size Produto) 0
        produtoZero 0 0 = .ok (p, 0 + ((bytes.length / Record.size Produto : Nat) : Int)) := hp
    simp only [encontrarProdutoMaisCaro, hfile, hp2]
    rw [if_neg (by omega)]

/-- The result of `encontrarProdutoMaisCaro` on a non-empty file of complete
records. -/
theorem encontrarProdutoMaisCaro_encodeAll (fs : FS) (filename : String) (rs : List Produto)
    (hfile : fs filename = some (encodeAll rs)) (hne : rs ≠ []) :
    encontrarProdutoMaisCaro fs filename = .ok (varrerPrecos rs produtoZero 0).1 := by
  have hn : (encodeAll rs).length / Record.size Produto = rs.length := by
    rw [length_encodeAll lawful_produto, Nat.mul_div_cancel _ lawful_produto.size_pos]
  have hpos : 0 < rs.length := List.length_pos.mpr hne
  have h := maisCaroLoop_encodeAll rs rs.length 0 produtoZero 0 0 (by omega)
  have h2 : encontrarProdutoMaisCaroLoop (encodeAll rs) rs.length 0 produtoZero 0 0
      = .ok ((varrerPrecos rs produtoZero 0).1, 0 + (rs.length : Int)) := h
  simp only [encontrarProdutoMaisCaro, hfile, hn, h2]
  rw [if_neg (by omega)]

/-! ## The comparison of prices -/

theorem Float32.gt_iff (a b : Float32) (ha : a.isNaN = false) (hb : b.isNaN = false) :
    a.gt b = true ↔ b.escala < a.escala := by
  simp only [Float32.gt, ha, hb, Bool.not_false, Bool.true_and, decide_eq_true_eq]

theorem Float32.ge_iff (a b : Float32) (ha : a.isNaN = false) (hb : b.isNaN = false) :
    a.ge b = true ↔ b.escala ≤ a.escala := by
  simp only [Float32.ge, ha, hb, Bool.not_false, Bool.true_and, decide_eq_true_eq]

theorem Float32.zero_isNaN : (0 : Float32).isNaN = false := by decide

/-- The scan over prices that are not NaN, from a threshold that is not a NaN:
either no price exceeds the threshold and nothing changes, or the scan ends on
the first record of greatest price. -/
theorem varrerPrecos_spec (l : List Produto) :
    ∀ (b : Produto) (m : Float32), m.isNaN = false →
      (∀ r ∈ l, (precoDe r).isNaN = false) →
      (varrerPrecos l b m = (b, m) ∧ ∀ r ∈ l, (precoDe r).escala ≤ m.escala)
      ∨ (∃ (pre post : List Produto) (best : Produto),
          l = pre ++ best :: post ∧ varrerPrecos l b m = (best, precoDe best)
            ∧ m.escala < (precoDe best).escala
            ∧ (∀ r ∈ pre, (precoDe r).escala < (precoDe best).escala)
            ∧ (∀ r ∈ post, (precoDe r).escala ≤ (precoDe best).escala)) := by
  induction l with
  | nil =>
    intro b m _ _
    exact Or.inl ⟨rfl, fun r hr => by simp at hr⟩
  | cons a t ih =>
    intro b m hm hl
    have ha : (precoDe a).isNaN = false := hl a (List.mem_cons_self _ _)
    have ht : ∀ r ∈ t, (precoDe r).isNaN = false := fun r hr => hl r (List.mem_cons_of_mem _ hr)
    rw [varrerPrecos]
    by_cases hgt : (precoDe a).gt m = true
    · rw [if_pos hgt]
      have hlt := (Float32.gt_iff _ _ ha hm).mp hgt
      rcases ih a (precoDe a) ha ht with ⟨h1, h2⟩ | ⟨pre, post, best, h1, h2, h3, h4, h5⟩
      · exact Or.inr ⟨[], t, a, rfl, h1, hlt, fun r hr => by simp at hr, h2⟩
      · refine Or.inr ⟨a :: pre, post, best, by rw [h1]; rfl, h2, by omega, ?_, h5⟩
        intro r hr
        rcases List.mem_cons.mp hr with h | h
        · rw [h]; exact h3
        · exact h4 r h
    · rw [if_neg hgt]
      have hle : (precoDe a).escala ≤ m.escala := by
        by_contra hc
        exact hgt ((Float32.gt_iff _ _ ha hm).mpr (by omega))
      rcases ih b m hm ht with ⟨h1, h2⟩ | ⟨pre, post, best, h1, h2, h3, h4, h5⟩
      · refine Or.inl ⟨h1, ?_⟩
        intro r hr
        rcases List.mem_cons.mp hr with h | h
        · rw [h]; exact hle
        · exact h2 r h
      · refine Or.inr ⟨a :: pre, post, best, by rw [h1]; rfl, h2, h3, ?_, h5⟩
        intro r hr
        rcases List.mem_cons.mp hr with h | h
        · rw [h]; omega
        · exact h4 r h

/-- The scan when no price exceeds the threshold: the initial pair comes back. -/
theorem varrerPrecos_sem_maior (l : List Produto) (b : Produto) (m : Float32)
    (hl : ∀ r ∈ l, (precoDe r).gt m = false) : varrerPrecos l b m = (b, m) := by
  induction l with
  | nil => rfl
  | cons a t ih =>
    rw [varrerPrecos, hl a (List.mem_cons_self _ _)]
    exact ih (fun r hr => hl r (List.mem_cons_of_mem _ hr))

/-- The most expensive product of a file without NaN prices that holds a price
above zero: the first record of greatest price. -/
theorem encontrarProdutoMaisCaro_maximo (fs : FS) (filename : String) (rs : List Produto)
    (hfile : fs filename = some (encodeAll rs))
    (hnan : ∀ r ∈ rs, (precoDe r).isNaN = false)
    (hpos : ∃ r ∈ rs, (precoDe r).gt 0 = true) :
    ∃ (pre post : List Produto) (best : Produto),
      rs = pre ++ best :: post ∧ encontrarProdutoMaisCaro fs filename = .ok best
        ∧ (∀ r ∈ rs, (precoDe best).ge (precoDe r) = true)
        ∧ (∀ r ∈ pre, (precoDe best).gt (precoDe r) = true) := by
  obtain ⟨r0, hr0, hgt0⟩ := hpos
  have hne : rs ≠ [] := List.ne_nil_of_mem hr0
  have hres := encontrarProdutoMaisCaro_encodeAll fs filename rs hfile hne
  rcases varrerPrecos_spec rs produtoZero 0 Float32.zero_isNaN hnan with
    ⟨_, h2⟩ | ⟨pre, post, best, h1, h2, _, h4, h5⟩
  · have := (Float32.gt_iff _ _ (hnan r0 hr0) Float32.zero_isNaN).mp hgt0
    have := h2 r0 hr0
    omega
  · have hbest : best ∈ rs := by rw [h1]; simp
    have hbn := hnan best hbest
    refine ⟨pre, post, best, h1, by rw [hres, h2], ?_, ?_⟩
    · intro r hr
      rw [Float32.ge_iff _ _ hbn (hnan r hr)]
      rw [h1] at hr
      rcases List.mem_append.mp hr with h | h
      · exact le_of_lt (h4 r h)
      · rcases List.mem_cons.mp h with h | h
        · rw [h]
        · exact h5 r h
    · intro r hr
      have hrs : r ∈ rs := by rw [h1]; exact List.mem_append_left _ hr
      rw [Float32.gt_iff _ _ hbn (hnan r hrs)]
      exact h4 r hr

/-- The result of `encontrarProdutoMaisCaro` on a non-empty file in which no
price is above zero: success with the zero value `Produto{}`. -/
theorem encontrarProdutoMaisCaro_sem_positivo (fs : FS) (filename : String)
    (rs : List Produto) (hfile : fs filename = some (encodeAll rs)) (hne : rs ≠ [])
    (hl : ∀ r ∈ rs, (precoDe r).gt 0 = false) :
    encontrarProdutoMaisCaro fs filename = .ok produtoZero := by
  rw [encontrarProdutoMaisCaro_encodeAll fs filename rs hfile hne,
    varrerPrecos_sem_maior rs produtoZero 0 hl]

/-! ## The map of session counts -/

theorem Mapa.mem_keys_incr (m : Mapa) (s k : List Byte) :
    k ∈ (m.incr s).map Prod.fst ↔ k ∈ m.map Prod.fst ∨ k = s := by
  induction m with
  | nil => simp [Mapa.incr]
  | cons e t ih =>
    obtain ⟨k0, c0⟩ := e
    rw [Mapa.incr]
    by_cases h : k0 = s
    · rw [if_pos h]
      simp only [List.map_cons, List.mem_cons]
      constructor
      · intro hk; exact Or.inl hk
      · rintro (hk | hk)
        · exact hk
        · exact Or.inl (by rw [hk, h])
    · rw [if_neg h]
      simp only [List.map_cons, List.mem_cons, ih]
      tauto

theorem Mapa.nodup_incr (m : Mapa) (s : List Byte) (h : (m.map Prod.fst).Nodup) :
    ((m.incr s).map Prod.fst).Nodup := by
  induction m with
  | nil => simp [Mapa.incr]
  | cons e t ih =>
    obtain ⟨k0, c0⟩ := e
    rw [List.map_cons, List.nodup_cons] at h
    rw [Mapa.incr]
    by_cases hk : k0 = s
    · rw [if_pos hk, List.map_cons, List.nodup_cons]
      exact h
    · rw [if_neg hk, List.map_cons, List.nodup_cons]
      refine ⟨?_, ih h.2⟩
      intro hmem
      rcases (Mapa.mem_keys_incr t s k0).mp hmem with h1 | h1
      · exact h.1 h1
      · exact hk h1

theorem Mapa.mem_incr_of_ne (m : Mapa) (s k : List Byte) (c : Int) (hk : k ≠ s) :
    (k, c) ∈ m.incr s ↔ (k, c) ∈ m := by
  induction m with
  | nil =>
    simp only [Mapa.incr, List.mem_singleton, Prod.mk.injEq, List.not_mem_nil, iff_false]
    intro h; exact hk h.1
  | cons e t ih =>
    obtain ⟨k0, c0⟩ := e
    rw [Mapa.incr]
    by_cases h : k0 = s
    · rw [if_pos h]
      simp only [List.mem_cons, Prod.mk.injEq]
      constructor
      · rintro (⟨h1, _⟩ | h1)
        · exact absurd (h1.trans h) hk
        · exact Or.inr h1
      · rintro (⟨h1, _⟩ | h1)
        · exact absurd (h1.trans h) hk
        · exact Or.inr h1
    · rw [if_neg h]
      simp only [List.mem_cons, ih]

theorem Mapa.mem_incr_self (m : Mapa) (s : List Byte) (c : Int)
    (hn : (m.map Prod.fst).Nodup) :
    (s, c) ∈ m.incr s ↔ (∃ c0, (s, c0) ∈ m ∧ c = c0 + 1) ∨ (s ∉ m.map Prod.fst ∧ c = 1) := by
  induction m with
  | nil => simp [Mapa.incr]
  | cons e t ih =>
    obtain ⟨k0, c0⟩ := e
    rw [List.map_cons, List.nodup_cons] at hn
    rw [Mapa.incr]
    by_cases h : k0 = s
    · subst h
      rw [if_pos rfl]
      have hnot : ∀ c1, (k0, c1) ∉ t := fun c1 hc1 =>
        hn.1 (List.mem_map.mpr ⟨(k0, c1), hc1, rfl⟩)
      constructor
      · intro hmem
        rcases List.mem_cons.mp hmem with h1 | h1
        · refine Or.inl ⟨c0, List.mem_cons_self _ _, ?_⟩
          exact (Prod.mk.injEq _ _ _ _ ▸ h1 : k0 = k0 ∧ c = c0 + 1).2
        · exact absurd h1 (hnot c)
      · rintro (⟨c1, h1, h2⟩ | ⟨h1, _⟩)
        · rcases List.mem_cons.mp h1 with h3 | h3
          · have : c1 = c0 := (Prod.mk.injEq _ _ _ _ ▸ h3 : k0 = k0 ∧ c1 = c0).2
            rw [h2, this]
            exact List.mem_cons_self _ _
          · exact absurd h3 (hnot c1)
        · exact absurd (by rw [List.map_cons]; exact List.mem_cons_self _ _) h1
    · rw [if_neg h]
      have hne : ∀ c1, (s, c1) ≠ (k0, c0) := fun c1 hc1 =>
        h ((Prod.mk.injEq _ _ _ _ ▸ hc1 : s = k0 ∧ c1 = c0).1).symm
      simp only [List.mem_cons, hne, false_or, ih hn.2, List.map_cons]
      constructor
      · rintro (h1 | ⟨h1, h2⟩)
        · exact Or.inl h1
        · exact Or.inr ⟨fun hc => by
            rcases hc with hc | hc
            · exact h hc.symm
            · exact h1 hc, h2⟩
      · rintro (h1 | ⟨h1, h2⟩)
        · exact Or.inl h1
        · exact Or.inr ⟨fun hc => h1 (Or.inr hc), h2⟩

/-- The map after `sessaoCount[s]++` for each `s` of `ss` in order: each key
once, each session of `ss` with the number of its occurrences. -/
theorem Mapa.foldl_incr_spec (ss : List (List Byte)) :
    ((ss.foldl Mapa.incr []).map Prod.fst).Nodup
      ∧ (∀ (k : List Byte) (c : Int), (k, c) ∈ ss.foldl Mapa.incr [] →
          c = ((ss.count k : Nat) : Int) ∧ 1 ≤ c)
      ∧ (∀ k ∈ ss, (k, ((ss.count k : Nat) : Int)) ∈ ss.foldl Mapa.incr []) := by
  induction ss using List.reverseRecOn with
  | nil =>
    refine ⟨List.nodup_nil, ?_, ?_⟩
    · intro k c h; simp at h
    · intro k h; simp at h
  | append_singleton ss s ih =>
    obtain ⟨hn, h1, h2⟩ := ih
    rw [List.foldl_append, List.foldl_cons, List.foldl_nil]
    have hcount : ∀ k : List Byte,
        (((ss ++ [s]).count k : Nat) : Int)
          = ((ss.count k : Nat) : Int) + (if k = s then 1 else 0) := by
      intro k
      rw [List.count_append, List.count_singleton]
      by_cases hk : k = s
      · subst hk; simp
      · have hk2 : ¬ (s == k) = true := by
          intro h; exact hk (eq_of_beq h).symm
        simp [hk, hk2]
    have hkey : s ∉ (ss.foldl Mapa.incr []).map Prod.fst → ss.count s = 0 := by
      intro hs
      apply List.count_eq_zero_of_not_mem
      intro hmem
      exact hs (List.mem_map.mpr ⟨_, h2 s hmem, rfl⟩)
    refine ⟨Mapa.nodup_incr _ s hn, ?_, ?_⟩
    · intro k c hmem
      by_cases hk : k = s
      · subst hk
        rw [hcount, if_pos rfl]
        rcases (Mapa.mem_incr_self _ k c hn).mp hmem with ⟨c0, h3, h4⟩ | ⟨h3, h4⟩
        · have := h1 k c0 h3
          omega
        · have := hkey h3
          omega
      · rw [hcount, if_neg hk]
        have := h1 k c ((Mapa.mem_incr_of_ne _ s k c hk).mp hmem)
        omega
    · intro k hmem
      rw [hcount]
      by_cases hk : k = s
      · subst hk
        rw [if_pos rfl, Mapa.mem_incr_self _ k _ hn]
        by_cases hin : k ∈ (ss.foldl Mapa.incr []).map Prod.fst
        · left
          obtain ⟨e, he, hfst⟩ := List.mem_map.mp hin
          obtain ⟨k1, c1⟩ := e
          have hk1 : k1 = k := hfst
          subst hk1
          refine ⟨c1, he, ?_⟩
          have := h1 k1 c1 he
          omega
        · right
          refine ⟨hin, ?_⟩
          have := hkey hin
          omega
      · rw [if_neg hk, add_zero, Mapa.mem_incr_of_ne _ s k _ hk]
        rcases List.mem_append.mp hmem with h | h
        · exact h2 k h
        · exact absurd (List.mem_singleton.mp h) hk

theorem contarSessoesLoop_encodeAll (rs : List Acesso) :
    ∀ (fuel : Nat) (m : Mapa), rs.length < fuel →
      contarSessoesLoop fuel (encodeAll rs) m
        = .ok ((rs.map (fun a => a.UserSession.val)).foldl Mapa.incr m) := by
  induction rs with
  | nil =>
    intro fuel m h
    cases fuel with
    | zero => omega
    | succ fuel =>
      rw [contarSessoesLoop, encodeAll_nil, binaryRead_nil]
      simp only [if_true, List.map_nil, List.foldl_nil]
  | cons r rs ih =>
    intro fuel m h
    cases fuel with
    | zero => omega
    | succ fuel =>
      rw [contarSessoesLoop, binaryRead_encodeAll_cons lawful_acesso]
      simp only
      have h1 : rs.length < fuel := by simpa using h
      rw [ih fuel _ h1, List.map_cons, List.foldl_cons]

/-- The loop over the entries of the map: either no count exceeds the initial
`maxCount` and nothing changes, or the loop ends on the first entry of greatest
count in the order of the visit. -/
theorem maisFrequenteLoop_spec (l : List (List Byte × Int)) :
    ∀ (s0 : List Byte) (c0 : Int),
      (maisFrequenteLoop l s0 c0 = (s0, c0) ∧ ∀ e ∈ l, e.2 ≤ c0)
      ∨ (∃ (pre post : List (List Byte × Int)) (s : List Byte) (c : Int),
          l = pre ++ (s, c) :: post ∧ maisFrequenteLoop l s0 c0 = (s, c) ∧ c0 < c
            ∧ (∀ e ∈ pre, e.2 < c) ∧ (∀ e ∈ post, e.2 ≤ c)) := by
  induction l with
  | nil =>
    intro s0 c0
    exact Or.inl ⟨rfl, fun e he => by simp at he⟩
  | cons a t ih =>
    intro s0 c0
    obtain ⟨k, n⟩ := a
    rw [maisFrequenteLoop]
    by_cases hgt : n > c0
    · rw [if_pos hgt]
      rcases ih k n with ⟨h1, h2⟩ | ⟨pre, post, s, c, h1, h2, h3, h4, h5⟩
      · exact Or.inr ⟨[], t, k, n, rfl, h1, hgt, fun e he => by simp at he, h2⟩
      · refine Or.inr ⟨(k, n) :: pre, post, s, c, by rw [h1]; rfl, h2, by omega, ?_, h5⟩
        intro e he
        rcases List.mem_cons.mp he with h | h
        · rw [h]; exact h3
        · exact h4 e h
    · rw [if_neg hgt]
      rcases ih s0 c0 with ⟨h1, h2⟩ | ⟨pre, post, s, c, h1, h2, h3, h4, h5⟩
      · refine Or.inl ⟨h1, ?_⟩
        intro e he
        rcases List.mem_cons.mp he with h | h
        · rw [h]; exact not_lt.mp hgt
        · exact h2 e h
      · refine Or.inr ⟨(k, n) :: pre, post, s, c, by rw [h1]; rfl, h2, h3, ?_, h5⟩
        intro e he
        rcases List.mem_cons.mp he with h | h
        · rw [h]; have := not_lt.mp hgt; show n < c; omega
        · exact h4 e h

/-- The most frequent session of a non-empty access file, for any order in
which the map is visited: the count is the greatest number of occurrences of a
session and the session occurs that many times. -/
theorem userSessionMaisFrequente_spec (visita : Mapa → Mapa)
    (hv : ∀ m : Mapa, (visita m).Perm m) (fs : FS) (filename : String) (rs : List Acesso)
    (hfile : fs filename = some (encodeAll rs)) (hne : rs ≠ []) :
    ∃ (sessao : List Byte) (count : Int),
      userSessionMaisFrequente visita fs filename = .ok (sessao, count)
        ∧ ocorrencias rs sessao = count ∧ 1 ≤ count
        ∧ ∀ s : List Byte, ocorrencias rs s ≤ count := by
  obtain ⟨_, h1, h2⟩ := Mapa.foldl_incr_spec (rs.map (fun a => a.UserSession.val))
  have hres : userSessionMaisFrequente visita fs filename
      = .ok (maisFrequenteLoop
          (visita ((rs.map (fun a => a.UserSession.val)).foldl Mapa.incr [])) [] 0) := by
    simp only [userSessionMaisFrequente, hfile,
      contarSessoesLoop_encodeAll rs _ _ (length_le_encodeAll lawful_acesso rs)]
  have hperm := hv ((rs.map (fun a => a.UserSession.val)).foldl Mapa.incr [])
  obtain ⟨a, ta, ha⟩ := List.exists_cons_of_ne_nil hne
  have hk0 : a.UserSession.val ∈ rs.map (fun a => a.UserSession.val) := by
    rw [ha]; simp
  have hbound : ∀ (c : Int), (∀ e ∈ visita
      ((rs.map (fun a => a.UserSession.val)).foldl Mapa.incr []), e.2 ≤ c) →
      ∀ s : List Byte, ocorrencias rs s ≤ c ∨ ocorrencias rs s = 0 := by
    intro c hc s
    by_cases hs : s ∈ rs.map (fun a => a.UserSession.val)
    · exact Or.inl (hc _ (hperm.symm.subset (h2 s hs)))
    · right
      unfold ocorrencias
      rw [List.count_eq_zero_of_not_mem hs]
      rfl
  rcases maisFrequenteLoop_spec
      (visita ((rs.map (fun a => a.UserSession.val)).foldl Mapa.incr [])) [] 0 with
    ⟨_, h4⟩ | ⟨pre, post, s, c, h3, h4, h5, h6, h7⟩
  · have hmem := hperm.symm.subset (h2 _ hk0)
    have hle := h4 _ hmem
    have hge := (h1 _ _ (h2 _ hk0)).2
    have hle2 : ((List.count a.UserSession.val
        (rs.map (fun a => a.UserSession.val)) : Nat) : Int) ≤ 0 := hle
    omega
  · have hin : (s, c) ∈ visita ((rs.map (fun a => a.UserSession.val)).foldl Mapa.incr []) := by
      rw [h3]; simp
    have hc := h1 s c (hperm.subset hin)
    refine ⟨s, c, by rw [hres, h4], hc.1.symm, hc.2, ?_⟩
    intro s1
    have hall : ∀ e ∈ visita ((rs.map (fun a => a.UserSession.val)).foldl Mapa.incr []),
        e.2 ≤ c := by
      intro e he
      rw [h3] at he
      rcases List.mem_append.mp he with h | h
      · exact le_of_lt (h6 e h)
      · rcases List.mem_cons.mp h with h | h
        · rw [h]
        · exact h7 e h
    rcases hbound c hall s1 with h | h
    · exact h
    · rw [h]; omega

/-! ## The next identifier of an ascending file -/

/-- On a non-empty strictly ascending file whose identifiers are below
`2147483647`, the next identifier is the greatest identifier plus one and a
record appended with it keeps the file strictly ascending. -/
theorem proximoID_maior {α : Type} [Record α] (hα : Lawful α) (fs : FS) (filename : String)
    (rs : List α) (hfile : fs filename = some (encodeAll rs)) (hne : rs ≠ [])
    (hs : StrictAsc rs) (hlt : ∀ r ∈ rs, idOf r < 2147483647) :
    ∃ m : Int, (∃ r ∈ rs, idOf r = m) ∧ (∀ r ∈ rs, idOf r ≤ m)
      ∧ proximoID α fs filename = .ok (m + 1) ∧ (∀ r ∈ rs, idOf r < m + 1)
      ∧ ∀ novo : α, StrictAsc (rs ++ [Record.setKey novo (int32ToBytes (m + 1))]) := by
  have hl : rs.getLast? = some (rs.getLast hne) := List.getLast?_eq_getLast _ hne
  have hmem : rs.getLast hne ∈ rs := List.getLast_mem hne
  have hle : ∀ r ∈ rs, idOf r ≤ idOf (rs.getLast hne) := by
    intro r hr
    have h := ids_le_last rs hs r hr
    rw [hl, Option.map_some', Option.getD_some] at h
    exact h
  have hlast := hlt _ hmem
  have hrange := idOf_range (rs.getLast hne)
  refine ⟨idOf (rs.getLast hne), ⟨_, hmem, rfl⟩, hle,
    (proximoID_casos hα fs filename rs hfile).2.1 _ hl hlast, ?_, ?_⟩
  · intro r hr
    have := hle r hr
    omega
  · intro novo
    apply strictAsc_snoc rs _ hs
    intro r hr
    rw [idOf_setKey hα, toInt32_of_range _ (by omega) (by omega)]
    have := hle r hr
    omega

/-! ## The round trip of the field values -/

theorem decodificar_codificarProduto (c : CamposProduto) :
    decodificarProduto (codificarProduto c)
      = { id := toInt32 c.id, productID := toInt32 c.productID, price := c.price,
          brand := padString c.brand 20, categoryCode := padString c.categoryCode 20 } := by
  simp only [decodificarProduto, codificarProduto, bytesToInt32_int32ToBytes,
    bytesToFloat32_float32ToBytes, copyArr_val_of_length _ (length_padString _ _)]

theorem decodificar_codificarAcesso (c : CamposAcesso) :
    decodificarAcesso (codificarAcesso c)
      = { id := toInt32 c.id, userSession := padString c.userSession 20,
          userID := toInt32 c.userID, eventType := padString c.eventType 10 } := by
  simp only [decodificarAcesso, codificarAcesso, bytesToInt32_int32ToBytes,
    copyArr_val_of_length _ (length_padString _ _)]

/-! ## The claims on aggregates, codecs and effects -/

/-- Claim C11. For a product data file without NaN prices that holds a record
with a price above zero, `encontrarProdutoMaisCaro` succeeds and returns a
record of the file whose price is greater than or equal to the price of every
record of the file, the first such record in file order: every record before
it has a strictly smaller price. -/
theorem maisCaro_e_primeiro_maximo (fs : FS) (filename : String) (rs : List Produto)
    (hfile : fs filename = some (encodeAll rs))
    (hnan : ∀ r ∈ rs, (precoDe r).isNaN = false)
    (hpos : ∃ r ∈ rs, (precoDe r).gt 0 = true) :
    ∃ (pre post : List Produto) (best : Produto),
      rs = pre ++ best :: post ∧ encontrarProdutoMaisCaro fs filename = .ok best
        ∧ (∀ r ∈ rs, (precoDe best).ge (precoDe r) = true)
        ∧ (∀ r ∈ pre, (precoDe best).gt (precoDe r) = true) :=
  encontrarProdutoMaisCaro_maximo fs filename rs hfile hnan hpos

/-- Witness of C11: identifiers 1, 2, 3 with prices 10.0, 25.5, 7.0 give the
record with identifier 2. -/
theorem maisCaro_e_primeiro_maximo_witness :
    (Float32.escala 1092616192 = 10 * 2 ^ 149 ∧ 2 * Float32.escala 1103888384 = 51 * 2 ^ 149
        ∧ Float32.escala 1088421888 = 7 * 2 ^ 149)
      ∧ encontrarProdutoMaisCaro (fsDe "produtos.bin" (encodeAll produtosCenarioB))
          "produtos.bin" = .ok (produtoComPreco 2 1103888384)
      ∧ ∃ (pre post : List Produto) (best : Produto),
          produtosCenarioB = pre ++ best :: post
            ∧ encontrarProdutoMaisCaro (fsDe "produtos.bin" (encodeAll produtosCenarioB))
                "produtos.bin" = .ok best
            ∧ (∀ r ∈ produtosCenarioB, (precoDe best).ge (precoDe r) = true)
            ∧ (∀ r ∈ pre, (precoDe best).gt (precoDe r) = true) :=
  ⟨by decide, by decide,
    maisCaro_e_primeiro_maximo (fsDe "produtos.bin" (encodeAll produtosCenarioB)) "produtos.bin"
      produtosCenarioB rfl (by decide) (by decide)⟩

/-- Claim C12. On a product data file with no complete record, the empty file
among them, `encontrarProdutoMaisCaro` fails with the error "nenhum produto
encontrado"; on a file with at least one complete record it does not fail with
that error, it succeeds. -/
theorem maisCaro_arquivo_vazio :
    (∀ (fs : FS) (filename : String) (bytes : List Byte),
        fs filename = some bytes → bytes.length < 52 →
        encontrarProdutoMaisCaro fs filename = .error .nenhumProduto)
    ∧ (∀ (fs : FS) (filename : String) (bytes : List Byte),
        fs filename = some bytes → 52 ≤ bytes.length →
        encontrarProdutoMaisCaro fs filename ≠ .error .nenhumProduto
          ∧ ∃ p : Produto, encontrarProdutoMaisCaro fs filename = .ok p) := by
  constructor
  · intro fs filename bytes hfile h
    exact (encontrarProdutoMaisCaro_casos fs filename bytes hfile).1 h
  · intro fs filename bytes hfile h
    obtain ⟨p, hp⟩ := (encontrarProdutoMaisCaro_casos fs filename bytes hfile).2 h
    have hne : encontrarProdutoMaisCaro fs filename ≠ .error .nenhumProduto := by
      rw [hp]
      intro hc
      cases hc
    exact ⟨hne, p, hp⟩

/-- Witness of C12: the empty product file and the file with identifiers 1, 2, 3. -/
theorem maisCaro_arquivo_vazio_witness :
    encontrarProdutoMaisCaro (fsCom []) "produtos.bin" = .error .nenhumProduto
      ∧ encontrarProdutoMaisCaro fsExemplo "produtos.bin" ≠ .error .nenhumProduto :=
  ⟨maisCaro_arquivo_vazio.1 (fsCom []) "produtos.bin" [] rfl (by decide),
    (maisCaro_arquivo_vazio.2 fsExemplo "produtos.bin" (encodeAll ([1, 2, 3].map exemploProduto))
      rfl (by decide)).1⟩

/-- Claim C13. For an access data file with at least one record and any order in
which the map of counts is visited, `userSessionMaisFrequente` returns a session
and a count such that the count is the largest number of records that share one
20-byte `UserSession` value and the session is carried by exactly that many
records. -/
theorem sessao_mais_frequente (visita : Mapa → Mapa) (hv : ∀ m : Mapa, (visita m).Perm m)
    (fs : FS) (filename : String) (rs : List Acesso)
    (hfile : fs filename = some (encodeAll rs)) (hne : rs ≠ []) :
    ∃ (sessao : List Byte) (count : Int),
      userSessionMaisFrequente visita fs filename = .ok (sessao, count)
        ∧ ocorrencias rs sessao = count
        ∧ ∀ s : List Byte, ocorrencias rs s ≤ count := by
  obtain ⟨sessao, count, h1, h2, _, h4⟩ :=
    userSessionMaisFrequente_spec visita hv fs filename rs hfile hne
  exact ⟨sessao, count, h1, h2, h4⟩

/-- Witness of C13: two records with the session "a" and one with the session
"b" give the session "a", padded to 20 bytes, and the count 2. -/
theorem sessao_mais_frequente_witness :
    userSessionMaisFrequente id (fsDe "acessos.bin" (encodeAll acessosCenarioF)) "acessos.bin"
        = .ok (padString [97] 20, 2)
      ∧ ∃ (sessao : List Byte) (count : Int),
          userSessionMaisFrequente id (fsDe "acessos.bin" (encodeAll acessosCenarioF))
              "acessos.bin" = .ok (sessao, count)
            ∧ ocorrencias acessosCenarioF sessao = count
            ∧ ∀ s : List Byte, ocorrencias acessosCenarioF s ≤ count :=
  ⟨by decide,
    sessao_mais_frequente id (fun m => List.Perm.refl m)
      (fsDe "acessos.bin" (encodeAll acessosCenarioF)) "acessos.bin" acessosCenarioF rfl
      (by decide)⟩

/-- Claim C14, refuted as stated. The product with brand "Nova", four bytes
within the width of 20, does not come back from the round trip: the decoded
brand is the whole 20-byte slot, the text followed by 16 zero bytes. -/
theorem ida_e_volta_perde_texto_curto :
    ([78, 111, 118, 97] : List Byte).length ≤ 20
      ∧ decodificarProduto (codificarProduto
          { id := 1, productID := 12345, price := 1092616192, brand := [78, 111, 118, 97],
            categoryCode := [] })
        ≠ { id := 1, productID := 12345, price := 1092616192, brand := [78, 111, 118, 97],
            categoryCode := [] }
      ∧ (decodificarProduto (codificarProduto
          { id := 1, productID := 12345, price := 1092616192, brand := [78, 111, 118, 97],
            categoryCode := [] })).brand
        = [78, 111, 118, 97] ++ List.replicate 16 0 := by
  decide

/-- Claim C14, amended. For a record whose integer fields are `int32` values and
whose text fields are no longer than their widths, 20 bytes for brand, category
code and user session and 10 for event type, encoding and decoding returns the
same integer and price field values and, for each text field, the text followed
by zero bytes up to the width; the record itself comes back when every text has
exactly the width of its slot. -/
theorem ida_e_volta_com_preenchimento :
    (∀ c : CamposProduto,
        -2147483648 ≤ c.id → c.id < 2147483648 →
        -2147483648 ≤ c.productID → c.productID < 2147483648 →
        c.brand.length ≤ 20 → c.categoryCode.length ≤ 20 →
        decodificarProduto (codificarProduto c)
            = { c with
                brand := c.brand ++ List.replicate (20 - c.brand.length) 0
                categoryCode := c.categoryCode
                  ++ List.replicate (20 - c.categoryCode.length) 0 }
          ∧ (c.brand.length = 20 → c.categoryCode.length = 20 →
              decodificarProduto (codificarProduto c) = c))
    ∧ (∀ c : CamposAcesso,
        -2147483648 ≤ c.id → c.id < 2147483648 →
        -2147483648 ≤ c.userID → c.userID < 2147483648 →
        c.userSession.length ≤ 20 → c.eventType.length ≤ 10 →
        decodificarAcesso (codificarAcesso c)
            = { c with
                userSession := c.userSession ++ List.replicate (20 - c.userSession.length) 0
                eventType := c.eventType ++ List.replicate (10 - c.eventType.length) 0 }
          ∧ (c.userSession.length = 20 → c.eventType.length = 10 →
              decodificarAcesso (codificarAcesso c) = c)) := by
  constructor
  · intro c h1 h2 h3 h4 h5 h6
    have hres : decodificarProduto (codificarProduto c)
        = { c with
            brand := c.brand ++ List.replicate (20 - c.brand.length) 0
            categoryCode := c.categoryCode ++ List.replicate (20 - c.categoryCode.length) 0 } := by
      rw [decodificar_codificarProduto, toInt32_of_range _ h1 h2, toInt32_of_range _ h3 h4,
        padString_of_le _ _ h5, padString_of_le _ _ h6]
    refine ⟨hres, ?_⟩
    intro h7 h8
    rw [hres, h7, h8]
    simp
  · intro c h1 h2 h3 h4 h5 h6
    have hres : decodificarAcesso (codificarAcesso c)
        = { c with
            userSession := c.userSession ++ List.replicate (20 - c.userSession.length) 0
            eventType := c.eventType ++ List.replicate (10 - c.eventType.length) 0 } := by
      rw [decodificar_codificarAcesso, toInt32_of_range _ h1 h2, toInt32_of_range _ h3 h4,
        padString_of_le _ _ h5, padString_of_le _ _ h6]
    refine ⟨hres, ?_⟩
    intro h7 h8
    rw [hres, h7, h8]
    simp

/-- Witness of C14 amended: the product of `main` with brand "Nova". -/
theorem ida_e_volta_com_preenchimento_witness :
    decodificarProduto (codificarProduto
        { id := 1, productID := 12345, price := 1092616192, brand := [78, 111, 118, 97],
          categoryCode := [] })
      = { id := 1, productID := 12345, price := 1092616192,
          brand := [78, 111, 118, 97] ++ List.replicate (20 - 4) 0,
          categoryCode := [] ++ List.replicate (20 - 0) 0 } :=
  (ida_e_volta_com_preenchimento.1
    { id := 1, productID := 12345, price := 1092616192, brand := [78, 111, 118, 97],
      categoryCode := [] }
    (by decide) (by decide) (by decide) (by decide) (by decide) (by decide)).1

/-- Claim C15. The integer codec is a bijection between the `int32` values and
the 4-byte blocks: `bytesToInt32 (int32ToBytes n) = n` for every `int32` `n`,
and for every 4-byte block `b` the value `bytesToInt32 b` is an `int32` with
`int32ToBytes (bytesToInt32 b) = b`. -/
theorem codec_inteiro_bijecao :
    (∀ n : Int, -2147483648 ≤ n → n < 2147483648 → bytesToInt32 (int32ToBytes n) = n)
      ∧ (∀ b : Arr 4, (-2147483648 ≤ bytesToInt32 b ∧ bytesToInt32 b < 2147483648)
          ∧ int32ToBytes (bytesToInt32 b) = b) := by
  constructor
  · intro n h1 h2
    rw [bytesToInt32_int32ToBytes, toInt32_of_range n h1 h2]
  · intro b
    refine ⟨?_, int32ToBytes_bytesToInt32 b⟩
    unfold bytesToInt32
    exact toInt32_range _

/-- Witness of C15: the value -2 and the block it encodes to. -/
theorem codec_inteiro_bijecao_witness :
    bytesToInt32 (int32ToBytes (-2)) = -2
      ∧ (int32ToBytes (-2)).val = [254, 255, 255, 255]
      ∧ int32ToBytes (bytesToInt32 (int32ToBytes (-2))) = int32ToBytes (-2) :=
  ⟨codec_inteiro_bijecao.1 (-2) (by decide) (by decide), by decide,
    (codec_inteiro_bijecao.2 (int32ToBytes (-2))).2⟩

/-- Claim C16. For every text `str` and width `length`, `padString` returns
exactly `length` bytes: the first `min (len str) length` bytes are the first
bytes of `str` and every byte after them is zero. -/
theorem padString_preenche_e_trunca (str : List Byte) (length : Nat) :
    (padString str length).length = length
      ∧ (∀ i : Nat, i < min str.length length → (padString str length)[i]? = str[i]?)
      ∧ (∀ i : Nat, min str.length length ≤ i → i < length →
          (padString str length)[i]? = some 0) := by
  refine ⟨length_padString str length, ?_, ?_⟩
  · intro i hi
    exact getElem?_padString_text str length i (by omega) (by omega)
  · intro i h1 h2
    exact getElem?_padString_zero str length i (by omega) h2

/-- Witness of C16: "view" in a slot of 10 bytes is padded, in a slot of 2 bytes
it is truncated. -/
theorem padString_preenche_e_trunca_witness :
    (padString [118, 105, 101, 119] 10)[1]? = ([118, 105, 101, 119] : List Byte)[1]?
      ∧ (padString [118, 105, 101, 119] 10)[7]? = some 0
      ∧ padString [118, 105, 101, 119] 10 = [118, 105, 101, 119, 0, 0, 0, 0, 0, 0]
      ∧ padString [118, 105, 101, 119] 2 = [118, 105] :=
  ⟨(padString_preenche_e_trunca [118, 105, 101, 119] 10).2.1 1 (by decide),
    (padString_preenche_e_trunca [118, 105, 101, 119] 10).2.2 7 (by decide) (by decide),
    by decide, by decide⟩

/-- Claim C17, refuted as stated. On the strictly ascending product file with
identifiers 1 and 2147483647, `proximoIDProdutos` returns -2147483648, which is
below every identifier of the file. -/
theorem proximoID_nao_supera_maximo_int32 :
    StrictAsc ([1, 2147483647].map exemploProduto)
      ∧ idsDoArquivo Produto (fsCom [1, 2147483647]) "produtos.bin" = [1, 2147483647]
      ∧ proximoIDProdutos (fsCom [1, 2147483647]) "produtos.bin" = .ok (-2147483648)
      ∧ ¬ StrictAsc ([1, 2147483647].map exemploProduto
          ++ [{ exemploProduto 0 with ID := int32ToBytes (-2147483648) }]) := by
  decide

/-- Claim C17, amended. For a non-empty data file whose identifiers are strictly
ascending and below `2147483647`, the identifier `proximoIDProdutos` returns is
the greatest identifier of the file plus one, it is strictly greater than every
identifier of the file, and a record appended with that identifier keeps the
file strictly ascending; likewise `proximoIDAcessos`. -/
theorem proximoID_supera_todos :
    (∀ (fs : FS) (filename : String) (rs : List Produto),
        fs filename = some (encodeAll rs) → rs ≠ [] → StrictAsc rs →
        (∀ r ∈ rs, idOf r < 2147483647) →
        ∃ m : Int, (∃ r ∈ rs, idOf r = m) ∧ (∀ r ∈ rs, idOf r ≤ m)
          ∧ proximoIDProdutos fs filename = .ok (m + 1) ∧ (∀ r ∈ rs, idOf r < m + 1)
          ∧ ∀ novo : Produto, StrictAsc (rs ++ [{ novo with ID := int32ToBytes (m + 1) }]))
    ∧ (∀ (fs : FS) (filename : String) (rs : List Acesso),
        fs filename = some (encodeAll rs) → rs ≠ [] → StrictAsc rs →
        (∀ r ∈ rs, idOf r < 2147483647) →
        ∃ m : Int, (∃ r ∈ rs, idOf r = m) ∧ (∀ r ∈ rs, idOf r ≤ m)
          ∧ proximoIDAcessos fs filename = .ok (m + 1) ∧ (∀ r ∈ rs, idOf r < m + 1)
          ∧ ∀ novo : Acesso, StrictAsc (rs ++ [{ novo with ID := int32ToBytes (m + 1) }])) := by
  constructor
  · intro fs filename rs hfile hne hs hlt
    exact proximoID_maior lawful_produto fs filename rs hfile hne hs hlt
  · intro fs filename rs hfile hne hs hlt
    exact proximoID_maior lawful_acesso fs filename rs hfile hne hs hlt

/-- Witness of C17 amended: the files with identifiers 1, 2, 3. -/
theorem proximoID_supera_todos_witness :
    (∃ m : Int, (∃ r ∈ [1, 2, 3].map exemploProduto, idOf r = m)
        ∧ (∀ r ∈ [1, 2, 3].map exemploProduto, idOf r ≤ m)
        ∧ proximoIDProdutos fsExemplo "produtos.bin" = .ok (m + 1)
        ∧ (∀ r ∈ [1, 2, 3].map exemploProduto, idOf r < m + 1)
        ∧ ∀ novo : Produto, StrictAsc ([1, 2, 3].map exemploProduto
            ++ [{ novo with ID := int32ToBytes (m + 1) }]))
      ∧ proximoIDProdutos fsExemplo "produtos.bin" = .ok 4 :=
  ⟨proximoID_supera_todos.1 fsExemplo "produtos.bin" ([1, 2, 3].map exemploProduto) rfl
      (by decide) (by decide) (by decide),
    by decide⟩

/-- Claim C18, refuted as stated. When the data file is itself named
"indice_produtos.bin", a successful removal of 2 from the identifiers 1, 2, 3
leaves that file empty, with no entry for the surviving records 1 and 3; and
when the index of the caller lies at "temp_produtos.bin", the path of the
temporary file, a successful removal leaves no file at that path. -/
theorem remover_nomes_fixos_colidem :
    (removerProduto fsDadosNoIndiceFixo "indice_produtos.bin" 2).2 = .ok ()
      ∧ (removerProduto fsDadosNoIndiceFixo "indice_produtos.bin" 2).1 "indice_produtos.bin"
          = some []
      ∧ (removerProduto fsIndiceNoTemp "produtos.bin" 2).2 = .ok ()
      ∧ (fsIndiceNoTemp "temp_produtos.bin").isSome = true
      ∧ (removerProduto fsIndiceNoTemp "produtos.bin" 2).1 "temp_produtos.bin" = none := by
  decide

/-- Claim C18, amended. After a successful `removerProduto` on a data file of
complete records at any path other than "indice_produtos.bin", the file named
"indice_produtos.bin" holds the index of the compacted data file, one entry per
surviving record in order with the key of the record and the offset `i * 52`,
and every file at a path other than "indice_produtos.bin", the data file and
"temp_produtos.bin" is unchanged, the index of the caller among them;
`removerAcesso` does the same with "indice_acessos.bin", "temp_acessos.bin"
and the offset `i * 38`.  The size of the data file is an `int64`. -/
theorem remover_reconstroi_indice_fixo :
    (∀ (fs : FS) (filenameProd : String) (rs : List Produto) (id : Int),
        fs filenameProd = some (encodeAll rs) → filenameProd ≠ "indice_produtos.bin" →
        (rs.length : Int) * 52 < 9223372036854775808 →
        (removerProduto fs filenameProd id).2 = .ok () →
        (∃ es : List IndexProduto,
            (removerProduto fs filenameProd id).1 "indice_produtos.bin" = some (encodeAll es)
              ∧ es.length = (rs.filter (fun r => decide (idOf r ≠ id))).length
              ∧ ∀ (i : Nat) (r : Produto),
                  (rs.filter (fun r => decide (idOf r ≠ id)))[i]? = some r →
                  ∃ e : IndexProduto, es[i]? = some e ∧ bytesToInt32 e.ID = idOf r
                    ∧ (leValue e.Offset.val : Int) = (i : Int) * 52)
          ∧ ∀ q : String, q ≠ "indice_produtos.bin" → q ≠ filenameProd →
              q ≠ "temp_produtos.bin" → (removerProduto fs filenameProd id).1 q = fs q)
    ∧ (∀ (fs : FS) (filenameAccess : String) (rs : List Acesso) (id : Int),
        fs filenameAccess = some (encodeAll rs) → filenameAccess ≠ "indice_acessos.bin" →
        (rs.length : Int) * 38 < 9223372036854775808 →
        (removerAcesso fs filenameAccess id).2 = .ok () →
        (∃ es : List IndexAcesso,
            (removerAcesso fs filenameAccess id).1 "indice_acessos.bin" = some (encodeAll es)
              ∧ es.length = (rs.filter (fun r => decide (idOf r ≠ id))).length
              ∧ ∀ (i : Nat) (r : Acesso),
                  (rs.filter (fun r => decide (idOf r ≠ id)))[i]? = some r →
                  ∃ e : IndexAcesso, es[i]? = some e ∧ bytesToInt32 e.ID = idOf r
                    ∧ (leValue e.Offset.val : Int) = (i : Int) * 38)
          ∧ ∀ q : String, q ≠ "indice_acessos.bin" → q ≠ filenameAccess →
              q ≠ "temp_acessos.bin" → (removerAcesso fs filenameAccess id).1 q = fs q) := by
  constructor
  · intro fs filenameProd rs id hfile hx hsize hok
    exact remover_indice_fixo lawful_produto "temp_produtos.bin" "indice_produtos.bin" fs
      filenameProd id rs hfile hx hsize hok
  · intro fs filenameAccess rs id hfile hx hsize hok
    exact remover_indice_fixo lawful_acesso "temp_acessos.bin" "indice_acessos.bin" fs
      filenameAccess id rs hfile hx hsize hok

/-- Witness of C18 amended: the removal of 2 after `main` has built its indexes;
the index of the caller at "indice_produtos.dat" is unchanged. -/
theorem remover_reconstroi_indice_fixo_witness :
    (removerProduto fsIndexado "produtos.bin" 2).1 "indice_produtos.dat"
        = fsIndexado "indice_produtos.dat"
      ∧ (removerProduto fsIndexado "produtos.bin" 2).1 "indice_produtos.bin"
        = some (encodeAll (indexFrom 0 [exemploProduto 1, exemploProduto 3])) :=
  ⟨(remover_reconstroi_indice_fixo.1 fsIndexado "produtos.bin" ([1, 2, 3].map exemploProduto) 2
      rfl (by decide) (by decide) (by decide)).2 "indice_produtos.dat" (by decide) (by decide)
      (by decide),
    by decide⟩

/-- Claim C19, as the code behaves. On a product file whose prices are 0.0 and
-1.0, neither above zero, `encontrarProdutoMaisCaro` returns successfully the
zero value `Produto{}`, with identifier 0, which is not a record of the file;
so it does on the files of `fsExemplo`, whose prices are all 0.0. -/
theorem maisCaro_sem_preco_positivo_devolve_zero :
    (∀ r ∈ produtosSemPrecoPositivo, Float32.ge 0 (precoDe r) = true)
      ∧ encontrarProdutoMaisCaro (fsDe "produtos.bin" (encodeAll produtosSemPrecoPositivo))
          "produtos.bin" = .ok produtoZero
      ∧ produtoZero ∉ produtosSemPrecoPositivo
      ∧ idOf produtoZero = 0
      ∧ encontrarProdutoMaisCaro fsExemplo "produtos.bin" = .ok produtoZero := by
  decide

theorem visitaPrimeiro_perm (sessao : List Byte) (m : Mapa) :
    (visitaPrimeiro sessao m).Perm m :=
  List.filter_append_perm _ m

/-- The loop over the entries of the map when the first entry visited has a
count above the initial `maxCount` and no later entry has a greater count: it
ends on the first entry. -/
theorem maisFrequenteLoop_primeiro (s : List Byte) (c : Int) (l : List (List Byte × Int))
    (s0 : List Byte) (c0 : Int) (hc : c0 < c) (hmax : ∀ e ∈ l, e.2 ≤ c) :
    maisFrequenteLoop ((s, c) :: l) s0 c0 = (s, c) := by
  rw [maisFrequenteLoop, if_pos hc]
  rcases maisFrequenteLoop_spec l s c with ⟨h1, _⟩ | ⟨pre, post, s1, c1, h1, _, h3, _, _⟩
  · exact h1
  · have hmem : (s1, c1) ∈ l := by
      rw [h1]
      exact List.mem_append_right _ (List.mem_cons_self _ _)
    have := hmax _ hmem
    simp only at this
    omega

/-- Every session of greatest count is the one returned under some order of
visit of the map: the order that yields its entry first. -/
theorem userSessionMaisFrequente_primeiro (fs : FS) (filename : String) (rs : List Acesso)
    (hfile : fs filename = some (encodeAll rs)) (s : List Byte)
    (hpos : 0 < ocorrencias rs s) (hmax : ∀ t : List Byte, ocorrencias rs t ≤ ocorrencias rs s) :
    userSessionMaisFrequente (visitaPrimeiro s) fs filename = .ok (s, ocorrencias rs s) := by
  obtain ⟨_, h1, h2⟩ := Mapa.foldl_incr_spec (rs.map (fun a => a.UserSession.val))
  have hres : userSessionMaisFrequente (visitaPrimeiro s) fs filename
      = .ok (maisFrequenteLoop
          (visitaPrimeiro s ((rs.map (fun a => a.UserSession.val)).foldl Mapa.incr [])) [] 0) := by
    simp only [userSessionMaisFrequente, hfile,
      contarSessoesLoop_encodeAll rs _ _ (length_le_encodeAll lawful_acesso rs)]
  rw [hres]
  have hs : s ∈ rs.map (fun a => a.UserSession.val) := by
    unfold ocorrencias at hpos
    exact List.count_pos_iff.mp (by exact_mod_cast hpos)
  have hin := h2 s hs
  have hall : ∀ e ∈ visitaPrimeiro s ((rs.map (fun a => a.UserSession.val)).foldl Mapa.incr []),
      e.2 ≤ ocorrencias rs s := by
    intro e he
    have hmem := (visitaPrimeiro_perm s _).subset he
    rw [(h1 e.1 e.2 hmem).1]
    exact hmax e.1
  have hinf : (s, ocorrencias rs s)
      ∈ ((rs.map (fun a => a.UserSession.val)).foldl Mapa.incr []).filter
          (fun e => decide (e.1 = s)) := by
    rw [List.mem_filter]
    exact ⟨hin, decide_eq_true rfl⟩
  unfold visitaPrimeiro at hall ⊢
  cases hf : ((rs.map (fun a => a.UserSession.val)).foldl Mapa.incr []).filter
      (fun e => decide (e.1 = s)) with
  | nil =>
    rw [hf] at hinf
    cases hinf
  | cons e t =>
    have he : e ∈ ((rs.map (fun a => a.UserSession.val)).foldl Mapa.incr []).filter
        (fun e => decide (e.1 = s)) := by
      rw [hf]
      exact List.mem_cons_self _ _
    rw [List.mem_filter] at he
    have he1 : e.1 = s := of_decide_eq_true he.2
    have he2 := (h1 e.1 e.2 he.1).1
    have hee : e = (s, ocorrencias rs s) := by
      obtain ⟨k, c⟩ := e
      simp only at he1 he2
      subst he1
      rw [he2]
      rfl
    rw [hf, hee] at hall
    rw [hee, List.cons_append]
    congr 1
    apply maisFrequenteLoop_primeiro s _ _ [] 0 hpos
    intro x hx
    exact hall x (List.mem_cons_of_mem _ hx)

/-- Claim C20, refuted as stated. On the access file with the sessions "a" and
"b", one record each, the visit of the map in the order of insertion returns
"a" and the visit in the opposite order returns "b". -/
theorem sessao_depende_da_ordem_do_mapa :
    userSessionMaisFrequente id (fsDe "acessos.bin" (encodeAll acessosEmpate)) "acessos.bin"
        = .ok (padString [97] 20, 1)
      ∧ userSessionMaisFrequente List.reverse (fsDe "acessos.bin" (encodeAll acessosEmpate))
          "acessos.bin" = .ok (padString [98] 20, 1)
      ∧ padString [97] 20 ≠ padString [98] 20 := by
  decide

/-- Claim C20, amended. For every access data file of complete records and any
two orders in which the map of counts is visited, the two runs of
`userSessionMaisFrequente` return the same count, which is the greatest number
of occurrences of a session in the file, and each returns a session that
occurs that many times, so one of the sessions tied for the highest count; the
two runs return the same session whenever one session occurs more often than
every other; and when the file has a record, every session tied for the highest
count is the session returned under some order of visit. -/
theorem sessao_unica_quando_sem_empate (visita1 visita2 : Mapa → Mapa)
    (hv1 : ∀ m : Mapa, (visita1 m).Perm m) (hv2 : ∀ m : Mapa, (visita2 m).Perm m)
    (fs : FS) (filename : String) (rs : List Acesso)
    (hfile : fs filename = some (encodeAll rs)) :
    ∃ (s1 s2 : List Byte) (count : Int),
      userSessionMaisFrequente visita1 fs filename = .ok (s1, count)
        ∧ userSessionMaisFrequente visita2 fs filename = .ok (s2, count)
        ∧ ocorrencias rs s1 = count ∧ ocorrencias rs s2 = count
        ∧ (∀ s : List Byte, ocorrencias rs s ≤ count)
        ∧ ((∃ s : List Byte, ∀ t : List Byte, t ≠ s → ocorrencias rs t < ocorrencias rs s) →
            s1 = s2)
        ∧ (∀ s : List Byte, ocorrencias rs s = count → 0 < count →
            ∃ visita : Mapa → Mapa, (∀ m : Mapa, (visita m).Perm m)
              ∧ userSessionMaisFrequente visita fs filename = .ok (s, count)) := by
  by_cases hne : rs = []
  · subst hne
    have hvazio : ∀ visita : Mapa → Mapa, (∀ m : Mapa, (visita m).Perm m) →
        userSessionMaisFrequente visita fs filename = .ok ([], 0) := by
      intro visita hv
      have h0 : visita [] = [] := (hv []).eq_nil
      simp only [userSessionMaisFrequente, hfile, encodeAll_nil, List.length_nil,
        contarSessoesLoop, binaryRead_nil, if_true, h0, maisFrequenteLoop]
    refine ⟨[], [], 0, hvazio visita1 hv1, hvazio visita2 hv2, rfl, rfl, ?_, fun _ => rfl, ?_⟩
    · intro s
      exact le_of_eq rfl
    · intro s _ h
      exact absurd h (lt_irrefl 0)
  · obtain ⟨s1, c1, h1, h2, _, h4⟩ :=
      userSessionMaisFrequente_spec visita1 hv1 fs filename rs hfile hne
    obtain ⟨s2, c2, k1, k2, _, k4⟩ :=
      userSessionMaisFrequente_spec visita2 hv2 fs filename rs hfile hne
    have hc : c2 = c1 := by
      have := h4 s2
      have := k4 s1
      omega
    subst hc
    refine ⟨s1, s2, c2, h1, k1, h2, k2, k4, ?_, ?_⟩
    · rintro ⟨s, hs⟩
      have e1 : s1 = s := by
        by_contra hn
        have := hs s1 hn
        have := h4 s
        omega
      have e2 : s2 = s := by
        by_contra hn
        have := hs s2 hn
        have := k4 s
        omega
      rw [e1, e2]
    · intro s hs hpos
      refine ⟨visitaPrimeiro s, visitaPrimeiro_perm s, ?_⟩
      rw [← hs]
      exact userSessionMaisFrequente_primeiro fs filename rs hfile s (by rw [hs]; exact hpos)
        (by intro t; rw [hs]; exact k4 t)

/-- Witness of C20 amended: on the file of Scenario F both orders return the
session "a" with the count 2. -/
theorem sessao_unica_quando_sem_empate_witness :
    (userSessionMaisFrequente id (fsDe "acessos.bin" (encodeAll acessosCenarioF)) "acessos.bin"
        = .ok (padString [97] 20, 2)
      ∧ userSessionMaisFrequente List.reverse (fsDe "acessos.bin" (encodeAll acessosCenarioF))
          "acessos.bin" = .ok (padString [97] 20, 2))
      ∧ ∃ (s1 s2 : List Byte) (count : Int),
          userSessionMaisFrequente id (fsDe "acessos.bin" (encodeAll acessosCenarioF))
              "acessos.bin" = .ok (s1, count)
            ∧ userSessionMaisFrequente List.reverse
                (fsDe "acessos.bin" (encodeAll acessosCenarioF)) "acessos.bin" = .ok (s2, count)
            ∧ ocorrencias acessosCenarioF s1 = count ∧ ocorrencias acessosCenarioF s2 = count
            ∧ (∀ s : List Byte, ocorrencias acessosCenarioF s ≤ count)
            ∧ ((∃ s : List Byte, ∀ t : List Byte, t ≠ s →
                  ocorrencias acessosCenarioF t < ocorrencias acessosCenarioF s) → s1 = s2)
            ∧ (∀ s : List Byte, ocorrencias acessosCenarioF s = count → 0 < count →
                ∃ visita : Mapa → Mapa, (∀ m : Mapa, (visita m).Perm m)
                  ∧ userSessionMaisFrequente visita
                      (fsDe "acessos.bin" (encodeAll acessosCenarioF)) "acessos.bin"
                    = .ok (s, count)) :=
  ⟨by decide,
    sessao_unica_quando_sem_empate id List.reverse (fun m => List.Perm.refl m)
      (fun m => List.reverse_perm m) (fsDe "acessos.bin" (encodeAll acessosCenarioF))
      "acessos.bin" acessosCenarioF rfl⟩

/-! ## The direct search without an ordering assumption -/

/-- On any file of complete records, sorted or not, the search loop ends in one
of three ways: with a record of the file that carries the identifier, with the
read error at the end of the file, or with not-found. -/
theorem pesquisarLoop_casos {α : Type} [Record α] (hα : Lawful α) (rs : List α) (id : Int) :
    ∀ (fuel : Nat) (start size : Int), 0 ≤ start → size ≤ rs.length → start ≤ size + 1 →
      size - start + 1 < fuel →
      (∃ r : α, r ∈ rs ∧ idOf r = id
          ∧ pesquisarLoop α (encodeAll rs) id fuel start size = .ok r)
        ∨ pesquisarLoop α (encodeAll rs) id fuel start size = .error (.ler .eof)
        ∨ pesquisarLoop α (encodeAll rs) id fuel start size = .error (.naoEncontrado id) := by
  intro fuel
  induction fuel with
  | zero =>
    intro start size h0 h1 h3 h2
    omega
  | succ fuel ih =>
    intro start size h0 h1 h3 h2
    rw [pesquisarLoop]
    by_cases hle : start ≤ size
    · obtain ⟨hmid, hlo, hhi⟩ := midpoint_bounds start size h0 hle
      set m : Nat := ((start + size) / 2).toNat with hm
      have hmI : (m : Int) = (start + size) / 2 := by
        rw [hm, Int.toNat_of_nonneg (by omega)]
      simp only [hle, if_true, hmid, seek_encodeAll hα]
      by_cases hmlen : m < rs.length
      · have hget := List.getElem?_eq_getElem hmlen
        rw [binaryRead_drop hα rs m _ hget]
        simp only
        by_cases heq : bytesToInt32 (Record.key rs[m]) = id
        · rw [if_pos heq]
          exact Or.inl ⟨rs[m], List.getElem_mem hmlen, heq, rfl⟩
        · rw [if_neg heq]
          by_cases hlt : bytesToInt32 (Record.key rs[m]) < id
          · rw [if_pos hlt]
            exact ih _ _ (by omega) h1 (by omega) (by omega)
          · rw [if_neg hlt]
            exact ih _ _ h0 (by omega) (by omega) (by omega)
      · rw [binaryRead_drop_end rs m (by omega)]
        exact Or.inr (Or.inl rfl)
    · rw [if_neg hle]
      exact Or.inr (Or.inr rfl)

/-- The three ways the direct search of a file of complete records ends. -/
theorem pesquisar_casos {α : Type} [Record α] (hα : Lawful α) (fs : FS) (filename : String)
    (rs : List α) (id : Int) (hfile : fs filename = some (encodeAll rs)) :
    (∃ r : α, r ∈ rs ∧ idOf r = id ∧ pesquisar α fs filename id = .ok r)
      ∨ pesquisar α fs filename id = .error (.ler .eof)
      ∨ pesquisar α fs filename id = .error (.naoEncontrado id) := by
  have hn : (encodeAll rs).length / Record.size α = rs.length := by
    rw [length_encodeAll hα, Nat.mul_div_cancel _ hα.size_pos]
  simp only [pesquisar, hfile, hn]
  exact pesquisarLoop_casos hα rs id _ _ _ (le_refl _) (le_refl _) (by omega)
    (by push_cast; omega)

/-- A successful direct search returns a record of the file with the identifier
asked for. -/
theorem pesquisar_correto {α : Type} [Record α] (hα : Lawful α) (fs : FS) (filename : String)
    (rs : List α) (id : Int) (r : α) (hfile : fs filename = some (encodeAll rs))
    (hok : pesquisar α fs filename id = .ok r) : r ∈ rs ∧ idOf r = id := by
  rcases pesquisar_casos hα fs filename rs id hfile with ⟨r1, h1, h2, h3⟩ | h | h
  · rw [h3] at hok
    have : r1 = r := Except.ok.inj hok
    rw [← this]
    exact ⟨h1, h2⟩
  · rw [h] at hok; cases hok
  · rw [h] at hok; cases hok

/-- The lookup through a freshly built index against the direct search, on any
file of complete records: both return the same record, or both end in
not-found, or both end in the read error at the end of the file they search. -/
theorem consultar_concorda {α : Type} [Record α] (hα : Lawful α) (fs : FS)
    (filename indexName : String) (rs : List α) (id : Int)
    (hfile : fs filename = some (encodeAll rs)) (hne : filename ≠ indexName)
    (hsize : (rs.length : Int) * (Record.size α : Int) < 9223372036854775808) :
    (∃ r : α, r ∈ rs ∧ idOf r = id
        ∧ consultarComIndice α (criarIndice α fs filename indexName).1 indexName filename id
            = .ok r
        ∧ pesquisar α (criarIndice α fs filename indexName).1 filename id = .ok r)
      ∨ (consultarComIndice α (criarIndice α fs filename indexName).1 indexName filename id
            = .error (.naoEncontrado id)
        ∧ pesquisar α (criarIndice α fs filename indexName).1 filename id
            = .error (.naoEncontrado id))
      ∨ (consultarComIndice α (criarIndice α fs filename indexName).1 indexName filename id
            = .error (.lerIndice .eof)
        ∧ pesquisar α (criarIndice α fs filename indexName).1 filename id
            = .error (.ler .eof)) := by
  rw [criarIndice_encodeAll hα fs filename indexName rs hfile hne]
  dsimp only
  have hf : (fs.write indexName (encodeAll (indexFrom 0 rs))) filename = some (encodeAll rs) := by
    rw [FS.write_other _ _ _ _ hne, hfile]
  rw [consultar_eq_pesquisar hα _ indexName filename rs id hf (FS.write_same _ _ _) hsize]
  rcases pesquisar_casos hα _ filename rs id hf with ⟨r, h1, h2, h3⟩ | h | h
  · exact Or.inl ⟨r, h1, h2, by rw [h3]; rfl, h3⟩
  · exact Or.inr (Or.inr ⟨by rw [h]; rfl, h⟩)
  · exact Or.inr (Or.inl ⟨by rw [h]; rfl, h⟩)

/-! ## Insertion with reindexing -/

/-- After `inserirECriarIndice` of a record whose identifier is the next
identifier of a strictly ascending file with identifiers below `2147483647`,
the lookup through the rebuilt index returns the record. -/
theorem inserirECriarIndice_consulta {α : Type} [Record α] (hα : Lawful α) (fs : FS)
    (filename filenameIndex : String) (rs : List α) (r : α)
    (hfile : fs filename = some (encodeAll rs)) (hne : filename ≠ filenameIndex)
    (hsize : ((rs.length : Int) + 1) * (Record.size α : Int) < 9223372036854775808)
    (hs : StrictAsc rs) (hlt : ∀ x ∈ rs, idOf x < 2147483647)
    (hid : proximoID α fs filename = .ok (idOf r)) :
    (inserirECriarIndice α fs filename filenameIndex r).2 = .ok ()
      ∧ consultarComIndice α (inserirECriarIndice α fs filename filenameIndex r).1
          filenameIndex filename (idOf r) = .ok r := by
  have hins := inserir_encodeAll fs filename rs r hfile
  have hasc : StrictAsc (rs ++ [r]) := by
    apply strictAsc_snoc rs r hs
    intro x hx
    have hne0 : rs ≠ [] := List.ne_nil_of_mem hx
    have hl : rs.getLast? = some (rs.getLast hne0) := List.getLast?_eq_getLast _ hne0
    have hlast := hlt _ (List.getLast_mem hne0)
    have hnext := (proximoID_casos hα fs filename rs hfile).2.1 _ hl hlast
    rw [hid] at hnext
    have heq : idOf r = idOf (rs.getLast hne0) + 1 := Except.ok.inj hnext
    have hle := ids_le_last rs hs x hx
    rw [hl, Option.map_some', Option.getD_some] at hle
    omega
  have hsz : (((rs ++ [r]).length : Nat) : Int) * (Record.size α : Int)
      < 9223372036854775808 := by
    rw [List.length_append, List.length_singleton]
    push_cast
    exact hsize
  have hres : inserirECriarIndice α fs filename filenameIndex r
      = criarIndice α (inserir α fs filename r).1 filename filenameIndex := by
    simp only [inserirECriarIndice, inserir]
  rw [hres]
  refine ⟨?_, ?_⟩
  · rw [criarIndice_encodeAll hα _ filename filenameIndex _ hins hne]
  · exact (consultar_found hα _ filename filenameIndex (rs ++ [r]) r hins hne hsz hasc
      (List.mem_append_right _ (List.mem_singleton.mpr rfl))).1

/-! ## The bytes of an encoded integer -/

theorem int32ToBytes_val (n : Int) :
    (int32ToBytes n).val
      = [byteOf (n % 4294967296).toNat, byteOf ((n % 4294967296).toNat / 256),
          byteOf ((n % 4294967296).toNat / 256 / 256),
          byteOf ((n % 4294967296).toNat / 256 / 256 / 256)] := by
  unfold int32ToBytes
  rw [copyArr_val_of_length _ (length_leBytes _ _)]
  simp only [leBytes]

/-- The loop of `userSessionMaisFrequente` that scans the file never ends in the
empty-file error. -/
theorem contarSessoesLoop_sem_vazio :
    ∀ (fuel : Nat) (rest : List Byte) (m : Mapa),
      contarSessoesLoop fuel rest m ≠ .error .nenhumProduto := by
  intro fuel
  induction fuel with
  | zero =>
    intro rest m h
    simp only [contarSessoesLoop] at h
    cases h
  | succ fuel ih =>
    intro rest m
    rw [contarSessoesLoop]
    cases hread : binaryRead Acesso rest with
    | error e =>
      simp only
      split
      · intro h; cases h
      · intro h; cases h
    | ok v =>
      obtain ⟨acesso, rest1⟩ := v
      simp only
      exact ih _ _

/-- Whatever the file, `userSessionMaisFrequente` does not return the
empty-file error. -/
theorem userSessionMaisFrequente_sem_vazio (visita : Mapa → Mapa) (fs : FS)
    (filename : String) :
    userSessionMaisFrequente visita fs filename ≠ .error .nenhumProduto := by
  unfold userSessionMaisFrequente
  cases hfile : fs filename with
  | none => intro h; cases h
  | some bytes =>
    simp only
    cases hloop : contarSessoesLoop (bytes.length + 1) bytes [] with
    | error e =>
      simp only
      intro h
      have he : e = .nenhumProduto := Except.error.inj h
      rw [he] at hloop
      exact contarSessoesLoop_sem_vazio _ _ _ hloop
    | ok m =>
      simp only
      intro h
      cases h

/-- On a file of any bytes whatsoever, a record the binary search returns is the
decoding of a whole block of the file that starts at a record boundary, and
its identifier is the one asked for. -/
theorem pesquisarLoop_bloco {α : Type} [Record α] (hpos : 0 < Record.size α)
    (bytes : List Byte) (id : Int) :
    ∀ (fuel : Nat) (start size : Int) (r : α), 0 ≤ start →
      size ≤ ((bytes.length / Record.size α : Nat) : Int) →
      pesquisarLoop α bytes id fuel start size = .ok r →
      ∃ i : Nat, i < bytes.length / Record.size α
        ∧ r = Record.decode ((bytes.drop (i * Record.size α)).take (Record.size α))
        ∧ idOf r = id := by
  intro fuel
  induction fuel with
  | zero =>
    intro start size r _ _ h
    rw [pesquisarLoop] at h
    cases h
  | succ fuel ih =>
    intro start size r h0 h1 h
    rw [pesquisarLoop] at h
    by_cases hle : start ≤ size
    · obtain ⟨hmid, hlo, hhi⟩ := midpoint_bounds start size h0 hle
      set m : Nat := ((start + size) / 2).toNat with hm
      have hmI : (m : Int) = (start + size) / 2 := by rw [hm, Int.toNat_of_nonneg (by omega)]
      have hneg : ¬ ((m : Int) * (Record.size α : Int) < 0) :=
        not_lt.mpr (Int.mul_nonneg (Int.ofNat_nonneg _) (Int.ofNat_nonneg _))
      have htn : ((m : Int) * (Record.size α : Int)).toNat = m * Record.size α := by
        rw [← Nat.cast_mul, Int.toNat_natCast]
      simp only [hle, if_true, hmid, seek, hneg, if_false, htn] at h
      unfold binaryRead at h
      by_cases hz : (bytes.drop (m * Record.size α)).length = 0
      · rw [if_pos hz] at h
        cases h
      · rw [if_neg hz] at h
        by_cases hshort : (bytes.drop (m * Record.size α)).length < Record.size α
        · rw [if_pos hshort] at h
          cases h
        · rw [if_neg hshort] at h
          simp only at h
          by_cases heq : bytesToInt32 (Record.key (Record.decode
              ((bytes.drop (m * Record.size α)).take (Record.size α)) : α)) = id
          · rw [if_pos heq] at h
            have hr : r = Record.decode
                ((bytes.drop (m * Record.size α)).take (Record.size α)) := by
              cases h
              exact Eq.refl _
            refine ⟨m, ?_, hr, ?_⟩
            · rw [List.length_drop] at hshort
              have hfit : (m + 1) * Record.size α ≤ bytes.length := by
                rw [Nat.add_mul, Nat.one_mul]
                omega
              exact Nat.lt_of_succ_le ((Nat.le_div_iff_mul_le hpos).mpr hfit)
            · rw [hr]
              exact heq
          · rw [if_neg heq] at h
            by_cases hlt : bytesToInt32 (Record.key (Record.decode
                ((bytes.drop (m * Record.size α)).take (Record.size α)) : α)) < id
            · rw [if_pos hlt] at h
              exact ih _ _ r (by omega) h1 h
            · rw [if_neg hlt] at h
              exact ih _ _ r h0 (by omega) h
    · rw [if_neg hle] at h
      cases h

/-- The direct search on any file: a successful result is a decoded block of the
file with the identifier asked for. -/
theorem pesquisar_bloco {α : Type} [Record α] (hpos : 0 < Record.size α) (fs : FS)
    (filename : String) (bytes : List Byte) (id : Int) (r : α)
    (hfile : fs filename = some bytes) (hok : pesquisar α fs filename id = .ok r) :
    ∃ i : Nat, i < bytes.length / Record.size α
      ∧ r = Record.decode ((bytes.drop (i * Record.size α)).take (Record.size α))
      ∧ idOf r = id := by
  unfold pesquisar at hok
  rw [hfile] at hok
  exact pesquisarLoop_bloco hpos bytes id _ _ _ r (le_refl _) (le_refl _) hok

/-! ## The claims on the empty access file, reindexing and unsorted files -/

/-- Claim C21, as the code behaves. `userSessionMaisFrequente` has no guard for
a scan that read no record: on every access data file with zero records, in
whatever order the map is visited, it returns successfully the empty session
with the count 0, and on no file at all does it return the error "nenhum
produto encontrado"; `encontrarProdutoMaisCaro` on a file with zero records
fails with that error. -/
theorem sessao_arquivo_vazio_sem_erro (visita : Mapa → Mapa) (fs : FS) (filename : String)
    (hperm : ∀ m, (visita m).Perm m) (hfile : fs filename = some []) :
    userSessionMaisFrequente visita fs filename = .ok ([], 0)
      ∧ (∀ (fs1 : FS) (filename1 : String),
          userSessionMaisFrequente visita fs1 filename1 ≠ .error .nenhumProduto)
      ∧ encontrarProdutoMaisCaro fs filename = .error .nenhumProduto := by
  have hv : visita [] = [] := List.Perm.eq_nil (hperm [])
  have h1 : contarSessoesLoop (([] : List Byte).length + 1) [] [] = .ok [] := by decide
  have h2 : encontrarProdutoMaisCaroLoop [] (([] : List Byte).length / Record.size Produto) 0
      produtoZero 0 0 = .ok (produtoZero, 0) := by decide
  refine ⟨?_, fun fs1 filename1 => userSessionMaisFrequente_sem_vazio visita fs1 filename1, ?_⟩
  · unfold userSessionMaisFrequente
    rw [hfile]
    simp only [h1, hv, maisFrequenteLoop]
  · unfold encontrarProdutoMaisCaro
    rw [hfile]
    simp only [h2, if_true]

/-- Witness of C21: the empty file "acessos.bin", the map visited in the order
of its entries. -/
theorem sessao_arquivo_vazio_sem_erro_witness :
    userSessionMaisFrequente id (fsCom []) "acessos.bin" = .ok ([], 0)
      ∧ (∀ (fs1 : FS) (filename1 : String),
          userSessionMaisFrequente id fs1 filename1 ≠ .error .nenhumProduto)
      ∧ encontrarProdutoMaisCaro (fsCom []) "acessos.bin" = .error .nenhumProduto :=
  sessao_arquivo_vazio_sem_erro id (fsCom []) "acessos.bin" (fun m => List.Perm.refl m)
    (by decide)

/-- Claim C22, refuted as stated. On the strictly ascending product file with
identifiers 1 and 2147483647 the next identifier is -2147483648; the insertion
with reindexing of a record with that identifier succeeds, the file is no
longer ascending, and the lookup of the record through the rebuilt index ends
in not-found. -/
theorem consulta_apos_insercao_falha_no_limite_int32 :
    StrictAsc ([1, 2147483647].map exemploProduto)
      ∧ proximoIDProdutos (fsCom [1, 2147483647]) "produtos.bin"
          = .ok (idOf (exemploProduto (-2147483648)))
      ∧ (inserirProdutoECriarIndice (fsCom [1, 2147483647]) "produtos.bin"
          "indice_produtos.dat" (exemploProduto (-2147483648))).2 = .ok ()
      ∧ consultarProdutoComIndice
          (inserirProdutoECriarIndice (fsCom [1, 2147483647]) "produtos.bin"
            "indice_produtos.dat" (exemploProduto (-2147483648))).1
          "indice_produtos.dat" "produtos.bin" (idOf (exemploProduto (-2147483648)))
        = .error (.naoEncontrado (-2147483648)) := by
  decide

/-- Claim C22, amended. For a strictly ascending product data file whose
identifiers are below `2147483647` and a record `r` whose identifier is the
value `proximoIDProdutos` returns on that file, `inserirProdutoECriarIndice`
succeeds and `consultarProdutoComIndice` on the same index and data paths with
the identifier of `r` then succeeds and returns `r`; likewise for the access
operations.  The index path is not the data path and the size of the data file
after the insertion is an `int64`. -/
theorem consulta_apos_insercao_com_indice :
    (∀ (fs : FS) (filenameProd filenameIndex : String) (rs : List Produto) (r : Produto),
        fs filenameProd = some (encodeAll rs) → filenameProd ≠ filenameIndex →
        ((rs.length : Int) + 1) * 52 < 9223372036854775808 →
        StrictAsc rs → (∀ x ∈ rs, idOf x < 2147483647) →
        proximoIDProdutos fs filenameProd = .ok (idOf r) →
        (inserirProdutoECriarIndice fs filenameProd filenameIndex r).2 = .ok ()
          ∧ consultarProdutoComIndice
              (inserirProdutoECriarIndice fs filenameProd filenameIndex r).1
              filenameIndex filenameProd (idOf r) = .ok r)
    ∧ (∀ (fs : FS) (filenameAccess filenameIndex : String) (rs : List Acesso) (r : Acesso),
        fs filenameAccess = some (encodeAll rs) → filenameAccess ≠ filenameIndex →
        ((rs.length : Int) + 1) * 38 < 9223372036854775808 →
        StrictAsc rs → (∀ x ∈ rs, idOf x < 2147483647) →
        proximoIDAcessos fs filenameAccess = .ok (idOf r) →
        (inserirAcessoECriarIndice fs filenameAccess filenameIndex r).2 = .ok ()
          ∧ consultarAcessoComIndice
              (inserirAcessoECriarIndice fs filenameAccess filenameIndex r).1
              filenameIndex filenameAccess (idOf r) = .ok r) := by
  constructor
  · intro fs filenameProd filenameIndex rs r hfile hne hsize hs hlt hid
    exact inserirECriarIndice_consulta lawful_produto fs filenameProd filenameIndex rs r hfile
      hne hsize hs hlt hid
  · intro fs filenameAccess filenameIndex rs r hfile hne hsize hs hlt hid
    exact inserirECriarIndice_consulta lawful_acesso fs filenameAccess filenameIndex rs r hfile
      hne hsize hs hlt hid

/-- Witness of C22 amended: the insertion of a record with identifier 4 into the
files with identifiers 1, 2, 3, with the index paths of `main`. -/
theorem consulta_apos_insercao_com_indice_witness :
    ((inserirProdutoECriarIndice fsExemplo "produtos.bin" "indice_produtos.dat"
          (exemploProduto 4)).2 = .ok ()
        ∧ consultarProdutoComIndice
            (inserirProdutoECriarIndice fsExemplo "produtos.bin" "indice_produtos.dat"
              (exemploProduto 4)).1
            "indice_produtos.dat" "produtos.bin" (idOf (exemploProduto 4))
          = .ok (exemploProduto 4))
      ∧ ((inserirAcessoECriarIndice fsExemplo "acessos.bin" "indice_acessos.dat"
          (exemploAcesso 4)).2 = .ok ()
        ∧ consultarAcessoComIndice
            (inserirAcessoECriarIndice fsExemplo "acessos.bin" "indice_acessos.dat"
              (exemploAcesso 4)).1
            "indice_acessos.dat" "acessos.bin" (idOf (exemploAcesso 4))
          = .ok (exemploAcesso 4)) :=
  ⟨consulta_apos_insercao_com_indice.1 fsExemplo "produtos.bin" "indice_produtos.dat"
      ([1, 2, 3].map exemploProduto) (exemploProduto 4) rfl (by decide) (by decide) (by decide)
      (by decide) (by decide),
    consulta_apos_insercao_com_indice.2 fsExemplo "acessos.bin" "indice_acessos.dat"
      ([1, 2, 3].map exemploAcesso) (exemploAcesso 4) rfl (by decide) (by decide) (by decide)
      (by decide) (by decide)⟩

/-- Claim C23. For every integer `n`, every `int32` among them, `int32ToBytes n`
is the 4-byte little-endian two's-complement encoding of `n`: it has four
bytes and byte `i`, for `i` from 0 to 3, is `(n mod 2^32) / 2^(8*i) mod 256`;
so 1 encodes as `[1, 0, 0, 0]` and -1 as `[255, 255, 255, 255]`. -/
theorem int32ToBytes_little_endian (n : Int) (i : Fin 4) :
    (int32ToBytes n).val.length = 4
      ∧ (∃ b : Byte, (int32ToBytes n).val[i.val]? = some b
          ∧ (b.val : Int) = n % 4294967296 / 2 ^ (8 * i.val) % 256)
      ∧ (int32ToBytes 1).val = [1, 0, 0, 0]
      ∧ (int32ToBytes (-1)).val = [255, 255, 255, 255] := by
  refine ⟨(int32ToBytes n).property, ?_, by decide, by decide⟩
  rw [int32ToBytes_val]
  fin_cases i
  · refine ⟨_, rfl, ?_⟩
    simp only [byteOf]
    norm_num
    omega
  · refine ⟨_, rfl, ?_⟩
    simp only [byteOf]
    norm_num
    omega
  · refine ⟨_, rfl, ?_⟩
    simp only [byteOf]
    norm_num
    omega
  · refine ⟨_, rfl, ?_⟩
    simp only [byteOf]
    norm_num
    omega

/-- Claim C24. For a product data file of complete records, sorted or not, the
index freshly built from it by `criarIndiceProdutos` at another path, and any
identifier, `consultarProdutoComIndice` and `pesquisarProduto` agree: both
succeed with the same record, which is a record of the file with that
identifier, or both fail with not-found, or both fail with the read error at
the end of the file they search.  The size of the data file is an `int64`. -/
theorem consulta_concorda_com_pesquisa (fs : FS) (filenameProd indexProd : String)
    (rs : List Produto) (id : Int) (hfile : fs filenameProd = some (encodeAll rs))
    (hne : filenameProd ≠ indexProd)
    (hsize : (rs.length : Int) * 52 < 9223372036854775808) :
    (∃ r : Produto, r ∈ rs ∧ idOf r = id
        ∧ consultarProdutoComIndice (criarIndiceProdutos fs filenameProd indexProd).1
            indexProd filenameProd id = .ok r
        ∧ pesquisarProduto (criarIndiceProdutos fs filenameProd indexProd).1 filenameProd id
            = .ok r)
      ∨ (consultarProdutoComIndice (criarIndiceProdutos fs filenameProd indexProd).1
            indexProd filenameProd id = .error (.naoEncontrado id)
        ∧ pesquisarProduto (criarIndiceProdutos fs filenameProd indexProd).1 filenameProd id
            = .error (.naoEncontrado id))
      ∨ (consultarProdutoComIndice (criarIndiceProdutos fs filenameProd indexProd).1
            indexProd filenameProd id = .error (.lerIndice .eof)
        ∧ pesquisarProduto (criarIndiceProdutos fs filenameProd indexProd).1 filenameProd id
            = .error (.ler .eof)) :=
  consultar_concorda lawful_produto fs filenameProd indexProd rs id hfile hne hsize

/-- Witness of C24: the unsorted file with identifiers 3, 1, 2, in which the
identifier 3 is present and neither lookup finds it. -/
theorem consulta_concorda_com_pesquisa_witness :
    (consultarProdutoComIndice
          (criarIndiceProdutos (fsCom [3, 1, 2]) "produtos.bin" "indice_produtos.dat").1
          "indice_produtos.dat" "produtos.bin" 3 = .error (.lerIndice .eof)
        ∧ pesquisarProduto
          (criarIndiceProdutos (fsCom [3, 1, 2]) "produtos.bin" "indice_produtos.dat").1
          "produtos.bin" 3 = .error (.ler .eof))
      ∧ ((∃ r : Produto, r ∈ [3, 1, 2].map exemploProduto ∧ idOf r = 3
          ∧ consultarProdutoComIndice
              (criarIndiceProdutos (fsCom [3, 1, 2]) "produtos.bin" "indice_produtos.dat").1
              "indice_produtos.dat" "produtos.bin" 3 = .ok r
          ∧ pesquisarProduto
              (criarIndiceProdutos (fsCom [3, 1, 2]) "produtos.bin" "indice_produtos.dat").1
              "produtos.bin" 3 = .ok r)
        ∨ (consultarProdutoComIndice
              (criarIndiceProdutos (fsCom [3, 1, 2]) "produtos.bin" "indice_produtos.dat").1
              "indice_produtos.dat" "produtos.bin" 3 = .error (.naoEncontrado 3)
          ∧ pesquisarProduto
              (criarIndiceProdutos (fsCom [3, 1, 2]) "produtos.bin" "indice_produtos.dat").1
              "produtos.bin" 3 = .error (.naoEncontrado 3))
        ∨ (consultarProdutoComIndice
              (criarIndiceProdutos (fsCom [3, 1, 2]) "produtos.bin" "indice_produtos.dat").1
              "indice_produtos.dat" "produtos.bin" 3 = .error (.lerIndice .eof)
          ∧ pesquisarProduto
              (criarIndiceProdutos (fsCom [3, 1, 2]) "produtos.bin" "indice_produtos.dat").1
              "produtos.bin" 3 = .error (.ler .eof))) :=
  ⟨by decide,
    consulta_concorda_com_pesquisa (fsCom [3, 1, 2]) "produtos.bin" "indice_produtos.dat"
      ([3, 1, 2].map exemploProduto) 3 rfl (by decide) (by decide)⟩

/-- Claim C25. Without any ordering assumption, on a data file sorted or not
and with or without repeated identifiers: when `pesquisarProduto` returns
successfully on a file of complete records, the record returned is a record of
the file and its identifier is the one asked for; likewise `pesquisarAcesso`.
On a file of any bytes whatsoever, a record returned successfully is the
decoding of a whole block of the file that starts at a record boundary, and
its identifier is the one asked for. -/
theorem pesquisar_devolve_registro_do_arquivo :
    (∀ (fs : FS) (filename : String) (rs : List Produto) (id : Int) (r : Produto),
        fs filename = some (encodeAll rs) → pesquisarProduto fs filename id = .ok r →
        r ∈ rs ∧ idOf r = id)
    ∧ (∀ (fs : FS) (filename : String) (rs : List Acesso) (id : Int) (r : Acesso),
        fs filename = some (encodeAll rs) → pesquisarAcesso fs filename id = .ok r →
        r ∈ rs ∧ idOf r = id)
    ∧ (∀ (fs : FS) (filename : String) (bytes : List Byte) (id : Int) (r : Produto),
        fs filename = some bytes → pesquisarProduto fs filename id = .ok r →
        ∃ i : Nat, i < bytes.length / 52
          ∧ r = Record.decode ((bytes.drop (i * 52)).take 52) ∧ idOf r = id)
    ∧ (∀ (fs : FS) (filename : String) (bytes : List Byte) (id : Int) (r : Acesso),
        fs filename = some bytes → pesquisarAcesso fs filename id = .ok r →
        ∃ i : Nat, i < bytes.length / 38
          ∧ r = Record.decode ((bytes.drop (i * 38)).take 38) ∧ idOf r = id) := by
  refine ⟨?_, ?_, ?_, ?_⟩
  · intro fs filename rs id r hfile hok
    exact pesquisar_correto lawful_produto fs filename rs id r hfile hok
  · intro fs filename rs id r hfile hok
    exact pesquisar_correto lawful_acesso fs filename rs id r hfile hok
  · intro fs filename bytes id r hfile hok
    exact pesquisar_bloco lawful_produto.size_pos fs filename bytes id r hfile hok
  · intro fs filename bytes id r hfile hok
    exact pesquisar_bloco lawful_acesso.size_pos fs filename bytes id r hfile hok

/-- Witness of C25: the unsorted files with identifiers 3, 1, 3, searched for 1,
and a product file that ends in an incomplete block, searched for 1. -/
theorem pesquisar_devolve_registro_do_arquivo_witness :
    (exemploProduto 1 ∈ [3, 1, 3].map exemploProduto ∧ idOf (exemploProduto 1) = 1)
      ∧ (exemploAcesso 1 ∈ [3, 1, 3].map exemploAcesso ∧ idOf (exemploAcesso 1) = 1)
      ∧ (∃ i : Nat, i < (encodeAll ([1, 2].map exemploProduto) ++ [7]).length / 52
          ∧ exemploProduto 1 = Record.decode
              (((encodeAll ([1, 2].map exemploProduto) ++ [7]).drop (i * 52)).take 52)
          ∧ idOf (exemploProduto 1) = 1) :=
  ⟨pesquisar_devolve_registro_do_arquivo.1 (fsCom [3, 1, 3]) "produtos.bin"
      ([3, 1, 3].map exemploProduto) 1 (exemploProduto 1) rfl (by decide),
    pesquisar_devolve_registro_do_arquivo.2.1 (fsCom [3, 1, 3]) "acessos.bin"
      ([3, 1, 3].map exemploAcesso) 1 (exemploAcesso 1) rfl (by decide),
    pesquisar_devolve_registro_do_arquivo.2.2.1
      (fsDe "produtos.bin" (encodeAll ([1, 2].map exemploProduto) ++ [7])) "produtos.bin"
      (encodeAll ([1, 2].map exemploProduto) ++ [7]) 1 (exemploProduto 1) (by decide)
      (by decide)⟩

end IndexGo
